import Mathlib

set_option linter.unusedSectionVars false

/-!
# Verification of the vaws bounded concurrent resource loader and tunnel orchestrator

Shallow embedding of the Go sources of the `vaws` terminal dashboard:
the SQS batch loader (`ListQueues`, `fetchQueueAttributesBatch`,
`ListQueuesPagedCallback`), the Lambda paged loader, the UI incremental
loaders (`loadQueues`, `loadFunctions`, `loadTables`), the tunnel commands
(`tunnels.go`), the `RegionSelector` component, and the relevant parts of
Go's standard `sort` package (`sort.Slice` is pdqsort, transcribed from
`sort/zsortfunc.go`), together with theorems checking the specification's
claims against them.
-/

namespace VAWS

/-! ## Part 1: Go `sort.Slice` (pdqsort), transcribed from `sort/zsortfunc.go`

`sort.Slice` sorts using pdqsort and is documented as *not* stable.
The embedding models the Go slice as a `List α` with out-of-range reads
returning `default` (never exercised by in-range executions), and the
comparison closure as `less : α → α → Bool`.  Loops whose index bounds
only shrink by data-dependent amounts take explicit fuel; every caller
passes fuel that dominates the Go iteration count, so the embedding agrees
with the Go code on every input. -/

variable {α : Type*} [Inhabited α]

/-- `data[i]` for the modelled slice. -/
def idx (l : List α) (i : Nat) : α := l.getD i default

/-- `data.Swap(i, j)` for the modelled slice. -/
def swapL (l : List α) (i j : Nat) : List α := (l.set i (idx l j)).set j (idx l i)

/-- Inner loop of `insertionSort_func`:
`for j := i; j > a && data.Less(j, j-1); j-- { data.Swap(j, j-1) }`. -/
def insertionSortInner (less : α → α → Bool) (a : Nat) (l : List α) (j : Nat) : List α :=
  if h : a < j ∧ less (idx l j) (idx l (j - 1)) then
    insertionSortInner less a (swapL l j (j - 1)) (j - 1)
  else l
termination_by j
decreasing_by exact Nat.sub_lt (Nat.lt_of_le_of_lt (Nat.zero_le a) h.1) Nat.one_pos

/-- Outer loop of `insertionSort_func`: `for i := a + 1; i < b; i++`. -/
def insertionSortOuter (less : α → α → Bool) (a b : Nat) (i : Nat) (l : List α) : List α :=
  if h : i < b then insertionSortOuter less a b (i + 1) (insertionSortInner less a l i) else l
termination_by b - i
decreasing_by exact Nat.sub_lt_sub_left h (Nat.lt_succ_self i)

/-- `insertionSort_func(data, a, b)` sorts `data[a:b]` using insertion sort. -/
def insertionSortGo (less : α → α → Bool) (a b : Nat) (l : List α) : List α :=
  insertionSortOuter less a b (a + 1) l

/-- `siftDown_func(data, lo, hi, first)` implements the heap property over
`data[lo:hi]` (`root` is the loop variable initialised to `lo`). -/
def siftDownGo (less : α → α → Bool) (hi first : Nat) (l : List α) (root : Nat) : List α :=
  if h : 2 * root + 1 < hi then
    if h2 : 2 * root + 1 + 1 < hi ∧
        less (idx l (first + (2 * root + 1))) (idx l (first + (2 * root + 1) + 1)) then
      if less (idx l (first + root)) (idx l (first + (2 * root + 1 + 1))) then
        siftDownGo less hi first (swapL l (first + root) (first + (2 * root + 1 + 1)))
          (2 * root + 1 + 1)
      else l
    else
      if less (idx l (first + root)) (idx l (first + (2 * root + 1))) then
        siftDownGo less hi first (swapL l (first + root) (first + (2 * root + 1)))
          (2 * root + 1)
      else l
  else l
termination_by hi - root
decreasing_by
  · omega
  · omega

/-- First loop of `heapSort_func`: `for i := (hi-1)/2; i >= 0; i--` (builds the heap);
`i` counts down to `0` inclusively. -/
def heapSortBuild (less : α → α → Bool) (hi first : Nat) (l : List α) : Nat → List α
  | 0 => siftDownGo less hi first l 0
  | i + 1 => heapSortBuild less hi first (siftDownGo less hi first l (i + 1)) i

/-- Second loop of `heapSort_func`: `for i := hi-1; i >= 0; i--`
(`data.Swap(first, first+i); siftDown(data, lo, i, first)`), counting down to `0`. -/
def heapSortPop (less : α → α → Bool) (first : Nat) (l : List α) : Nat → List α
  | 0 => siftDownGo less 0 first (swapL l first first) 0
  | i + 1 => heapSortPop less first (siftDownGo less (i + 1) first (swapL l first (first + (i + 1))) 0) i

/-- `heapSort_func(data, a, b)`.  In Go the pop loop does not run when `hi = 0`
(`i` starts at `-1`); the guard mirrors this. -/
def heapSortGo (less : α → α → Bool) (a b : Nat) (l : List α) : List α :=
  let first := a
  let hi := b - a
  let l1 := heapSortBuild less hi first l ((hi - 1) / 2)
  if hi = 0 then l1 else heapSortPop less first l1 (hi - 1)

/-- `reverseRange_func` body: `i, j := a, b-1; for i < j { swap(i, j); i++; j-- }`. -/
def reverseRangeLoop (l : List α) (i j : Nat) : List α :=
  if h : i < j then reverseRangeLoop (swapL l i j) (i + 1) (j - 1) else l
termination_by j - i
decreasing_by omega

/-- `reverseRange_func(data, a, b)`. -/
def reverseRangeGo (l : List α) (a b : Nat) : List α := reverseRangeLoop l a (b - 1)

/-- One step of the xorshift generator used by `breakPatterns_func`
(`*r ^= *r << 13; *r ^= *r >> 7; *r ^= *r << 17` over `uint64`). -/
def xorshiftNext (s : Nat) : Nat :=
  let s1 := (s ^^^ (s <<< 13)) % 2 ^ 64
  let s2 := (s1 ^^^ (s1 >>> 7)) % 2 ^ 64
  (s2 ^^^ (s2 <<< 17)) % 2 ^ 64

/-- `bits.Len` for a nonnegative value: number of bits required to represent `n`. -/
def bitsLen (n : Nat) : Nat := if n = 0 then 0 else Nat.log2 n + 1

/-- `nextPowerOfTwo(length) = 1 << bits.Len(uint(length))`. -/
def nextPowerOfTwo (length : Nat) : Nat := 1 <<< bitsLen length

/-- One iteration of the `breakPatterns_func` loop:
`other := int(uint(random.Next()) & (modulus-1)); if other >= length { other -= length };
data.Swap(idx-1+i, a+other)` (`& (modulus-1)` is `% modulus` for the power of two). -/
def breakPatternsSwap (l : List α) (a length modulus idxPos r i : Nat) : List α × Nat :=
  let r1 := xorshiftNext r
  let other0 := r1 % modulus
  let other := if length ≤ other0 then other0 - length else other0
  (swapL l (idxPos - 1 + i) (a + other), r1)

/-- `breakPatterns_func(data, a, b)`: scatters three elements around
`a + length/4*2 - 1` using the xorshift generator seeded with the range length. -/
def breakPatternsGo (l : List α) (a b : Nat) : List α :=
  let length := b - a
  if 8 ≤ length then
    let modulus := nextPowerOfTwo length
    let idx0 := a + length / 4 * 2 - 1
    let st1 := breakPatternsSwap l a length modulus idx0 length 0
    let st2 := breakPatternsSwap st1.1 a length modulus idx0 st1.2 1
    (breakPatternsSwap st2.1 a length modulus idx0 st2.2 2).1
  else l

/-- Pivot hints of `choosePivot_func`. -/
inductive Hint where
  | increasing
  | decreasing
  | unknown
deriving DecidableEq

/-- `order2_func(data, a, b, &swaps)`: returns the two indices ordered by the data,
bumping the swap counter when they are exchanged. -/
def order2Go (less : α → α → Bool) (l : List α) (a b swaps : Nat) : Nat × Nat × Nat :=
  if less (idx l b) (idx l a) then (b, a, swaps + 1) else (a, b, swaps)

/-- `median_func(data, a, b, c, &swaps)`: index of the median of three. -/
def medianGo (less : α → α → Bool) (l : List α) (a b c swaps : Nat) : Nat × Nat :=
  let (a1, b1, s1) := order2Go less l a b swaps
  let (b2, _, s2) := order2Go less l b1 c s1
  let (_, b3, s3) := order2Go less l a1 b2 s2
  (b3, s3)

/-- `medianAdjacent_func(data, a, &swaps)`: median of `data[a-1], data[a], data[a+1]`. -/
def medianAdjacentGo (less : α → α → Bool) (l : List α) (a swaps : Nat) : Nat × Nat :=
  medianGo less l (a - 1) a (a + 1) swaps

/-- `choosePivot_func(data, a, b)`: fixed-point pivot for small ranges, median of three
for `8 ≤ len`, Tukey ninther for `50 ≤ len`; the swap counter yields the hint. -/
def choosePivotGo (less : α → α → Bool) (l : List α) (a b : Nat) : Nat × Hint :=
  let len := b - a
  let i0 := a + len / 4 * 1
  let j0 := a + len / 4 * 2
  let k0 := a + len / 4 * 3
  let (j2, swaps) :=
    if 8 ≤ len then
      let (i1, j1, k1, s1) :=
        if 50 ≤ len then
          let (i1, sa) := medianAdjacentGo less l i0 0
          let (j1, sb) := medianAdjacentGo less l j0 sa
          let (k1, sc) := medianAdjacentGo less l k0 sb
          (i1, j1, k1, sc)
        else (i0, j0, k0, 0)
      medianGo less l i1 j1 k1 s1
    else (j0, 0)
  if swaps = 0 then (j2, Hint.increasing)
  else if swaps = 12 then (j2, Hint.decreasing)
  else (j2, Hint.unknown)

/-- `for i < b && !data.Less(i, i-1) { i++ }` of `partialInsertionSort_func`. -/
def pisAdvance (less : α → α → Bool) (b : Nat) (l : List α) (i : Nat) : Nat :=
  if h : i < b ∧ ¬ less (idx l i) (idx l (i - 1)) then pisAdvance less b l (i + 1) else i
termination_by b - i
decreasing_by exact Nat.sub_lt_sub_left h.1 (Nat.lt_succ_self i)

/-- Left-shift loop of `partialInsertionSort_func`:
`for j := i - 1; j >= 1; j-- { if !data.Less(j, j-1) { break }; data.Swap(j, j-1) }`. -/
def pisShiftLeft (less : α → α → Bool) (l : List α) : Nat → List α
  | 0 => l
  | j + 1 =>
    if ¬ less (idx l (j + 1)) (idx l j) then l
    else pisShiftLeft less (swapL l (j + 1) j) j

/-- Right-shift loop of `partialInsertionSort_func`:
`for j := i + 1; j < b; j++ { if !data.Less(j, j-1) { break }; data.Swap(j, j-1) }`. -/
def pisShiftRight (less : α → α → Bool) (b : Nat) (l : List α) (j : Nat) : List α :=
  if h : j < b then
    if ¬ less (idx l j) (idx l (j - 1)) then l
    else pisShiftRight less b (swapL l j (j - 1)) (j + 1)
  else l
termination_by b - j
decreasing_by exact Nat.sub_lt_sub_left h (Nat.lt_succ_self j)

/-- The `maxSteps = 5` loop of `partialInsertionSort_func`; `i` persists across steps. -/
def partialInsertionSortLoop (less : α → α → Bool) (a b : Nat) (l : List α) (i : Nat) :
    Nat → List α × Bool
  | 0 => (l, false)
  | steps + 1 =>
    let i1 := pisAdvance less b l i
    if i1 = b then (l, true)
    else if b - a < 50 then (l, false)
    else
      let l1 := swapL l i1 (i1 - 1)
      let l2 := if 2 ≤ i1 - a then pisShiftLeft less l1 (i1 - 1) else l1
      let l3 := if 2 ≤ b - i1 then pisShiftRight less b l2 (i1 + 1) else l2
      partialInsertionSortLoop less a b l3 i1 steps

/-- `partialInsertionSort_func(data, a, b)`: partially sorts, returning whether
`data[a:b]` ended up sorted. -/
def partialInsertionSortGo (less : α → α → Bool) (a b : Nat) (l : List α) : List α × Bool :=
  partialInsertionSortLoop less a b l (a + 1) 5

/-- `for i <= j && data.Less(i, a) { i++ }` of `partition_func`. -/
def partAdvanceI (less : α → α → Bool) (l : List α) (a j : Nat) (i : Nat) : Nat :=
  if h : i ≤ j ∧ less (idx l i) (idx l a) then partAdvanceI less l a j (i + 1) else i
termination_by j + 1 - i
decreasing_by omega

/-- `for i <= j && !data.Less(j, a) { j-- }` of `partition_func`.  Every call site
has `1 ≤ i`, so the loop never attempts to decrement below `0`; the `0` case is
therefore out of range and returns `0`. -/
def partAdvanceJ (less : α → α → Bool) (l : List α) (a i : Nat) : Nat → Nat
  | 0 => 0
  | j + 1 =>
    if i ≤ j + 1 ∧ ¬ less (idx l (j + 1)) (idx l a) then partAdvanceJ less l a i j else j + 1

/-- Main swap loop of `partition_func` (fuel dominates the iteration count:
`i` strictly increases towards `b` on every pass). -/
def partitionLoopGo (less : α → α → Bool) (a : Nat) : Nat → List α → Nat → Nat → List α × Nat
  | 0, l, _, j => (l, j)
  | fuel + 1, l, i, j =>
    let i1 := partAdvanceI less l a j i
    let j1 := partAdvanceJ less l a i1 j
    if j1 < i1 then (l, j1)
    else partitionLoopGo less a fuel (swapL l i1 j1) (i1 + 1) (j1 - 1)

/-- `partition_func(data, a, b, pivot)`: Hoare-style partition around `data[pivot]`;
returns the new pivot position and whether the range was already partitioned. -/
def partitionGo (less : α → α → Bool) (a b pivot : Nat) (l : List α) : List α × Nat × Bool :=
  let l0 := swapL l a pivot
  let i0 := a + 1
  let j0 := b - 1
  let i1 := partAdvanceI less l0 a j0 i0
  let j1 := partAdvanceJ less l0 a i1 j0
  if j1 < i1 then (swapL l0 j1 a, j1, true)
  else
    let l1 := swapL l0 i1 j1
    let (l2, j2) := partitionLoopGo less a b l1 (i1 + 1) (j1 - 1)
    (swapL l2 j2 a, j2, false)

/-- `for i <= j && !data.Less(a, i) { i++ }` of `partitionEqual_func`. -/
def peqAdvanceI (less : α → α → Bool) (l : List α) (a j : Nat) (i : Nat) : Nat :=
  if h : i ≤ j ∧ ¬ less (idx l a) (idx l i) then peqAdvanceI less l a j (i + 1) else i
termination_by j + 1 - i
decreasing_by omega

/-- `for i <= j && data.Less(a, j) { j-- }` of `partitionEqual_func`; as with
`partAdvanceJ`, call sites keep `1 ≤ i` so the `0` case is out of range. -/
def peqAdvanceJ (less : α → α → Bool) (l : List α) (a i : Nat) : Nat → Nat
  | 0 => 0
  | j + 1 =>
    if i ≤ j + 1 ∧ less (idx l a) (idx l (j + 1)) then peqAdvanceJ less l a i j else j + 1

/-- Main loop of `partitionEqual_func` (fuelled like `partitionLoopGo`). -/
def partitionEqualLoop (less : α → α → Bool) (a : Nat) : Nat → List α → Nat → Nat → List α × Nat
  | 0, l, i, _ => (l, i)
  | fuel + 1, l, i, j =>
    let i1 := peqAdvanceI less l a j i
    let j1 := peqAdvanceJ less l a i1 j
    if j1 < i1 then (l, i1)
    else partitionEqualLoop less a fuel (swapL l i1 j1) (i1 + 1) (j1 - 1)

/-- `partitionEqual_func(data, a, b, pivot)`: moves elements equal to `data[pivot]`
to the front, returning the first index of the strictly-greater suffix. -/
def partitionEqualGo (less : α → α → Bool) (a b pivot : Nat) (l : List α) : List α × Nat :=
  let l0 := swapL l a pivot
  partitionEqualLoop less a (b + 1) l0 (a + 1) (b - 1)

/-- The tail of a `pdqsort_func` loop iteration, from the
many-duplicates check onwards.  `rec` re-enters the loop (Go `continue` with
updated state) or recurses; in the embedding both consume one unit of fuel. -/
def pdqsortAfterPivot (less : α → α → Bool)
    (rec : List α → Nat → Nat → Nat → Bool → Bool → List α)
    (l3 : List α) (a b limit1 pivot1 : Nat) (wasBalanced wasPartitioned : Bool) : List α :=
  if 0 < a ∧ ¬ less (idx l3 (a - 1)) (idx l3 pivot1) then
    let pe := partitionEqualGo less a b pivot1 l3
    rec pe.1 pe.2 b limit1 wasBalanced wasPartitioned
  else
    let pt := partitionGo less a b pivot1 l3
    let leftLen := pt.2.1 - a
    let rightLen := b - pt.2.1
    let balanceThreshold := (b - a) / 8
    let nowBalanced := decide (balanceThreshold ≤ min leftLen rightLen)
    if leftLen < rightLen then
      let l5 := rec pt.1 a pt.2.1 limit1 true true
      rec l5 (pt.2.1 + 1) b limit1 nowBalanced pt.2.2
    else
      let l5 := rec pt.1 (pt.2.1 + 1) b limit1 true true
      rec l5 a pt.2.1 limit1 nowBalanced pt.2.2

/-- The body of one `pdqsort_func` loop iteration after the insertion-sort and
heap-sort opt-outs: optional `breakPatterns` (`if !wasBalanced`), pivot choice,
optional `reverseRange` on a decreasing hint, optional partial insertion sort,
then partitioning via `pdqsortAfterPivot`. -/
def pdqsortBody (less : α → α → Bool)
    (rec : List α → Nat → Nat → Nat → Bool → Bool → List α)
    (l : List α) (a b limit : Nat) (wasBalanced wasPartitioned : Bool) : List α :=
  let l1 := if wasBalanced then l else breakPatternsGo l a b
  let limit1 := if wasBalanced then limit else limit - 1
  let pv := choosePivotGo less l1 a b
  let l2 := if pv.2 = Hint.decreasing then reverseRangeGo l1 a b else l1
  let pivot1 := if pv.2 = Hint.decreasing then (b - 1) - (pv.1 - a) else pv.1
  let hint1 := if pv.2 = Hint.decreasing then Hint.increasing else pv.2
  let pis :=
    if wasBalanced ∧ wasPartitioned ∧ hint1 = Hint.increasing then
      partialInsertionSortGo less a b l2
    else (l2, false)
  if pis.2 then pis.1
  else pdqsortAfterPivot less rec pis.1 a b limit1 pivot1 wasBalanced wasPartitioned

/-- `pdqsort_func(data, a, b, limit)`.  The Go `for` loop re-enters with updated
`a`/`b`/`limit`/`wasBalanced`/`wasPartitioned` and recursive invocations restart
with both flags `true`; both are modelled through `rec` in `pdqsortBody`.
Fuel dominates the loop/recursion depth (each re-entry strictly shrinks
`b - a`), so with the fuel supplied by `sortSliceGo` the embedding computes
exactly the Go result. -/
def pdqsortGo (less : α → α → Bool) :
    Nat → List α → Nat → Nat → Nat → Bool → Bool → List α
  | 0, l, _, _, _, _, _ => l
  | fuel + 1, l, a, b, limit, wasBalanced, wasPartitioned =>
    if b - a ≤ 12 then insertionSortGo less a b l
    else if limit = 0 then heapSortGo less a b l
    else pdqsortBody less (pdqsortGo less fuel) l a b limit wasBalanced wasPartitioned

/-- `sort.Slice(x, less)`: `pdqsort(data, 0, length, bits.Len(uint(length)))`.
The fuel `l.length + 64` dominates the re-entry depth of `pdqsort_func`
(every re-entry strictly shrinks the range). -/
def sortSliceGo (less : α → α → Bool) (l : List α) : List α :=
  pdqsortGo less (l.length + 64) l 0 l.length (bitsLen l.length) true true

/-! ## Part 2: reference stable insertion sort and correctness of the Go
insertion-sort path

`insertF` inserts an element into an already-sorted accumulator *after* all
elements whose key is `≤` its own (Go's `data.Less(j, j-1)` bubbles the new
element down past strictly greater predecessors only); left-to-right folding
with `insertF` is therefore the stable insertion sort, and below it is proved
equal to `insertionSortGo` — the path `sort.Slice` takes for ranges of at most
12 elements. -/

section StableSort

variable {K : Type*} [LinearOrder K] (key : α → K)

/-- Insert `x` before the first element with strictly greater key. -/
def insertF (less : α → α → Bool) (x : α) : List α → List α
  | [] => [x]
  | y :: ys => if less x y then x :: y :: ys else y :: insertF less x ys

/-- Left-to-right (stable) insertion sort. -/
def insertionSortF (less : α → α → Bool) (l : List α) : List α :=
  l.foldl (fun acc x => insertF less x acc) []

/-- The comparison closure used with a sort key (`strings.ToLower` of the name
in the SQS loader). -/
def keyLess : α → α → Bool := fun a b => decide (key a < key b)

/-- Nondecreasing-by-key predicate. -/
def SortedKey (l : List α) : Prop := l.Pairwise (fun u v => key u ≤ key v)

theorem insertF_length (x : α) (p : List α) (less : α → α → Bool) :
    (insertF less x p).length = p.length + 1 := by
  induction p with
  | nil => rfl
  | cons y ys ih =>
    simp only [insertF]
    split <;> simp [ih]

theorem mem_insertF {x z : α} {p : List α} {less : α → α → Bool} :
    z ∈ insertF less x p ↔ z = x ∨ z ∈ p := by
  induction p with
  | nil => simp [insertF]
  | cons y ys ih =>
    simp only [insertF]
    split
    · simp
    · simp only [List.mem_cons, ih]
      tauto

theorem insertF_perm (x : α) (p : List α) (less : α → α → Bool) :
    List.Perm (insertF less x p) (x :: p) := by
  induction p with
  | nil => exact List.Perm.refl _
  | cons y ys ih =>
    simp only [insertF]
    split
    · exact List.Perm.refl _
    · exact (ih.cons y).trans (List.Perm.swap x y ys)

theorem insertF_append_single {x y : α} (q : List α) (hxy : key x < key y) :
    insertF (keyLess key) x (q ++ [y]) = insertF (keyLess key) x q ++ [y] := by
  induction q with
  | nil => simp [insertF, keyLess, hxy]
  | cons z zs ih =>
    simp only [List.cons_append, insertF]
    split <;> simp [ih]

theorem insertF_eq_append {x : α} {p : List α} (h : ∀ z ∈ p, ¬ key x < key z) :
    insertF (keyLess key) x p = p ++ [x] := by
  induction p with
  | nil => rfl
  | cons y ys ih =>
    have hy : ¬ key x < key y := h y (by simp)
    simp only [insertF, keyLess, hy, decide_False, Bool.false_eq_true, if_false]
    rw [ih (fun z hz => h z (by simp [hz]))]
    simp

theorem insertF_sorted {x : α} {p : List α} (hp : SortedKey key p) :
    SortedKey key (insertF (keyLess key) x p) := by
  induction p with
  | nil => simp [insertF, SortedKey]
  | cons y ys ih =>
    rcases List.pairwise_cons.1 hp with ⟨hy, hys⟩
    simp only [insertF]
    by_cases hxy : key x < key y
    · simp only [keyLess, hxy, decide_True, if_true]
      refine List.pairwise_cons.2 ⟨?_, hp⟩
      intro z hz
      rcases List.mem_cons.1 hz with rfl | hz
      · exact le_of_lt hxy
      · exact le_trans (le_of_lt hxy) (hy z hz)
    · simp only [keyLess, hxy, decide_False, Bool.false_eq_true, if_false]
      refine List.pairwise_cons.2 ⟨?_, ih hys⟩
      intro z hz
      rcases mem_insertF.1 hz with rfl | hz
      · exact le_of_not_lt hxy
      · exact hy z hz

theorem insertF_filter {x : α} {p : List α} (hp : SortedKey key p) (k : K) :
    (insertF (keyLess key) x p).filter (fun z => decide (key z = k)) =
      if key x = k then p.filter (fun z => decide (key z = k)) ++ [x]
      else p.filter (fun z => decide (key z = k)) := by
  induction p with
  | nil =>
    simp only [insertF, List.filter]
    by_cases hx : key x = k <;> simp [hx]
  | cons y ys ih =>
    rcases List.pairwise_cons.1 hp with ⟨hy, hys⟩
    simp only [insertF]
    by_cases hxy : key x < key y
    · simp only [keyLess, hxy, decide_True, if_true]
      by_cases hx : key x = k
      · have hyk : ¬ key y = k := fun h => absurd hxy (by simp [hx, h, lt_irrefl])
        have hfily : ys.filter (fun z => decide (key z = k)) = [] := by
          rw [List.filter_eq_nil_iff]
          intro z hz
          simp only [decide_eq_true_eq]
          intro h
          have hyz : key y ≤ key z := hy z hz
          exact absurd (lt_of_lt_of_le hxy hyz) (by simp [hx, h, lt_irrefl])
        simp [List.filter, hx, hyk, hfily]
      · simp [List.filter, hx]
    · simp only [keyLess, hxy, decide_False, Bool.false_eq_true, if_false]
      by_cases hyk : key y = k <;> by_cases hx : key x = k <;>
        simp [List.filter, hyk, hx, ih hys]

theorem foldl_insertF_perm (l : List α) (acc : List α) (less : α → α → Bool) :
    List.Perm (l.foldl (fun acc x => insertF less x acc) acc) (acc ++ l) := by
  induction l generalizing acc with
  | nil => simp
  | cons x xs ih =>
    have h1 : (x :: xs).foldl (fun acc x => insertF less x acc) acc
        = xs.foldl (fun acc x => insertF less x acc) (insertF less x acc) := rfl
    rw [h1]
    refine (ih (insertF less x acc)).trans ?_
    refine (List.Perm.append_right xs (insertF_perm x acc less)).trans ?_
    have hm : List.Perm (acc ++ x :: xs) (x :: (acc ++ xs)) := List.perm_middle
    simpa using hm.symm

theorem foldl_insertF_sorted (l : List α) {acc : List α} (hacc : SortedKey key acc) :
    SortedKey key (l.foldl (fun acc x => insertF (keyLess key) x acc) acc) := by
  induction l generalizing acc with
  | nil => exact hacc
  | cons x xs ih => exact ih (insertF_sorted key hacc)

theorem foldl_insertF_filter (l : List α) {acc : List α} (hacc : SortedKey key acc) (k : K) :
    (l.foldl (fun acc x => insertF (keyLess key) x acc) acc).filter
        (fun z => decide (key z = k)) =
      acc.filter (fun z => decide (key z = k)) ++ l.filter (fun z => decide (key z = k)) := by
  induction l generalizing acc with
  | nil => simp
  | cons x xs ih =>
    have hs : SortedKey key (insertF (keyLess key) x acc) := insertF_sorted key hacc
    have step := ih hs
    calc ((x :: xs).foldl (fun acc x => insertF (keyLess key) x acc) acc).filter
          (fun z => decide (key z = k))
        = (insertF (keyLess key) x acc).filter (fun z => decide (key z = k)) ++
            xs.filter (fun z => decide (key z = k)) := step
      _ = acc.filter (fun z => decide (key z = k)) ++
            (x :: xs).filter (fun z => decide (key z = k)) := by
          rw [insertF_filter key hacc k]
          by_cases hx : key x = k <;> simp [List.filter, hx]

theorem insertionSortF_perm (l : List α) (less : α → α → Bool) :
    List.Perm (insertionSortF less l) l := by
  simpa [insertionSortF] using foldl_insertF_perm l [] less

theorem insertionSortF_sorted (l : List α) :
    SortedKey key (insertionSortF (keyLess key) l) :=
  foldl_insertF_sorted key l (by simp [SortedKey])

theorem insertionSortF_filter (l : List α) (k : K) :
    (insertionSortF (keyLess key) l).filter (fun z => decide (key z = k)) =
      l.filter (fun z => decide (key z = k)) := by
  simpa [insertionSortF] using foldl_insertF_filter key l (by simp [SortedKey]) k

end StableSort

/-! ### Bridge: the Go insertion sort equals the reference stable sort -/

section Bridge

variable {K : Type*} [LinearOrder K] (key : α → K)

theorem idx_append (q t : List α) (k : Nat) : idx (q ++ t) (q.length + k) = idx t k := by
  induction q with
  | nil => simp [idx]
  | cons z zs ih => simpa [idx, Nat.succ_add] using ih

theorem set_append (q t : List α) (k : Nat) (v : α) :
    (q ++ t).set (q.length + k) v = q ++ t.set k v := by
  induction q with
  | nil => simp
  | cons z zs ih => simpa [Nat.succ_add] using ih

theorem swapL_middle (q t : List α) (x y : α) :
    swapL (q ++ y :: x :: t) (q.length + 1) q.length = q ++ x :: y :: t := by
  have h1 : idx (q ++ y :: x :: t) q.length = y := by
    simpa using idx_append q (y :: x :: t) 0
  have h2 : idx (q ++ y :: x :: t) (q.length + 1) = x := idx_append q (y :: x :: t) 1
  rw [swapL, h1, h2]
  have e1 : (q ++ y :: x :: t).set (q.length + 1) y = q ++ y :: y :: t := by
    simpa using set_append q (y :: x :: t) 1 y
  rw [e1]
  simpa using set_append q (y :: y :: t) 0 x

theorem insertionSortInner_spec (x : α) :
    ∀ p : List α, SortedKey key p → ∀ rest : List α,
      insertionSortInner (keyLess key) 0 (p ++ x :: rest) p.length =
        insertF (keyLess key) x p ++ rest := by
  intro p
  induction p using List.reverseRecOn with
  | nil =>
    intro _ rest
    rw [insertionSortInner]
    simp [insertF]
  | append_singleton q y ih =>
    intro hs rest
    have hq : SortedKey key q :=
      hs.sublist (by simpa using List.sublist_append_left q [y])
    have hl : (q ++ [y]) ++ x :: rest = q ++ y :: x :: rest := by simp
    have hlen : (q ++ [y]).length = q.length + 1 := by simp
    rw [hl, hlen, insertionSortInner]
    have hx : idx (q ++ y :: x :: rest) (q.length + 1) = x := idx_append q _ 1
    have hy : idx (q ++ y :: x :: rest) q.length = y := by
      simpa using idx_append q (y :: x :: rest) 0
    by_cases hc : key x < key y
    · rw [dif_pos (by simp [hx, hy, keyLess, hc])]
      have hswap : swapL (q ++ y :: x :: rest) (q.length + 1) (q.length + 1 - 1) =
          q ++ x :: y :: rest := by
        simpa using swapL_middle q rest x y
      rw [hswap, show q.length + 1 - 1 = q.length from rfl]
      rw [ih hq (y :: rest), insertF_append_single key q hc]
      simp
    · rw [dif_neg (by simp [hx, hy, keyLess, hc])]
      have hall : ∀ z ∈ q ++ [y], ¬ key x < key z := by
        intro z hz
        rcases List.mem_append.1 hz with hz | hz
        · have hzy : key z ≤ key y := by
            have := List.pairwise_append.1 hs
            exact this.2.2 z hz y (by simp)
          exact fun hlt => hc (lt_of_lt_of_le hlt hzy)
        · rcases List.mem_singleton.1 hz with rfl
          exact hc
      rw [insertF_eq_append key hall]
      simp

theorem insertionSortOuter_spec :
    ∀ rest p : List α, SortedKey key p →
      insertionSortOuter (keyLess key) 0 (p.length + rest.length) p.length (p ++ rest) =
        rest.foldl (fun acc x => insertF (keyLess key) x acc) p := by
  intro rest
  induction rest with
  | nil =>
    intro p _
    rw [insertionSortOuter]
    simp
  | cons x xs ih =>
    intro p hp
    rw [insertionSortOuter, dif_pos (by simp only [List.length_cons]; omega)]
    rw [show insertionSortInner (keyLess key) 0 (p ++ x :: xs) p.length =
        insertF (keyLess key) x p ++ xs from insertionSortInner_spec key x p hp xs]
    have hlen : (insertF (keyLess key) x p).length = p.length + 1 :=
      insertF_length x p (keyLess key)
    have step := ih (insertF (keyLess key) x p) (insertF_sorted key hp)
    rw [hlen] at step
    rw [show p.length + (x :: xs).length = p.length + 1 + xs.length by
      simp only [List.length_cons]; omega]
    exact step

theorem insertionSortGo_eq (l : List α) :
    insertionSortGo (keyLess key) 0 l.length l = insertionSortF (keyLess key) l := by
  cases l with
  | nil =>
    rw [insertionSortGo, insertionSortOuter]
    simp [insertionSortF]
  | cons x rest =>
    have h := insertionSortOuter_spec key rest [x] (by simp [SortedKey])
    simp only [List.length_cons, List.length_nil, List.singleton_append, Nat.zero_add] at h
    rw [insertionSortGo]
    show insertionSortOuter (keyLess key) 0 (rest.length + 1) 1 (x :: rest) = _
    rw [show rest.length + 1 = 1 + rest.length from Nat.add_comm _ _, h]
    rfl

/-- For ranges of at most `maxInsertion = 12` elements, `pdqsort` immediately
delegates to its insertion sort. -/
theorem sortSliceGo_small (less : α → α → Bool) (l : List α) (h : l.length ≤ 12) :
    sortSliceGo less l = insertionSortGo less 0 l.length l := by
  rw [sortSliceGo, show l.length + 64 = (l.length + 63) + 1 from rfl, pdqsortGo]
  simp [h]

/-- `sort.Slice` on at most 12 elements computes the stable insertion sort. -/
theorem sortSliceGo_small_stable (l : List α) (h : l.length ≤ 12) :
    sortSliceGo (keyLess key) l = insertionSortF (keyLess key) l := by
  rw [sortSliceGo_small (keyLess key) l h, insertionSortGo_eq]

end Bridge

/-! ### The full pdqsort embedding permutes its input

Every mutation in `sort/zsortfunc.go` is a `data.Swap` at indices inside
`[0, len)`; the lemmas below thread the range bound `b ≤ l.length` through
each loop and conclude that `sortSliceGo` returns a permutation for inputs of
*every* length (the stability development above only covers the
insertion-sort regime). -/

section PdqPerm

theorem swapL_length (l : List α) (i j : Nat) : (swapL l i j).length = l.length := by
  simp [swapL]

theorem set_getD_self (l : List α) (i : Nat) (h : i < l.length) :
    l.set i (idx l i) = l := by
  induction l generalizing i with
  | nil => rfl
  | cons x xs ih =>
    cases i with
    | zero => simp [idx]
    | succ k =>
      simp only [List.set, idx, List.getD_cons_succ]
      rw [show xs.getD k default = idx xs k from rfl, ih k (by simpa using h)]

theorem swapL_decomp (p q r : List α) (x y : α) :
    swapL (p ++ x :: (q ++ y :: r)) p.length (p.length + (q.length + 1)) =
      p ++ y :: (q ++ x :: r) := by
  have hx : idx (p ++ x :: (q ++ y :: r)) p.length = x := by
    simpa using idx_append p (x :: (q ++ y :: r)) 0
  have hy : idx (p ++ x :: (q ++ y :: r)) (p.length + (q.length + 1)) = y := by
    rw [idx_append p (x :: (q ++ y :: r)) (q.length + 1)]
    show idx (q ++ y :: r) q.length = y
    simpa using idx_append q (y :: r) 0
  rw [swapL, hx, hy]
  have e1 : (p ++ x :: (q ++ y :: r)).set p.length y = p ++ y :: (q ++ y :: r) := by
    simpa using set_append p (x :: (q ++ y :: r)) 0 y
  rw [e1, set_append p (y :: (q ++ y :: r)) (q.length + 1) x]
  have e2 : (y :: (q ++ y :: r)).set (q.length + 1) x = y :: (q ++ x :: r) := by
    simp only [List.set_cons_succ]
    congr 1
    simpa using set_append q (y :: r) 0 x
  rw [e2]

theorem middle_swap_perm (p q r : List α) (x y : α) :
    List.Perm (p ++ y :: (q ++ x :: r)) (p ++ x :: (q ++ y :: r)) := by
  refine List.Perm.append_left p ?_
  have h1 : List.Perm (q ++ x :: r) (x :: (q ++ r)) := List.perm_middle
  have h2 : List.Perm (q ++ y :: r) (y :: (q ++ r)) := List.perm_middle
  refine ((h1.cons y).trans (List.Perm.swap x y (q ++ r))).trans ?_
  exact (h2.cons x).symm

theorem swapL_perm_lt (l : List α) (i j : Nat) (hij : i < j) (hj : j < l.length) :
    List.Perm (swapL l i j) l := by
  obtain ⟨p, t, hpt, hp⟩ : ∃ p t, l = p ++ t ∧ p.length = i :=
    ⟨l.take i, l.drop i, (List.take_append_drop i l).symm, by
      simp only [List.length_take]
      omega⟩
  have ht : t ≠ [] := by
    intro h
    rw [hpt, h, List.append_nil] at hj
    omega
  obtain ⟨x, t', rfl⟩ := List.exists_cons_of_ne_nil ht
  have hlen : l.length = p.length + (t'.length + 1) := by
    rw [hpt]
    simp
  obtain ⟨q, u, hqu, hq⟩ : ∃ q u, t' = q ++ u ∧ q.length = j - i - 1 :=
    ⟨t'.take (j - i - 1), t'.drop (j - i - 1), (List.take_append_drop _ t').symm, by
      simp only [List.length_take]
      omega⟩
  have hu : u ≠ [] := by
    intro h
    rw [h, List.append_nil] at hqu
    rw [hqu] at hlen
    omega
  obtain ⟨y, r, rfl⟩ := List.exists_cons_of_ne_nil hu
  have hshape : l = p ++ x :: (q ++ y :: r) := by
    rw [hpt, hqu]
  have hi' : i = p.length := hp.symm
  have hj' : j = p.length + (q.length + 1) := by omega
  rw [hshape, hi', hj', swapL_decomp]
  exact middle_swap_perm p q r x y

theorem swapL_perm (l : List α) (i j : Nat) (hi : i < l.length) (hj : j < l.length) :
    List.Perm (swapL l i j) l := by
  rcases Nat.lt_trichotomy i j with hij | rfl | hij
  · exact swapL_perm_lt l i j hij hj
  · rw [swapL, List.set_set, set_getD_self l i hi]
  · have hcomm : swapL l i j = swapL l j i := by
      rw [swapL, swapL, List.set_comm _ _ _ (Nat.ne_of_gt hij)]
    rw [hcomm]
    exact swapL_perm_lt l j i hij hi

theorem insertionSortInner_perm (less : α → α → Bool) (a : Nat) :
    ∀ (j : Nat) (l : List α), j < l.length →
      List.Perm (insertionSortInner less a l j) l := by
  intro j
  induction j using Nat.strong_induction_on with
  | _ j ih =>
    intro l hj
    rw [insertionSortInner]
    split
    · rename_i h
      have hswap := swapL_perm l j (j - 1) hj (by omega)
      have hlen := hswap.length_eq
      have hrec := ih (j - 1) (by omega) (swapL l j (j - 1)) (by rw [hlen]; omega)
      exact hrec.trans hswap
    · exact List.Perm.refl l

theorem insertionSortOuter_perm (less : α → α → Bool) (a b : Nat) :
    ∀ (fuel i : Nat) (l : List α), b - i ≤ fuel → b ≤ l.length →
      List.Perm (insertionSortOuter less a b i l) l := by
  intro fuel
  induction fuel with
  | zero =>
    intro i l hf hb
    rw [insertionSortOuter, dif_neg (by omega)]
  | succ n ih =>
    intro i l hf hb
    rw [insertionSortOuter]
    split
    · rename_i h
      have hin := insertionSortInner_perm less a i l (lt_of_lt_of_le h hb)
      exact (ih (i + 1) _ (by omega) (by rw [hin.length_eq]; exact hb)).trans hin
    · exact List.Perm.refl l

theorem insertionSortGo_perm (less : α → α → Bool) (a b : Nat) (l : List α)
    (hb : b ≤ l.length) : List.Perm (insertionSortGo less a b l) l :=
  insertionSortOuter_perm less a b b (a + 1) l (by omega) hb

theorem siftDownGo_perm (less : α → α → Bool) (hi first : Nat) :
    ∀ (fuel root : Nat) (l : List α), hi - root ≤ fuel → first + hi ≤ l.length →
      List.Perm (siftDownGo less hi first l root) l := by
  intro fuel
  induction fuel with
  | zero =>
    intro root l hf hb
    rw [siftDownGo, dif_neg (by omega)]
  | succ n ih =>
    intro root l hf hb
    rw [siftDownGo]
    split
    · rename_i h
      split
      · rename_i h2
        split
        · have hswap := swapL_perm l (first + root) (first + (2 * root + 1 + 1))
            (by omega) (by omega)
          exact (ih (2 * root + 1 + 1) _ (by omega)
            (by rw [hswap.length_eq]; exact hb)).trans hswap
        · exact List.Perm.refl l
      · split
        · have hswap := swapL_perm l (first + root) (first + (2 * root + 1))
            (by omega) (by omega)
          exact (ih (2 * root + 1) _ (by omega)
            (by rw [hswap.length_eq]; exact hb)).trans hswap
        · exact List.Perm.refl l
    · exact List.Perm.refl l

theorem heapSortBuild_perm (less : α → α → Bool) (hi first : Nat) :
    ∀ (i : Nat) (l : List α), first + hi ≤ l.length →
      List.Perm (heapSortBuild less hi first l i) l := by
  intro i
  induction i with
  | zero =>
    intro l hb
    exact siftDownGo_perm less hi first hi 0 l (by omega) hb
  | succ k ih =>
    intro l hb
    have hsd := siftDownGo_perm less hi first hi (k + 1) l (by omega) hb
    exact (ih _ (by rw [hsd.length_eq]; exact hb)).trans hsd

theorem heapSortPop_perm (less : α → α → Bool) (first : Nat) :
    ∀ (i : Nat) (l : List α), first + i < l.length →
      List.Perm (heapSortPop less first l i) l := by
  intro i
  induction i with
  | zero =>
    intro l hb
    have hswap := swapL_perm l first first (by omega) (by omega)
    exact (siftDownGo_perm less 0 first 0 0 _ (by omega)
      (by rw [hswap.length_eq]; omega)).trans hswap
  | succ k ih =>
    intro l hb
    have hswap := swapL_perm l first (first + (k + 1)) (by omega) (by omega)
    have hsd := siftDownGo_perm less (k + 1) first (k + 1) 0 _ (by omega)
      (by rw [hswap.length_eq]; omega)
    exact (ih _ (by rw [hsd.length_eq, hswap.length_eq]; omega)).trans (hsd.trans hswap)

theorem heapSortGo_perm (less : α → α → Bool) (a b : Nat) (l : List α)
    (hab : a ≤ b) (hb : b ≤ l.length) : List.Perm (heapSortGo less a b l) l := by
  simp only [heapSortGo]
  have hbuild := heapSortBuild_perm less (b - a) a ((b - a - 1) / 2) l (by omega)
  by_cases h0 : b - a = 0
  · rw [if_pos h0]
    exact hbuild
  · rw [if_neg h0]
    exact (heapSortPop_perm less a (b - a - 1) _
      (by rw [hbuild.length_eq]; omega)).trans hbuild

theorem reverseRangeLoop_perm :
    ∀ (fuel i j : Nat) (l : List α), j - i ≤ fuel → j < l.length →
      List.Perm (reverseRangeLoop l i j) l := by
  intro fuel
  induction fuel with
  | zero =>
    intro i j l hf hj
    rw [reverseRangeLoop, dif_neg (by omega)]
  | succ n ih =>
    intro i j l hf hj
    rw [reverseRangeLoop]
    split
    · rename_i h
      have hswap := swapL_perm l i j (by omega) hj
      exact (ih (i + 1) (j - 1) _ (by omega)
        (by rw [hswap.length_eq]; omega)).trans hswap
    · exact List.Perm.refl l

theorem reverseRangeGo_perm (l : List α) (a b : Nat) (hb1 : 1 ≤ b) (hb : b ≤ l.length) :
    List.Perm (reverseRangeGo l a b) l :=
  reverseRangeLoop_perm (b - 1 - a) a (b - 1) l (by omega) (by omega)

theorem two_pow_bitsLen_le (n : Nat) (hn : 1 ≤ n) : nextPowerOfTwo n ≤ 2 * n := by
  rw [nextPowerOfTwo, bitsLen, if_neg (by omega), Nat.shiftLeft_eq, one_mul,
    pow_succ, mul_comm]
  have h : 2 ^ Nat.log 2 n ≤ n := Nat.pow_log_le_self 2 (by omega)
  rw [← Nat.log2_eq_log_two] at h
  omega

theorem breakPatternsSwap_perm (l : List α) (a length modulus idxPos r i : Nat)
    (h8 : 8 ≤ length) (hmod : modulus = nextPowerOfTwo length)
    (hidx : idxPos = a + length / 4 * 2 - 1) (hi : i ≤ 2)
    (hb : a + length ≤ l.length) :
    List.Perm (breakPatternsSwap l a length modulus idxPos r i).1 l := by
  rw [breakPatternsSwap]
  have hmodpos : 0 < modulus := by
    rw [hmod, nextPowerOfTwo, Nat.shiftLeft_eq, one_mul]
    exact Nat.pos_pow_of_pos _ (by omega)
  have hmod2 : modulus ≤ 2 * length := hmod ▸ two_pow_bitsLen_le length (by omega)
  have hother0 : xorshiftNext r % modulus < modulus := Nat.mod_lt _ hmodpos
  refine swapL_perm l _ _ ?_ ?_
  · omega
  · split <;> omega

theorem breakPatternsGo_perm (l : List α) (a b : Nat) (hb : b ≤ l.length) :
    List.Perm (breakPatternsGo l a b) l := by
  simp only [breakPatternsGo]
  split
  · rename_i h8
    set m := nextPowerOfTwo (b - a) with hm
    set p := a + (b - a) / 4 * 2 - 1 with hp
    set st1 := breakPatternsSwap l a (b - a) m p (b - a) 0 with hst1
    set st2 := breakPatternsSwap st1.1 a (b - a) m p st1.2 1 with hst2
    have h1 : List.Perm st1.1 l := by
      rw [hst1]
      exact breakPatternsSwap_perm l a (b - a) m p (b - a) 0 h8 hm hp (by omega) (by omega)
    have h2 : List.Perm st2.1 st1.1 := by
      rw [hst2]
      exact breakPatternsSwap_perm st1.1 a (b - a) m p st1.2 1 h8 hm hp (by omega)
        (by rw [h1.length_eq]; omega)
    have h3 : List.Perm (breakPatternsSwap st2.1 a (b - a) m p st2.2 2).1 st2.1 :=
      breakPatternsSwap_perm st2.1 a (b - a) m p st2.2 2 h8 hm hp (by omega)
        (by rw [h2.length_eq, h1.length_eq]; omega)
    exact h3.trans (h2.trans h1)
  · exact List.Perm.refl l

theorem pisAdvance_le (less : α → α → Bool) (b : Nat) :
    ∀ (fuel i : Nat) (l : List α), b - i ≤ fuel → i ≤ b → pisAdvance less b l i ≤ b := by
  intro fuel
  induction fuel with
  | zero =>
    intro i l hf hi
    rw [pisAdvance]
    split
    · omega
    · exact hi
  | succ n ih =>
    intro i l hf hi
    rw [pisAdvance]
    split
    · rename_i h
      exact ih (i + 1) l (by omega) (by omega)
    · exact hi

theorem pisShiftLeft_perm (less : α → α → Bool) :
    ∀ (j : Nat) (l : List α), j < l.length → List.Perm (pisShiftLeft less l j) l := by
  intro j
  induction j with
  | zero => intro l _; exact List.Perm.refl l
  | succ k ih =>
    intro l hj
    rw [pisShiftLeft]
    split
    · exact List.Perm.refl l
    · have hswap := swapL_perm l (k + 1) k hj (by omega)
      exact (ih _ (by rw [hswap.length_eq]; omega)).trans hswap

theorem pisShiftRight_perm (less : α → α → Bool) (b : Nat) :
    ∀ (fuel j : Nat) (l : List α), b - j ≤ fuel → b ≤ l.length →
      List.Perm (pisShiftRight less b l j) l := by
  intro fuel
  induction fuel with
  | zero =>
    intro j l hf hb
    rw [pisShiftRight, dif_neg (by omega)]
  | succ n ih =>
    intro j l hf hb
    rw [pisShiftRight]
    split
    · rename_i h
      split
      · exact List.Perm.refl l
      · have hswap := swapL_perm l j (j - 1) (by omega) (by omega)
        exact (ih (j + 1) _ (by omega) (by rw [hswap.length_eq]; exact hb)).trans hswap
    · exact List.Perm.refl l

theorem partialInsertionSortLoop_perm (less : α → α → Bool) (a b : Nat) :
    ∀ (steps i : Nat) (l : List α), i ≤ b → b ≤ l.length →
      List.Perm (partialInsertionSortLoop less a b l i steps).1 l := by
  intro steps
  induction steps with
  | zero => intro i l _ _; exact List.Perm.refl l
  | succ n ih =>
    intro i l hi hb
    simp only [partialInsertionSortLoop]
    have hadv : pisAdvance less b l i ≤ b := pisAdvance_le less b (b - i) i l (by omega) hi
    set i1 := pisAdvance less b l i with hi1
    split
    · exact List.Perm.refl l
    · split
      · exact List.Perm.refl l
      · rename_i hne _
        have hlt : i1 < b := by omega
        have hswap := swapL_perm l i1 (i1 - 1) (by omega) (by omega)
        set l1 := swapL l i1 (i1 - 1) with hl1
        have hlen1 : l1.length = l.length := hswap.length_eq
        have hperm2 : List.Perm (if 2 ≤ i1 - a then pisShiftLeft less l1 (i1 - 1) else l1) l1 := by
          split
          · exact pisShiftLeft_perm less (i1 - 1) l1 (by omega)
          · exact List.Perm.refl l1
        set l2 := if 2 ≤ i1 - a then pisShiftLeft less l1 (i1 - 1) else l1 with hl2
        have hlen2 : l2.length = l.length := by rw [hperm2.length_eq, hlen1]
        have hperm3 : List.Perm (if 2 ≤ b - i1 then pisShiftRight less b l2 (i1 + 1) else l2) l2 := by
          split
          · exact pisShiftRight_perm less b (b - (i1 + 1)) (i1 + 1) l2 (by omega) (by omega)
          · exact List.Perm.refl l2
        set l3 := if 2 ≤ b - i1 then pisShiftRight less b l2 (i1 + 1) else l2 with hl3
        have hlen3 : l3.length = l.length := by rw [hperm3.length_eq, hlen2]
        exact (ih i1 l3 (by omega) (by omega)).trans
          ((hperm3.trans hperm2).trans hswap)

theorem partialInsertionSortGo_perm (less : α → α → Bool) (a b : Nat) (l : List α)
    (hab : a < b) (hb : b ≤ l.length) :
    List.Perm (partialInsertionSortGo less a b l).1 l :=
  partialInsertionSortLoop_perm less a b 5 (a + 1) l (by omega) hb

theorem partAdvanceJ_le (less : α → α → Bool) (l : List α) (a i : Nat) :
    ∀ j, partAdvanceJ less l a i j ≤ j := by
  intro j
  induction j with
  | zero => simp [partAdvanceJ]
  | succ k ih =>
    rw [partAdvanceJ]
    split
    · omega
    · exact le_refl _

theorem peqAdvanceJ_le (less : α → α → Bool) (l : List α) (a i : Nat) :
    ∀ j, peqAdvanceJ less l a i j ≤ j := by
  intro j
  induction j with
  | zero => simp [peqAdvanceJ]
  | succ k ih =>
    rw [peqAdvanceJ]
    split
    · omega
    · exact le_refl _

theorem partitionLoopGo_perm (less : α → α → Bool) (a : Nat) :
    ∀ (fuel : Nat) (l : List α) (i j : Nat), j < l.length →
      List.Perm (partitionLoopGo less a fuel l i j).1 l := by
  intro fuel
  induction fuel with
  | zero => intro l i j _; exact List.Perm.refl l
  | succ n ih =>
    intro l i j hj
    rw [partitionLoopGo]
    have hj1 : partAdvanceJ less l a (partAdvanceI less l a j i) j ≤ j :=
      partAdvanceJ_le less l a _ j
    split
    · exact List.Perm.refl l
    · rename_i h
      have hswap := swapL_perm l (partAdvanceI less l a j i)
        (partAdvanceJ less l a (partAdvanceI less l a j i) j) (by omega) (by omega)
      exact (ih _ _ _ (by rw [hswap.length_eq]; omega)).trans hswap

theorem partitionLoopGo_j_le (less : α → α → Bool) (a : Nat) :
    ∀ (fuel : Nat) (l : List α) (i j : Nat),
      (partitionLoopGo less a fuel l i j).2 ≤ j := by
  intro fuel
  induction fuel with
  | zero => intro l i j; exact le_refl _
  | succ n ih =>
    intro l i j
    rw [partitionLoopGo]
    have hj1 : partAdvanceJ less l a (partAdvanceI less l a j i) j ≤ j :=
      partAdvanceJ_le less l a _ j
    split
    · exact hj1
    · exact le_trans (ih _ _ _) (by omega)

theorem partitionGo_perm (less : α → α → Bool) (a b pivot : Nat) (l : List α)
    (hab : a < b) (hb : b ≤ l.length) (hpiv : pivot < l.length) :
    List.Perm (partitionGo less a b pivot l).1 l := by
  simp only [partitionGo]
  set l0 := swapL l a pivot with hl0
  have h0 : List.Perm l0 l := swapL_perm l a pivot (by omega) hpiv
  set i1 := partAdvanceI less l0 a (b - 1) (a + 1) with hi1
  set j1 := partAdvanceJ less l0 a i1 (b - 1) with hj1
  have hj1le : j1 ≤ b - 1 := partAdvanceJ_le less l0 a i1 (b - 1)
  split
  · exact (swapL_perm l0 j1 a (by rw [h0.length_eq]; omega)
      (by rw [h0.length_eq]; omega)).trans h0
  · rename_i h
    set l1 := swapL l0 i1 j1 with hl1
    have h1 : List.Perm l1 l0 := swapL_perm l0 i1 j1
      (by rw [h0.length_eq]; omega) (by rw [h0.length_eq]; omega)
    rcases hpair : partitionLoopGo less a b l1 (i1 + 1) (j1 - 1) with ⟨l2, j2⟩
    have hloop : List.Perm (partitionLoopGo less a b l1 (i1 + 1) (j1 - 1)).1 l1 :=
      partitionLoopGo_perm less a b l1 (i1 + 1) (j1 - 1)
        (by rw [h1.length_eq, h0.length_eq]; omega)
    have hjle : (partitionLoopGo less a b l1 (i1 + 1) (j1 - 1)).2 ≤ j1 - 1 :=
      partitionLoopGo_j_le less a b l1 (i1 + 1) (j1 - 1)
    rw [hpair] at hloop hjle
    have hloop2 : List.Perm l2 l1 := hloop
    have hjle2 : j2 ≤ j1 - 1 := hjle
    simp only [hpair]
    have hchain : List.Perm l2 l := hloop2.trans (h1.trans h0)
    exact (swapL_perm l2 j2 a (by rw [hchain.length_eq]; omega)
      (by rw [hchain.length_eq]; omega)).trans hchain

theorem partitionGo_mid_lt (less : α → α → Bool) (a b pivot : Nat) (l : List α)
    (hab : a < b) : (partitionGo less a b pivot l).2.1 < b := by
  simp only [partitionGo]
  set l0 := swapL l a pivot with hl0
  set i1 := partAdvanceI less l0 a (b - 1) (a + 1) with hi1
  set j1 := partAdvanceJ less l0 a i1 (b - 1) with hj1
  have hj1le : j1 ≤ b - 1 := partAdvanceJ_le less l0 a i1 (b - 1)
  split
  · show j1 < b
    omega
  · rename_i h
    set l1 := swapL l0 i1 j1 with hl1
    rcases hpair : partitionLoopGo less a b l1 (i1 + 1) (j1 - 1) with ⟨l2, j2⟩
    have hjle : (partitionLoopGo less a b l1 (i1 + 1) (j1 - 1)).2 ≤ j1 - 1 :=
      partitionLoopGo_j_le less a b l1 (i1 + 1) (j1 - 1)
    rw [hpair] at hjle
    have hjle2 : j2 ≤ j1 - 1 := hjle
    simp only [hpair]
    show j2 < b
    omega

theorem partitionEqualLoop_perm (less : α → α → Bool) (a : Nat) :
    ∀ (fuel : Nat) (l : List α) (i j : Nat), j < l.length →
      List.Perm (partitionEqualLoop less a fuel l i j).1 l := by
  intro fuel
  induction fuel with
  | zero => intro l i j _; exact List.Perm.refl l
  | succ n ih =>
    intro l i j hj
    rw [partitionEqualLoop]
    have hj1 : peqAdvanceJ less l a (peqAdvanceI less l a j i) j ≤ j :=
      peqAdvanceJ_le less l a _ j
    split
    · exact List.Perm.refl l
    · rename_i h
      have hswap := swapL_perm l (peqAdvanceI less l a j i)
        (peqAdvanceJ less l a (peqAdvanceI less l a j i) j) (by omega) (by omega)
      exact (ih _ _ _ (by rw [hswap.length_eq]; omega)).trans hswap

theorem partitionEqualGo_perm (less : α → α → Bool) (a b pivot : Nat) (l : List α)
    (hab : a < b) (hb : b ≤ l.length) (hpiv : pivot < l.length) :
    List.Perm (partitionEqualGo less a b pivot l).1 l := by
  rw [partitionEqualGo]
  have hswap0 := swapL_perm l a pivot (by omega) hpiv
  exact (partitionEqualLoop_perm less a (b + 1) _ (a + 1) (b - 1)
    (by rw [hswap0.length_eq]; omega)).trans hswap0

theorem order2Go_mem (P : Nat → Prop) (less : α → α → Bool) (l : List α) (a b s : Nat)
    (ha : P a) (hb : P b) :
    P (order2Go less l a b s).1 ∧ P (order2Go less l a b s).2.1 := by
  rw [order2Go]
  split
  · exact ⟨hb, ha⟩
  · exact ⟨ha, hb⟩

theorem medianGo_mem (P : Nat → Prop) (less : α → α → Bool) (l : List α) (a b c s : Nat)
    (ha : P a) (hb : P b) (hc : P c) : P (medianGo less l a b c s).1 := by
  simp only [medianGo]
  rcases h1 : order2Go less l a b s with ⟨a1, b1, s1⟩
  have m1 := order2Go_mem P less l a b s ha hb
  rw [h1] at m1
  simp only [h1]
  rcases h2 : order2Go less l b1 c s1 with ⟨b2, c2, s2⟩
  have m2 := order2Go_mem P less l b1 c s1 m1.2 hc
  rw [h2] at m2
  simp only [h2]
  rcases h3 : order2Go less l a1 b2 s2 with ⟨a3, b3, s3⟩
  have m3 := order2Go_mem P less l a1 b2 s2 m1.1 m2.1
  rw [h3] at m3
  simp only [h3]
  exact m3.2

theorem medianAdjacentGo_mem (P : Nat → Prop) (less : α → α → Bool) (l : List α)
    (a s : Nat) (h1 : P (a - 1)) (h2 : P a) (h3 : P (a + 1)) :
    P (medianAdjacentGo less l a s).1 :=
  medianGo_mem P less l (a - 1) a (a + 1) s h1 h2 h3

theorem choosePivotGo_mem (less : α → α → Bool) (l : List α) (a b : Nat)
    (h13 : a + 13 ≤ b) :
    a ≤ (choosePivotGo less l a b).1 ∧ (choosePivotGo less l a b).1 < b := by
  have h8 : 8 ≤ b - a := by omega
  set P : Nat → Prop := fun x => a ≤ x ∧ x < b with hP
  have hPd : ∀ x, a ≤ x → x < b → P x := by
    intro x h1 h2
    rw [hP]
    exact ⟨h1, h2⟩
  simp only [choosePivotGo]
  rw [if_pos h8]
  by_cases h50 : 50 ≤ b - a
  · rw [if_pos h50]
    rcases hA : medianAdjacentGo less l (a + (b - a) / 4 * 1) 0 with ⟨i1, sa⟩
    have hi1 : P i1 := by
      have h := medianAdjacentGo_mem P less l (a + (b - a) / 4 * 1) 0
        (hPd _ (by omega) (by omega)) (hPd _ (by omega) (by omega))
        (hPd _ (by omega) (by omega))
      rw [hA] at h
      exact h
    simp only [hA]
    rcases hB : medianAdjacentGo less l (a + (b - a) / 4 * 2) sa with ⟨j1, sb⟩
    have hj1 : P j1 := by
      have h := medianAdjacentGo_mem P less l (a + (b - a) / 4 * 2) sa
        (hPd _ (by omega) (by omega)) (hPd _ (by omega) (by omega))
        (hPd _ (by omega) (by omega))
      rw [hB] at h
      exact h
    simp only [hB]
    rcases hC : medianAdjacentGo less l (a + (b - a) / 4 * 3) sb with ⟨k1, sc⟩
    have hk1 : P k1 := by
      have h := medianAdjacentGo_mem P less l (a + (b - a) / 4 * 3) sb
        (hPd _ (by omega) (by omega)) (hPd _ (by omega) (by omega))
        (hPd _ (by omega) (by omega))
      rw [hC] at h
      exact h
    simp only [hC]
    rcases hD : medianGo less l i1 j1 k1 sc with ⟨j2, s2⟩
    have hj2 : P j2 := by
      have h := medianGo_mem P less l i1 j1 k1 sc hi1 hj1 hk1
      rw [hD] at h
      exact h
    simp only [hD]
    split
    · exact hj2
    split
    · exact hj2
    · exact hj2
  · rw [if_neg h50]
    rcases hD : medianGo less l (a + (b - a) / 4 * 1) (a + (b - a) / 4 * 2)
        (a + (b - a) / 4 * 3) 0 with ⟨j2, s2⟩
    have hj2 : P j2 := by
      have h := medianGo_mem P less l (a + (b - a) / 4 * 1) (a + (b - a) / 4 * 2)
        (a + (b - a) / 4 * 3) 0 (hPd _ (by omega) (by omega))
        (hPd _ (by omega) (by omega)) (hPd _ (by omega) (by omega))
      rw [hD] at h
      exact h
    simp only [hD]
    split
    · exact hj2
    split
    · exact hj2
    · exact hj2

theorem pdqsortAfterPivot_perm (less : α → α → Bool)
    (rec : List α → Nat → Nat → Nat → Bool → Bool → List α)
    (hrec : ∀ (l : List α) (a b limit : Nat) (wb wp : Bool),
      b ≤ l.length → List.Perm (rec l a b limit wb wp) l)
    (l3 : List α) (a b limit1 pivot1 : Nat) (wb wp : Bool)
    (hab : a < b) (hb : b ≤ l3.length) (hpiv : pivot1 < l3.length) :
    List.Perm (pdqsortAfterPivot less rec l3 a b limit1 pivot1 wb wp) l3 := by
  simp only [pdqsortAfterPivot]
  split
  · have hpe := partitionEqualGo_perm less a b pivot1 l3 hab hb hpiv
    exact (hrec _ _ _ _ _ _ (by rw [hpe.length_eq]; exact hb)).trans hpe
  · have hpt := partitionGo_perm less a b pivot1 l3 hab hb hpiv
    have hmid := partitionGo_mid_lt less a b pivot1 l3 hab
    split
    · have h5 := hrec (partitionGo less a b pivot1 l3).1 a
        (partitionGo less a b pivot1 l3).2.1 limit1 true true
        (by rw [hpt.length_eq]; omega)
      exact (hrec _ _ _ _ _ _
        (by rw [h5.length_eq, hpt.length_eq]; omega)).trans (h5.trans hpt)
    · have h5 := hrec (partitionGo less a b pivot1 l3).1
        ((partitionGo less a b pivot1 l3).2.1 + 1) b limit1 true true
        (by rw [hpt.length_eq]; omega)
      exact (hrec _ _ _ _ _ _
        (by rw [h5.length_eq, hpt.length_eq]; omega)).trans (h5.trans hpt)

theorem pdqsortBody_perm (less : α → α → Bool)
    (rec : List α → Nat → Nat → Nat → Bool → Bool → List α)
    (hrec : ∀ (l : List α) (a b limit : Nat) (wb wp : Bool),
      b ≤ l.length → List.Perm (rec l a b limit wb wp) l)
    (l : List α) (a b limit : Nat) (wb wp : Bool)
    (h13 : a + 13 ≤ b) (hb : b ≤ l.length) :
    List.Perm (pdqsortBody less rec l a b limit wb wp) l := by
  simp only [pdqsortBody]
  set l1 := if wb = true then l else breakPatternsGo l a b with hl1
  have hp1 : List.Perm l1 l := by
    rw [hl1]
    split
    · exact List.Perm.refl l
    · exact breakPatternsGo_perm l a b hb
  set pv := choosePivotGo less l1 a b with hpv
  have hpvm : a ≤ pv.1 ∧ pv.1 < b := choosePivotGo_mem less l1 a b h13
  set l2 := if pv.2 = Hint.decreasing then reverseRangeGo l1 a b else l1 with hl2
  have hp2 : List.Perm l2 l1 := by
    rw [hl2]
    split
    · exact reverseRangeGo_perm l1 a b (by omega) (by rw [hp1.length_eq]; exact hb)
    · exact List.Perm.refl l1
  set pivot1 := if pv.2 = Hint.decreasing then (b - 1) - (pv.1 - a) else pv.1 with hpiv1
  have hpiv1b : a ≤ pivot1 ∧ pivot1 < b := by
    rw [hpiv1]
    split <;> omega
  set pis := if wb = true ∧ wp = true ∧
      (if pv.2 = Hint.decreasing then Hint.increasing else pv.2) = Hint.increasing then
      partialInsertionSortGo less a b l2
    else (l2, false) with hpis
  have hp3 : List.Perm pis.1 l2 := by
    rw [hpis]
    by_cases hc : wb = true ∧ wp = true ∧
        (if pv.2 = Hint.decreasing then Hint.increasing else pv.2) = Hint.increasing
    · rw [if_pos hc]
      exact partialInsertionSortGo_perm less a b l2 (by omega)
        (by rw [hp2.length_eq, hp1.length_eq]; exact hb)
    · rw [if_neg hc]
  have hp3l : List.Perm pis.1 l := (hp3.trans hp2).trans hp1
  by_cases hs : pis.2 = true
  · rw [if_pos hs]
    exact hp3l
  · rw [if_neg hs]
    exact (pdqsortAfterPivot_perm less rec hrec pis.1 a b _ pivot1 wb wp (by omega)
      (by rw [hp3l.length_eq]; omega) (by rw [hp3l.length_eq]; omega)).trans hp3l

theorem pdqsortGo_perm (less : α → α → Bool) :
    ∀ (fuel : Nat) (l : List α) (a b limit : Nat) (wb wp : Bool),
      b ≤ l.length → List.Perm (pdqsortGo less fuel l a b limit wb wp) l := by
  intro fuel
  induction fuel with
  | zero =>
    intro l a b limit wb wp _
    exact List.Perm.refl l
  | succ n ih =>
    intro l a b limit wb wp hb
    rw [pdqsortGo]
    split
    · exact insertionSortGo_perm less a b l hb
    rename_i h12
    split
    · exact heapSortGo_perm less a b l (by omega) hb
    · exact pdqsortBody_perm less (pdqsortGo less n)
        (fun l' a' b' limit' wb' wp' hb' => ih l' a' b' limit' wb' wp' hb')
        l a b limit wb wp (by omega) hb

/-- `sort.Slice` returns a permutation of its input — for inputs of every
length, via every code path of pdqsort. -/
theorem sortSliceGo_perm (less : α → α → Bool) (l : List α) :
    List.Perm (sortSliceGo less l) l :=
  pdqsortGo_perm less (l.length + 64) l 0 l.length (bitsLen l.length) true true (le_refl _)

theorem sortSliceGo_length (less : α → α → Bool) (l : List α) :
    (sortSliceGo less l).length = l.length :=
  (sortSliceGo_perm less l).length_eq

end PdqPerm

/-! ### The full pdqsort embedding sorts every input

Every range `pdqsort_func` is invoked on comes out nondecreasing under the
sort key: the development below follows the Go control flow branch by branch
(insertion sort, heap sort, `partialInsertionSort`, `partitionEqual`,
`partition`), threading through the recursion the facts the code itself
relies on — in particular that the element just below the range, when the
range is a right fragment of an enclosing call, is no greater than any
element inside it (the `data[a-1]` pre-partitioned check). -/

section PdqSorted

theorem idx_eq_getElem (l : List α) (k : Nat) (h : k < l.length) : idx l k = l[k] :=
  List.getD_eq_getElem l default h

theorem idx_getElem? (l : List α) (k : Nat) : idx l k = (l[k]?).getD default := by
  rcases Nat.lt_or_ge k l.length with h | h
  · rw [idx_eq_getElem l k h, List.getElem?_eq_getElem h]
    rfl
  · rw [List.getElem?_eq_none h]
    simp [idx, List.getD, List.getElem?_eq_none h]

theorem idx_set_ne (l : List α) (i k : Nat) (v : α) (h : k ≠ i) :
    idx (l.set i v) k = idx l k := by
  rw [idx_getElem?, idx_getElem?, List.getElem?_set_ne (by omega)]

theorem idx_set_self (l : List α) (i : Nat) (v : α) (h : i < l.length) :
    idx (l.set i v) i = v := by
  rw [idx_getElem?, List.getElem?_set_self h]
  rfl

theorem idx_swapL_ne (l : List α) (i j k : Nat) (h1 : k ≠ i) (h2 : k ≠ j) :
    idx (swapL l i j) k = idx l k := by
  rw [swapL, idx_set_ne _ _ _ _ h2, idx_set_ne _ _ _ _ h1]

theorem idx_swapL_fst (l : List α) (i j : Nat) (hi : i < l.length) (hj : j < l.length) :
    idx (swapL l i j) i = idx l j := by
  rw [swapL]
  by_cases hij : i = j
  · subst hij
    rw [idx_set_self _ _ _ (by simpa using hi)]
  · rw [idx_set_ne _ _ _ _ hij, idx_set_self _ _ _ hi]

theorem idx_swapL_snd (l : List α) (i j : Nat) (hj : j < l.length) :
    idx (swapL l i j) j = idx l i := by
  rw [swapL, idx_set_self _ _ _ (by simpa using hj)]

theorem swapL_self (l : List α) (i : Nat) : swapL l i i = l := by
  rcases Nat.lt_or_ge i l.length with h | h
  · rw [swapL, List.set_set, set_getD_self l i h]
  · rw [swapL, List.set_eq_of_length_le (by simpa using h), List.set_eq_of_length_le h]

variable {K : Type*} [LinearOrder K] (key : α → K)

theorem keyLess_iff (x y : α) : keyLess key x y = true ↔ key x < key y := by
  simp [keyLess]

/-- `data[a:b]` is nondecreasing under `key`. -/
def SortedRange (l : List α) (a b : Nat) : Prop :=
  ∀ i j, a ≤ i → i ≤ j → j < b → key (idx l i) ≤ key (idx l j)

theorem sortedRange_of_adj (l : List α) (a b : Nat)
    (h : ∀ j, a < j → j < b → key (idx l (j - 1)) ≤ key (idx l j)) :
    SortedRange key l a b := by
  have main : ∀ d i, a ≤ i → i + d < b → key (idx l i) ≤ key (idx l (i + d)) := by
    intro d
    induction d with
    | zero => intro i _ _; exact le_refl _
    | succ d ih =>
      intro i hai hib
      refine le_trans (ih i hai (by omega)) ?_
      have h2 := h (i + d + 1) (by omega) (by omega)
      simpa using h2
  intro i j hai hij hjb
  have h3 := main (j - i) i hai (by omega)
  rwa [show i + (j - i) = j by omega] at h3

theorem sortedRange_of_le (l : List α) (a b : Nat) (h : b ≤ a) :
    SortedRange key l a b := by
  intro i j h1 h2 h3
  exact absurd h3 (by omega)

theorem sortedRange_congr (l l' : List α) (a b : Nat)
    (h : ∀ t, a ≤ t → t < b → idx l' t = idx l t) (hs : SortedRange key l a b) :
    SortedRange key l' a b := by
  intro i j h1 h2 h3
  rw [h i h1 (by omega), h j (by omega) h3]
  exact hs i j h1 h2 h3

theorem sortedKey_of_sortedRange (l : List α) (h : SortedRange key l 0 l.length) :
    SortedKey key l := by
  rw [SortedKey, List.pairwise_iff_getElem]
  intro i j hi hj hij
  have h2 := h i j (Nat.zero_le _) (le_of_lt hij) hj
  rwa [idx_eq_getElem _ _ (lt_trans hij hj), idx_eq_getElem _ _ hj] at h2

/-- The modelled slice expression `data[a:b]`. -/
def sliceL (l : List α) (a b : Nat) : List α := (l.drop a).take (b - a)

theorem sliceL_length (l : List α) (a b : Nat) (hab : a ≤ b) (hb : b ≤ l.length) :
    (sliceL l a b).length = b - a := by
  simp only [sliceL, List.length_take, List.length_drop]
  omega

theorem idx_sliceL (l : List α) (a b k : Nat) (hk : k < b - a) (hb : b ≤ l.length) :
    idx (sliceL l a b) k = idx l (a + k) := by
  have h1 : a + k < l.length := by omega
  have h2 : k < (sliceL l a b).length := by
    rw [sliceL_length l a b (by omega) hb]
    exact hk
  rw [idx_eq_getElem _ _ h2, idx_eq_getElem _ _ h1]
  simp only [sliceL]
  rw [List.getElem_take, List.getElem_drop]

theorem sliceL_decomp (l : List α) (a b : Nat) (hab : a ≤ b) (hb : b ≤ l.length) :
    l = l.take a ++ (sliceL l a b ++ l.drop b) := by
  rw [sliceL]
  have h1 : l.drop b = (l.drop a).drop (b - a) := by
    rw [List.drop_drop]
    congr 1
    omega
  rw [h1, List.take_append_drop, List.take_append_drop]

theorem sliceL_perm_of_frame (l l' : List α) (a b : Nat)
    (hlen : l'.length = l.length) (hperm : List.Perm l' l)
    (hframe : ∀ k, k < a ∨ b ≤ k → idx l' k = idx l k)
    (hab : a ≤ b) (hb : b ≤ l.length) :
    List.Perm (sliceL l' a b) (sliceL l a b) := by
  have htake : l'.take a = l.take a := by
    apply List.ext_getElem (by simp [hlen])
    intro k h1 h2
    have hk : k < a := by
      have := h1
      simp only [List.length_take] at this
      omega
    have hkl : k < l.length := by omega
    rw [List.getElem_take, List.getElem_take, ← idx_eq_getElem _ _ (by omega),
      ← idx_eq_getElem _ _ hkl]
    exact hframe k (Or.inl hk)
  have hdrop : l'.drop b = l.drop b := by
    apply List.ext_getElem (by simp [hlen])
    intro k h1 h2
    have hk : b + k < l.length := by
      have := h2
      simp only [List.length_drop] at this
      omega
    rw [List.getElem_drop, List.getElem_drop, ← idx_eq_getElem _ _ (by omega),
      ← idx_eq_getElem _ _ (by omega)]
    exact hframe (b + k) (Or.inr (by omega))
  have hdec : l' = l'.take a ++ (sliceL l' a b ++ l'.drop b) :=
    sliceL_decomp l' a b hab (by omega)
  have hdec2 : l = l.take a ++ (sliceL l a b ++ l.drop b) := sliceL_decomp l a b hab hb
  have hp : List.Perm (l.take a ++ (sliceL l' a b ++ l.drop b))
      (l.take a ++ (sliceL l a b ++ l.drop b)) := by
    have e1 : l.take a ++ (sliceL l' a b ++ l.drop b) = l' := by
      rw [← htake, ← hdrop, ← hdec]
    rw [e1, ← hdec2]
    exact hperm
  have hp2 := (List.perm_append_left_iff (l.take a)).mp hp
  exact (List.perm_append_right_iff (l.drop b)).mp hp2

theorem range_transfer (P : α → Prop) (l l' : List α) (a b : Nat)
    (hP : ∀ k, a ≤ k → k < b → P (idx l k))
    (hperm : List.Perm (sliceL l' a b) (sliceL l a b))
    (hb : b ≤ l.length) (hb' : b ≤ l'.length) :
    ∀ k, a ≤ k → k < b → P (idx l' k) := by
  intro k hak hkb
  have hlen' : (sliceL l' a b).length = b - a := sliceL_length l' a b (by omega) hb'
  have hmem : idx l' k ∈ sliceL l' a b := by
    have he : idx (sliceL l' a b) (k - a) = idx l' k := by
      rw [idx_sliceL l' a b (k - a) (by omega) hb', show a + (k - a) = k by omega]
    rw [← he, idx_eq_getElem _ _ (by omega)]
    exact List.getElem_mem _
  have hmem2 : idx l' k ∈ sliceL l a b := hperm.mem_iff.mp hmem
  obtain ⟨m, hm, he⟩ := List.mem_iff_getElem.mp hmem2
  have hlen : (sliceL l a b).length = b - a := sliceL_length l a b (by omega) hb
  have he2 : idx l (a + m) = idx l' k := by
    rw [← idx_sliceL l a b m (by omega) hb, idx_eq_getElem _ _ hm]
    exact he
  rw [← he2]
  exact hP (a + m) (by omega) (by omega)

/-- Transfer a pointwise range fact across an in-place permutation of the range. -/
theorem range_values_transfer (P : α → Prop) (l l' : List α) (a b : Nat)
    (hperm : List.Perm l' l) (hlen : l'.length = l.length)
    (hframe : ∀ k, k < a ∨ b ≤ k → idx l' k = idx l k)
    (hab : a ≤ b) (hb : b ≤ l.length)
    (hP : ∀ k, a ≤ k → k < b → P (idx l k)) :
    ∀ k, a ≤ k → k < b → P (idx l' k) :=
  range_transfer P l l' a b hP
    (sliceL_perm_of_frame l l' a b hlen hperm hframe hab hb) hb (by omega)

/-! #### Localising the Go insertion sort to an arbitrary subrange -/

theorem idx_append_left (q t : List α) (k : Nat) (hk : k < q.length) :
    idx (q ++ t) k = idx q k := by
  rw [idx_eq_getElem _ _ (by simp; omega), idx_eq_getElem _ _ hk,
    List.getElem_append_left hk]

theorem set_append_left (q t : List α) (k : Nat) (hk : k < q.length) (v : α) :
    (q ++ t).set k v = q.set k v ++ t := by
  induction q generalizing k with
  | nil => simp at hk
  | cons z zs ih =>
    cases k with
    | zero => simp
    | succ m =>
      simp only [List.cons_append, List.set_cons_succ]
      rw [ih m (by simpa using hk)]

theorem swapL_append (pre rest : List α) (i j : Nat) :
    swapL (pre ++ rest) (pre.length + i) (pre.length + j) = pre ++ swapL rest i j := by
  rw [swapL, swapL, idx_append, idx_append, set_append, set_append]

theorem swapL_append_left (q t : List α) (i j : Nat) (hi : i < q.length) (hj : j < q.length) :
    swapL (q ++ t) i j = swapL q i j ++ t := by
  rw [swapL, swapL, idx_append_left q t i hi, idx_append_left q t j hj,
    set_append_left q t i hi, set_append_left _ t j (by simpa using hj)]

theorem insertionSortInner_base (less : α → α → Bool) (a : Nat) (l : List α) :
    insertionSortInner less a l a = l := by
  rw [insertionSortInner, dif_neg (by simp)]

theorem insertionSortInner_shift (less : α → α → Bool) :
    ∀ (t : Nat) (pre rest : List α),
      insertionSortInner less pre.length (pre ++ rest) (pre.length + t) =
        pre ++ insertionSortInner less 0 rest t := by
  intro t
  induction t with
  | zero =>
    intro pre rest
    rw [insertionSortInner_base less 0 rest]
    exact insertionSortInner_base less pre.length (pre ++ rest)
  | succ t ih =>
    intro pre rest
    have he1 : idx (pre ++ rest) (pre.length + (t + 1)) = idx rest (t + 1) :=
      idx_append pre rest (t + 1)
    have he2 : idx (pre ++ rest) (pre.length + t) = idx rest t := idx_append pre rest t
    conv_lhs => rw [insertionSortInner]
    conv_rhs => rw [insertionSortInner]
    rw [show pre.length + (t + 1) - 1 = pre.length + t by omega, he1, he2,
      show t + 1 - 1 = t by omega]
    by_cases hc : less (idx rest (t + 1)) (idx rest t) = true
    · rw [dif_pos ⟨by omega, hc⟩, dif_pos ⟨by omega, hc⟩]
      rw [swapL_append pre rest (t + 1) t]
      exact ih pre (swapL rest (t + 1) t)
    · rw [dif_neg (by intro hcon; exact hc hcon.2),
        dif_neg (by intro hcon; exact hc hcon.2)]

theorem insertionSortOuter_shift (less : α → α → Bool) (m : Nat) :
    ∀ (d t : Nat) (pre rest : List α), m - t ≤ d →
      insertionSortOuter less pre.length (pre.length + m) (pre.length + t) (pre ++ rest) =
        pre ++ insertionSortOuter less 0 m t rest := by
  intro d
  induction d with
  | zero =>
    intro t pre rest hd
    conv_lhs => rw [insertionSortOuter]
    conv_rhs => rw [insertionSortOuter]
    rw [dif_neg (by omega), dif_neg (by omega)]
  | succ d ih =>
    intro t pre rest hd
    conv_lhs => rw [insertionSortOuter]
    conv_rhs => rw [insertionSortOuter]
    by_cases hc : t < m
    · rw [dif_pos (by omega : pre.length + t < pre.length + m), dif_pos hc]
      rw [insertionSortInner_shift less t pre rest,
        show pre.length + t + 1 = pre.length + (t + 1) by omega]
      exact ih (t + 1) pre (insertionSortInner less 0 rest t) (by omega)
    · rw [dif_neg (by omega), dif_neg hc]

theorem insertionSortInner_front (less : α → α → Bool) (a : Nat) :
    ∀ (t : Nat) (mid post : List α), t < mid.length →
      insertionSortInner less a (mid ++ post) t = insertionSortInner less a mid t ++ post := by
  intro t
  induction t with
  | zero =>
    intro mid post _
    rw [insertionSortInner, dif_neg (fun h => Nat.not_lt_zero a h.1),
      insertionSortInner, dif_neg (fun h => Nat.not_lt_zero a h.1)]
  | succ t ih =>
    intro mid post ht
    have he1 : idx (mid ++ post) (t + 1) = idx mid (t + 1) :=
      idx_append_left mid post (t + 1) ht
    have he2 : idx (mid ++ post) t = idx mid t := idx_append_left mid post t (by omega)
    conv_lhs => rw [insertionSortInner]
    conv_rhs => rw [insertionSortInner]
    rw [show t + 1 - 1 = t by omega, he1, he2]
    by_cases hc : a < t + 1 ∧ less (idx mid (t + 1)) (idx mid t) = true
    · rw [dif_pos hc, dif_pos hc]
      rw [swapL_append_left mid post (t + 1) t ht (by omega)]
      exact ih (swapL mid (t + 1) t) post (by rw [swapL_length]; omega)
    · rw [dif_neg hc, dif_neg hc]

theorem insertionSortOuter_front (less : α → α → Bool) (a m : Nat) :
    ∀ (d t : Nat) (mid post : List α), m - t ≤ d → m ≤ mid.length →
      insertionSortOuter less a m t (mid ++ post) =
        insertionSortOuter less a m t mid ++ post := by
  intro d
  induction d with
  | zero =>
    intro t mid post hd hm
    conv_lhs => rw [insertionSortOuter]
    conv_rhs => rw [insertionSortOuter]
    rw [dif_neg (by omega), dif_neg (by omega)]
  | succ d ih =>
    intro t mid post hd hm
    conv_lhs => rw [insertionSortOuter]
    conv_rhs => rw [insertionSortOuter]
    by_cases hc : t < m
    · rw [dif_pos hc, dif_pos hc]
      rw [insertionSortInner_front less a t mid post (by omega)]
      have hlen : (insertionSortInner less a mid t).length = mid.length :=
        (insertionSortInner_perm less a t mid (by omega)).length_eq
      exact ih (t + 1) (insertionSortInner less a mid t) post (by omega) (by omega)
    · rw [dif_neg hc, dif_neg hc]

theorem insertionSortGo_of_ge (less : α → α → Bool) (a b : Nat) (l : List α) (h : b ≤ a) :
    insertionSortGo less a b l = l := by
  rw [insertionSortGo, insertionSortOuter, dif_neg (by omega)]

theorem insertionSortGo_localize (less : α → α → Bool) (a b : Nat) (l : List α)
    (hab : a ≤ b) (hb : b ≤ l.length) :
    insertionSortGo less a b l =
      l.take a ++ (insertionSortGo less 0 (b - a) (sliceL l a b) ++ l.drop b) := by
  have hpre : (l.take a).length = a := by simp; omega
  have hmid : (sliceL l a b).length = b - a := sliceL_length l a b hab hb
  conv_lhs => rw [sliceL_decomp l a b hab hb]
  rw [insertionSortGo]
  have h1 : insertionSortOuter less a b (a + 1) (l.take a ++ (sliceL l a b ++ l.drop b)) =
      l.take a ++ insertionSortOuter less 0 (b - a) 1 (sliceL l a b ++ l.drop b) := by
    have h2 := insertionSortOuter_shift less (b - a) (b - a) 1 (l.take a)
      (sliceL l a b ++ l.drop b) (by omega)
    rw [hpre, show a + (b - a) = b by omega, show a + 1 = a + 1 from rfl] at h2
    exact h2
  rw [h1, insertionSortOuter_front less 0 (b - a) (b - a) 1 (sliceL l a b) (l.drop b)
    (by omega) (by omega), insertionSortGo]

theorem insertionSortGo_sorted (a b : Nat) (l : List α) (hab : a ≤ b) (hb : b ≤ l.length) :
    (insertionSortGo (keyLess key) a b l).length = l.length ∧
    (∀ k, k < a ∨ b ≤ k → idx (insertionSortGo (keyLess key) a b l) k = idx l k) ∧
    SortedRange key (insertionSortGo (keyLess key) a b l) a b := by
  have hloc := insertionSortGo_localize (keyLess key) a b l hab hb
  set mid := sliceL l a b with hmid
  have hmlen : mid.length = b - a := sliceL_length l a b hab hb
  have heq : insertionSortGo (keyLess key) 0 (b - a) mid = insertionSortF (keyLess key) mid := by
    rw [← hmlen]
    exact insertionSortGo_eq key mid
  set s := insertionSortF (keyLess key) mid with hs
  have hslen : s.length = mid.length := (insertionSortF_perm mid (keyLess key)).length_eq
  have hsorted : SortedKey key s := insertionSortF_sorted key mid
  have htlen : (l.take a).length = a := by simp; omega
  rw [hloc, heq]
  refine ⟨by simp only [List.length_append, htlen, hslen, hmlen, List.length_drop]; omega,
    ?_, ?_⟩
  · intro k hk
    rcases hk with hk | hk
    · rw [idx_append_left _ _ k (by omega)]
      rw [idx_eq_getElem _ _ (by simp; omega), idx_eq_getElem _ _ (by omega),
        List.getElem_take]
    · have e1 : idx (l.take a ++ (s ++ l.drop b)) k = idx (s ++ l.drop b) (k - a) := by
        conv_lhs => rw [show k = (l.take a).length + (k - a) by omega]
        exact idx_append _ _ _
      have e2 : idx (s ++ l.drop b) (k - a) = idx (l.drop b) (k - b) := by
        conv_lhs => rw [show k - a = s.length + (k - b) by omega]
        exact idx_append _ _ _
      have e3 : idx (l.drop b) (k - b) = idx l k := by
        rw [idx_getElem?, idx_getElem?, List.getElem?_drop, show b + (k - b) = k by omega]
      rw [e1, e2, e3]
  · intro i j h1 h2 h3
    have hidx : ∀ t, a ≤ t → t < b → idx (l.take a ++ (s ++ l.drop b)) t = idx s (t - a) := by
      intro t h4 h5
      have e1 : idx (l.take a ++ (s ++ l.drop b)) t = idx (s ++ l.drop b) (t - a) := by
        conv_lhs => rw [show t = (l.take a).length + (t - a) by omega]
        exact idx_append _ _ _
      rw [e1]
      exact idx_append_left s _ (t - a) (by omega)
    rw [hidx i h1 (by omega), hidx j (by omega) h3]
    rcases Nat.eq_or_lt_of_le h2 with rfl | hlt
    · exact le_refl _
    · have h4 := List.pairwise_iff_getElem.mp hsorted (i - a) (j - a) (by omega) (by omega)
        (by omega)
      rwa [idx_eq_getElem _ _ (by omega), idx_eq_getElem _ _ (by omega)]

/-! #### Frame lemmas: each loop only writes inside its range -/

theorem idx_swapL_out (l : List α) (i j k a b : Nat) (hi : a ≤ i ∧ i < b)
    (hj : a ≤ j ∧ j < b) (hk : k < a ∨ b ≤ k) : idx (swapL l i j) k = idx l k :=
  idx_swapL_ne l i j k (by omega) (by omega)

theorem reverseRangeLoop_frame :
    ∀ (d i j : Nat) (l : List α), j - i ≤ d →
      (reverseRangeLoop l i j).length = l.length ∧
      ∀ k, k < i ∨ j < k → idx (reverseRangeLoop l i j) k = idx l k := by
  intro d
  induction d with
  | zero =>
    intro i j l hd
    rw [reverseRangeLoop, dif_neg (by omega)]
    exact ⟨rfl, fun k _ => rfl⟩
  | succ d ih =>
    intro i j l hd
    rw [reverseRangeLoop]
    by_cases hc : i < j
    · rw [dif_pos hc]
      obtain ⟨hlen, hframe⟩ := ih (i + 1) (j - 1) (swapL l i j) (by omega)
      refine ⟨by rw [hlen, swapL_length], ?_⟩
      intro k hk
      rw [hframe k (by omega)]
      exact idx_swapL_out l i j k i (j + 1) (by omega) (by omega) (by omega)
    · rw [dif_neg hc]
      exact ⟨rfl, fun k _ => rfl⟩

theorem reverseRangeGo_frame (l : List α) (a b : Nat) (hb1 : 1 ≤ b) :
    (reverseRangeGo l a b).length = l.length ∧
    ∀ k, k < a ∨ b ≤ k → idx (reverseRangeGo l a b) k = idx l k := by
  rw [reverseRangeGo]
  obtain ⟨hlen, hframe⟩ := reverseRangeLoop_frame (b - 1 - a) a (b - 1) l (le_refl _)
  exact ⟨hlen, fun k hk => hframe k (by omega)⟩

theorem breakPatternsSwap_frame (l : List α) (a length modulus idxPos r i : Nat)
    (h8 : 8 ≤ length) (hmod : modulus = nextPowerOfTwo length)
    (hidx : idxPos = a + length / 4 * 2 - 1) (hi : i ≤ 2) :
    (breakPatternsSwap l a length modulus idxPos r i).1.length = l.length ∧
    ∀ k, k < a ∨ a + length ≤ k →
      idx (breakPatternsSwap l a length modulus idxPos r i).1 k = idx l k := by
  rw [breakPatternsSwap]
  have hmodpos : 0 < modulus := by
    rw [hmod, nextPowerOfTwo, Nat.shiftLeft_eq, one_mul]
    exact Nat.pos_pow_of_pos _ (by omega)
  have hmod2 : modulus ≤ 2 * length := hmod ▸ two_pow_bitsLen_le length (by omega)
  have hother0 : xorshiftNext r % modulus < modulus := Nat.mod_lt _ hmodpos
  refine ⟨swapL_length _ _ _, ?_⟩
  intro k hk
  refine idx_swapL_out l _ _ k a (a + length) ⟨by omega, by omega⟩ ⟨?_, ?_⟩ hk
  · omega
  · split <;> omega

theorem breakPatternsGo_frame (l : List α) (a b : Nat) :
    (breakPatternsGo l a b).length = l.length ∧
    ∀ k, k < a ∨ b ≤ k → idx (breakPatternsGo l a b) k = idx l k := by
  simp only [breakPatternsGo]
  split
  · rename_i h8
    set m := nextPowerOfTwo (b - a) with hm
    set p := a + (b - a) / 4 * 2 - 1 with hp
    set st1 := breakPatternsSwap l a (b - a) m p (b - a) 0 with hst1
    set st2 := breakPatternsSwap st1.1 a (b - a) m p st1.2 1 with hst2
    have hab : a + (b - a) = b := by omega
    have h1 := breakPatternsSwap_frame l a (b - a) m p (b - a) 0 h8 hm hp (by omega)
    have h2 := breakPatternsSwap_frame st1.1 a (b - a) m p st1.2 1 h8 hm hp (by omega)
    have h3 := breakPatternsSwap_frame st2.1 a (b - a) m p st2.2 2 h8 hm hp (by omega)
    rw [hab] at h1 h2 h3
    refine ⟨by rw [h3.1, h2.1, h1.1], ?_⟩
    intro k hk
    rw [h3.2 k hk, h2.2 k hk, h1.2 k hk]
  · exact ⟨rfl, fun k _ => rfl⟩

/-! #### `partialInsertionSort_func`: when it reports success, the range is sorted -/

theorem pisAdvance_spec (b : Nat) : ∀ (d i : Nat) (l : List α), b - i ≤ d →
    i ≤ pisAdvance (keyLess key) b l i ∧
    (∀ t, i ≤ t → t < pisAdvance (keyLess key) b l i →
      key (idx l (t - 1)) ≤ key (idx l t)) ∧
    (pisAdvance (keyLess key) b l i < b →
      key (idx l (pisAdvance (keyLess key) b l i)) <
        key (idx l (pisAdvance (keyLess key) b l i - 1))) := by
  intro d
  induction d with
  | zero =>
    intro i l hd
    rw [pisAdvance, dif_neg (fun h => absurd h.1 (by omega))]
    exact ⟨le_refl _, fun t h1 h2 => absurd h2 (by omega), fun h => absurd h (by omega)⟩
  | succ d ih =>
    intro i l hd
    rw [pisAdvance]
    by_cases hc : i < b ∧ ¬ keyLess key (idx l i) (idx l (i - 1)) = true
    · rw [dif_pos hc]
      obtain ⟨ha1, ha2, ha3⟩ := ih (i + 1) l (by omega)
      refine ⟨by omega, ?_, ha3⟩
      intro t h1 h2
      rcases Nat.eq_or_lt_of_le h1 with rfl | h4
      · have h5 := hc.2
        rw [keyLess_iff] at h5
        exact le_of_not_lt h5
      · exact ha2 t (by omega) h2
    · rw [dif_neg hc]
      refine ⟨le_refl _, fun t h1 h2 => absurd h2 (by omega), ?_⟩
      intro hib
      rcases Classical.em (keyLess key (idx l i) (idx l (i - 1)) = true) with h5 | h5
      · rwa [keyLess_iff] at h5
      · exact absurd ⟨hib, h5⟩ hc

theorem pisShiftRight_frame (less : α → α → Bool) (b : Nat) :
    ∀ (d j : Nat) (l : List α), b - j ≤ d → 1 ≤ j →
      (pisShiftRight less b l j).length = l.length ∧
      ∀ k, k < j - 1 ∨ b ≤ k → idx (pisShiftRight less b l j) k = idx l k := by
  intro d
  induction d with
  | zero =>
    intro j l hd h1
    rw [pisShiftRight, dif_neg (by omega)]
    exact ⟨rfl, fun k _ => rfl⟩
  | succ d ih =>
    intro j l hd h1
    rw [pisShiftRight]
    by_cases hc : j < b
    · rw [dif_pos hc]
      by_cases hc2 : ¬ less (idx l j) (idx l (j - 1)) = true
      · rw [if_pos hc2]
        exact ⟨rfl, fun k _ => rfl⟩
      · rw [if_neg hc2]
        obtain ⟨hlen, hf⟩ := ih (j + 1) (swapL l j (j - 1)) (by omega) (by omega)
        refine ⟨by rw [hlen, swapL_length], ?_⟩
        intro k hk
        rw [hf k (by omega)]
        exact idx_swapL_ne l j (j - 1) k (by omega) (by omega)
    · rw [dif_neg hc]
      exact ⟨rfl, fun k _ => rfl⟩

theorem pisShiftLeft_spec (a b : Nat) : ∀ (n : Nat) (l : List α),
    a ≤ n → n < b → b ≤ l.length →
    (∀ t, a < t → t < n → key (idx l (t - 1)) ≤ key (idx l t)) →
    (0 < a → key (idx l (a - 1)) ≤ key (idx l n)) →
    (pisShiftLeft (keyLess key) l n).length = l.length ∧
    (∀ k, k < a ∨ n < k → idx (pisShiftLeft (keyLess key) l n) k = idx l k) ∧
    (∀ t, a < t → t ≤ n → key (idx (pisShiftLeft (keyLess key) l n) (t - 1)) ≤
      key (idx (pisShiftLeft (keyLess key) l n) t)) ∧
    (idx (pisShiftLeft (keyLess key) l n) n = idx l n ∨
      (a < n ∧ idx (pisShiftLeft (keyLess key) l n) n = idx l (n - 1))) := by
  intro n
  induction n with
  | zero =>
    intro l ha hnb hbl hs hpred
    rw [pisShiftLeft]
    exact ⟨rfl, fun k _ => rfl, fun t h1 h2 => absurd h1 (by omega), Or.inl rfl⟩
  | succ j ih =>
    intro l ha hnb hbl hs hpred
    rw [pisShiftLeft]
    by_cases hc : ¬ keyLess key (idx l (j + 1)) (idx l j) = true
    · rw [if_pos hc]
      have hle : key (idx l j) ≤ key (idx l (j + 1)) :=
        le_of_not_lt (by rwa [keyLess_iff] at hc)
      refine ⟨rfl, fun k _ => rfl, ?_, Or.inl rfl⟩
      intro t h1 h2
      rcases Nat.eq_or_lt_of_le h2 with he | h3
      · subst he
        rw [show j + 1 - 1 = j by omega]
        exact hle
      · exact hs t h1 (by omega)
    · rw [if_neg hc]
      have hlt : key (idx l (j + 1)) < key (idx l j) := by
        rcases Classical.em (keyLess key (idx l (j + 1)) (idx l j) = true) with h5 | h5
        · rwa [keyLess_iff] at h5
        · exact absurd h5 (by simpa using hc)
      have han : a ≤ j := by
        rcases Nat.lt_or_ge a (j + 1) with h | h
        · omega
        · have hae : a = j + 1 := by omega
          have h6 := hpred (by omega)
          rw [hae] at h6
          simp only [Nat.add_sub_cancel] at h6
          exact absurd hlt (not_lt_of_le h6)
      set l2 := swapL l (j + 1) j with hl2
      have hlen2 : l2.length = l.length := swapL_length l (j + 1) j
      have hidx1 : idx l2 j = idx l (j + 1) := idx_swapL_snd l (j + 1) j (by omega)
      have hidx2 : idx l2 (j + 1) = idx l j := idx_swapL_fst l (j + 1) j (by omega) (by omega)
      have hs2 : ∀ t, a < t → t < j → key (idx l2 (t - 1)) ≤ key (idx l2 t) := by
        intro t h1 h2
        rw [hl2, idx_swapL_ne l (j + 1) j (t - 1) (by omega) (by omega),
          idx_swapL_ne l (j + 1) j t (by omega) (by omega)]
        exact hs t h1 (by omega)
      have hp2 : 0 < a → key (idx l2 (a - 1)) ≤ key (idx l2 j) := by
        intro h0
        rw [hidx1, hl2, idx_swapL_ne l (j + 1) j (a - 1) (by omega) (by omega)]
        exact hpred h0
      obtain ⟨ih1, ih2, ih3, ih4⟩ := ih l2 han (by omega) (by omega) hs2 hp2
      refine ⟨by rw [ih1, hlen2], ?_, ?_, ?_⟩
      · intro k hk
        rw [ih2 k (by omega)]
        exact idx_swapL_ne l (j + 1) j k (by omega) (by omega)
      · intro t h1 h2
        rcases Nat.eq_or_lt_of_le h2 with he | h3
        · subst he
          have hrj1 : idx (pisShiftLeft (keyLess key) l2 j) (j + 1) = idx l j := by
            rw [ih2 (j + 1) (by omega)]
            exact hidx2
          rw [show j + 1 - 1 = j by omega, hrj1]
          rcases ih4 with h4 | ⟨h4a, h4b⟩
          · rw [h4, hidx1]
            exact le_of_lt hlt
          · rw [h4b, idx_swapL_ne l (j + 1) j (j - 1) (by omega) (by omega)]
            exact hs j h4a (by omega)
        · exact ih3 t h1 (by omega)
      · right
        refine ⟨by omega, ?_⟩
        rw [ih2 (j + 1) (by omega), hidx2, show j + 1 - 1 = j by omega]

theorem partialInsertionSortLoop_spec (a b : Nat) :
    ∀ (steps : Nat) (l : List α) (i : Nat),
      a < i → i ≤ b → b ≤ l.length →
      (∀ t, a < t → t < i → key (idx l (t - 1)) ≤ key (idx l t)) →
      (0 < a → ∀ t, a ≤ t → t < b → key (idx l (a - 1)) ≤ key (idx l t)) →
      (partialInsertionSortLoop (keyLess key) a b l i steps).1.length = l.length ∧
      (∀ k, k < a ∨ b ≤ k →
        idx (partialInsertionSortLoop (keyLess key) a b l i steps).1 k = idx l k) ∧
      ((partialInsertionSortLoop (keyLess key) a b l i steps).2 = true →
        SortedRange key (partialInsertionSortLoop (keyLess key) a b l i steps).1 a b) := by
  intro steps
  induction steps with
  | zero =>
    intro l i h1 h2 h3 hadj hpred
    exact ⟨rfl, fun k _ => rfl, fun h => absurd h (by simp [partialInsertionSortLoop])⟩
  | succ steps ih =>
    intro l i h1 h2 h3 hadj hpred
    simp only [partialInsertionSortLoop]
    obtain ⟨hadv1, hadv2, hadv3⟩ := pisAdvance_spec key b (b - i) i l (le_refl _)
    have hadvle : pisAdvance (keyLess key) b l i ≤ b :=
      pisAdvance_le (keyLess key) b (b - i) i l (le_refl _) h2
    set i1 := pisAdvance (keyLess key) b l i with hi1
    have hadj1 : ∀ t, a < t → t < i1 → key (idx l (t - 1)) ≤ key (idx l t) := by
      intro t h4 h5
      rcases Nat.lt_or_ge t i with h6 | h6
      · exact hadj t h4 h6
      · exact hadv2 t h6 h5
    by_cases hc1 : i1 = b
    · rw [if_pos hc1]
      refine ⟨rfl, fun k _ => rfl, ?_⟩
      intro _
      exact sortedRange_of_adj key l a b (fun t h4 h5 => hadj1 t h4 (by omega))
    · rw [if_neg hc1]
      by_cases hc2 : b - a < 50
      · rw [if_pos hc2]
        exact ⟨rfl, fun k _ => rfl, fun h => absurd h (by simp)⟩
      · rw [if_neg hc2]
        have hi1b : i1 < b := by omega
        have hi1a : a < i1 := by omega
        set l1 := swapL l i1 (i1 - 1) with hl1
        have hlen1 : l1.length = l.length := swapL_length _ _ _
        have hperm1 : List.Perm l1 l := swapL_perm l i1 (i1 - 1) (by omega) (by omega)
        have hfr1 : ∀ k, k < a ∨ b ≤ k → idx l1 k = idx l k := by
          intro k hk
          exact idx_swapL_ne l i1 (i1 - 1) k (by omega) (by omega)
        set l2 := if 2 ≤ i1 - a then pisShiftLeft (keyLess key) l1 (i1 - 1) else l1 with hl2
        have h2spec : l2.length = l.length ∧ List.Perm l2 l1 ∧
            (∀ k, k < a ∨ b ≤ k → idx l2 k = idx l k) ∧
            (∀ t, a < t → t < i1 → key (idx l2 (t - 1)) ≤ key (idx l2 t)) := by
          rw [hl2]
          by_cases hcL : 2 ≤ i1 - a
          · rw [if_pos hcL]
            have hs1 : ∀ t, a < t → t < i1 - 1 → key (idx l1 (t - 1)) ≤ key (idx l1 t) := by
              intro t h4 h5
              rw [hl1, idx_swapL_ne l i1 (i1 - 1) (t - 1) (by omega) (by omega),
                idx_swapL_ne l i1 (i1 - 1) t (by omega) (by omega)]
              exact hadj1 t h4 (by omega)
            have hp1 : 0 < a → key (idx l1 (a - 1)) ≤ key (idx l1 (i1 - 1)) := by
              intro h0
              have he1 : idx l1 (i1 - 1) = idx l i1 := by
                rw [hl1]
                exact idx_swapL_snd l i1 (i1 - 1) (by omega)
              have he2 : idx l1 (a - 1) = idx l (a - 1) := by
                rw [hl1]
                exact idx_swapL_ne l i1 (i1 - 1) (a - 1) (by omega) (by omega)
              rw [he1, he2]
              exact hpred h0 i1 (by omega) hi1b
            obtain ⟨s1, s2, s3, s4⟩ := pisShiftLeft_spec key a b (i1 - 1) l1 (by omega)
              (by omega) (by omega) hs1 hp1
            refine ⟨by rw [s1, hlen1],
              pisShiftLeft_perm (keyLess key) (i1 - 1) l1 (by omega), ?_, ?_⟩
            · intro k hk
              rw [s2 k (by omega)]
              exact hfr1 k hk
            · intro t h4 h5
              exact s3 t h4 (by omega)
          · rw [if_neg hcL]
            refine ⟨hlen1, List.Perm.refl l1, hfr1, ?_⟩
            intro t h4 h5
            exact absurd h5 (by omega)
        set l3 := if 2 ≤ b - i1 then pisShiftRight (keyLess key) b l2 (i1 + 1) else l2 with hl3
        have h3spec : l3.length = l.length ∧ List.Perm l3 l2 ∧
            (∀ k, k < i1 ∨ b ≤ k → idx l3 k = idx l2 k) := by
          rw [hl3]
          by_cases hcR : 2 ≤ b - i1
          · rw [if_pos hcR]
            obtain ⟨t1, t2⟩ := pisShiftRight_frame (keyLess key) b (b - (i1 + 1)) (i1 + 1) l2
              (le_refl _) (by omega)
            refine ⟨by rw [t1, h2spec.1],
              pisShiftRight_perm (keyLess key) b (b - (i1 + 1)) (i1 + 1) l2 (by omega)
                (by rw [h2spec.1]; exact h3), ?_⟩
            intro k hk
            exact t2 k (by omega)
          · rw [if_neg hcR]
            exact ⟨h2spec.1, List.Perm.refl l2, fun k _ => rfl⟩
        have hadj3 : ∀ t, a < t → t < i1 → key (idx l3 (t - 1)) ≤ key (idx l3 t) := by
          intro t h4 h5
          rw [h3spec.2.2 (t - 1) (Or.inl (by omega)), h3spec.2.2 t (Or.inl (by omega))]
          exact h2spec.2.2.2 t h4 h5
        have hperm3 : List.Perm l3 l := (h3spec.2.1.trans h2spec.2.1).trans hperm1
        have hfr3 : ∀ k, k < a ∨ b ≤ k → idx l3 k = idx l k := by
          intro k hk
          rw [h3spec.2.2 k (by omega)]
          exact h2spec.2.2.1 k hk
        have hpred3 : 0 < a → ∀ t, a ≤ t → t < b → key (idx l3 (a - 1)) ≤ key (idx l3 t) := by
          intro h0
          have he : idx l3 (a - 1) = idx l (a - 1) := hfr3 (a - 1) (Or.inl (by omega))
          rw [he]
          exact range_values_transfer (fun x => key (idx l (a - 1)) ≤ key x) l l3 a b
            hperm3 (by rw [h3spec.1]) hfr3 (by omega) h3 (fun t h4 h5 => hpred h0 t h4 h5)
        obtain ⟨r1, r2, r3⟩ := ih l3 i1 hi1a (by omega) (by rw [h3spec.1]; exact h3)
          hadj3 hpred3
        refine ⟨by rw [r1, h3spec.1], ?_, r3⟩
        intro k hk
        rw [r2 k hk]
        exact hfr3 k hk

theorem partialInsertionSortGo_spec (a b : Nat) (l : List α) (hab : a < b)
    (hb : b ≤ l.length)
    (hpred : 0 < a → ∀ t, a ≤ t → t < b → key (idx l (a - 1)) ≤ key (idx l t)) :
    (partialInsertionSortGo (keyLess key) a b l).1.length = l.length ∧
    (∀ k, k < a ∨ b ≤ k → idx (partialInsertionSortGo (keyLess key) a b l).1 k = idx l k) ∧
    ((partialInsertionSortGo (keyLess key) a b l).2 = true →
      SortedRange key (partialInsertionSortGo (keyLess key) a b l).1 a b) := by
  rw [partialInsertionSortGo]
  exact partialInsertionSortLoop_spec key a b 5 l (a + 1) (by omega) (by omega) hb
    (fun t h4 h5 => absurd h4 (by omega)) hpred

/-! #### `partition_func` and `partitionEqual_func`: zone analysis -/

theorem partAdvanceI_spec (l : List α) (a j : Nat) : ∀ (d i : Nat), j + 1 - i ≤ d →
    i ≤ partAdvanceI (keyLess key) l a j i ∧
    (i ≤ j + 1 → partAdvanceI (keyLess key) l a j i ≤ j + 1) ∧
    (∀ t, i ≤ t → t < partAdvanceI (keyLess key) l a j i →
      key (idx l t) < key (idx l a)) ∧
    (partAdvanceI (keyLess key) l a j i ≤ j →
      ¬ (key (idx l (partAdvanceI (keyLess key) l a j i)) < key (idx l a))) := by
  intro d
  induction d with
  | zero =>
    intro i hd
    rw [partAdvanceI, dif_neg (fun h => absurd h.1 (by omega))]
    exact ⟨le_refl _, by omega, fun t h1 h2 => absurd h2 (by omega),
      fun h5 => absurd h5 (by omega)⟩
  | succ d ih =>
    intro i hd
    rw [partAdvanceI]
    by_cases hc : i ≤ j ∧ keyLess key (idx l i) (idx l a) = true
    · rw [dif_pos hc]
      obtain ⟨ha1, ha2, ha3, ha4⟩ := ih (i + 1) (by omega)
      refine ⟨by omega, fun _ => ha2 (by omega), ?_, ha4⟩
      intro t h1 h2
      rcases Nat.eq_or_lt_of_le h1 with rfl | h4
      · rw [← keyLess_iff]
        exact hc.2
      · exact ha3 t (by omega) h2
    · rw [dif_neg hc]
      refine ⟨le_refl _, by omega, fun t h1 h2 => absurd h2 (by omega), ?_⟩
      intro h5 h6
      rw [← keyLess_iff] at h6
      exact hc ⟨by omega, h6⟩

theorem partAdvanceJ_spec (l : List α) (a i : Nat) (hi : 1 ≤ i) : ∀ (j : Nat),
    (∀ t, partAdvanceJ (keyLess key) l a i j < t → t ≤ j →
      ¬ (key (idx l t) < key (idx l a))) ∧
    (i ≤ partAdvanceJ (keyLess key) l a i j →
      key (idx l (partAdvanceJ (keyLess key) l a i j)) < key (idx l a)) ∧
    (a + 1 ≤ i → a ≤ j → a ≤ partAdvanceJ (keyLess key) l a i j) := by
  intro j
  induction j with
  | zero =>
    rw [partAdvanceJ]
    exact ⟨fun t h1 h2 => absurd h1 (by omega), fun h => absurd h (by omega),
      fun h1 h2 => by omega⟩
  | succ j ih =>
    rw [partAdvanceJ]
    by_cases hc : i ≤ j + 1 ∧ ¬ keyLess key (idx l (j + 1)) (idx l a) = true
    · rw [if_pos hc]
      obtain ⟨ha1, ha2, ha3⟩ := ih
      refine ⟨?_, ha2, fun h1 h2 => ha3 h1 (by omega)⟩
      intro t h1 h2
      rcases Nat.eq_or_lt_of_le h2 with rfl | h4
      · intro h5
        rw [← keyLess_iff] at h5
        exact hc.2 h5
      · exact ha1 t h1 (by omega)
    · rw [if_neg hc]
      refine ⟨fun t h1 h2 => absurd h1 (by omega), ?_, fun h1 h2 => by omega⟩
      intro h5
      rcases Classical.em (keyLess key (idx l (j + 1)) (idx l a) = true) with h6 | h6
      · rwa [keyLess_iff] at h6
      · exact absurd ⟨h5, h6⟩ hc

theorem peqAdvanceI_spec (l : List α) (a j : Nat) : ∀ (d i : Nat), j + 1 - i ≤ d →
    i ≤ peqAdvanceI (keyLess key) l a j i ∧
    (i ≤ j + 1 → peqAdvanceI (keyLess key) l a j i ≤ j + 1) ∧
    (∀ t, i ≤ t → t < peqAdvanceI (keyLess key) l a j i →
      ¬ (key (idx l a) < key (idx l t))) ∧
    (peqAdvanceI (keyLess key) l a j i ≤ j →
      key (idx l a) < key (idx l (peqAdvanceI (keyLess key) l a j i))) := by
  intro d
  induction d with
  | zero =>
    intro i hd
    rw [peqAdvanceI, dif_neg (fun h => absurd h.1 (by omega))]
    exact ⟨le_refl _, by omega, fun t h1 h2 => absurd h2 (by omega),
      fun h5 => absurd h5 (by omega)⟩
  | succ d ih =>
    intro i hd
    rw [peqAdvanceI]
    by_cases hc : i ≤ j ∧ ¬ keyLess key (idx l a) (idx l i) = true
    · rw [dif_pos hc]
      obtain ⟨ha1, ha2, ha3, ha4⟩ := ih (i + 1) (by omega)
      refine ⟨by omega, fun _ => ha2 (by omega), ?_, ha4⟩
      intro t h1 h2
      rcases Nat.eq_or_lt_of_le h1 with rfl | h4
      · intro h5
        rw [← keyLess_iff] at h5
        exact hc.2 h5
      · exact ha3 t (by omega) h2
    · rw [dif_neg hc]
      refine ⟨le_refl _, by omega, fun t h1 h2 => absurd h2 (by omega), ?_⟩
      intro h5
      rcases Classical.em (keyLess key (idx l a) (idx l i) = true) with h6 | h6
      · rwa [keyLess_iff] at h6
      · exact absurd ⟨by omega, h6⟩ hc

theorem peqAdvanceJ_spec (l : List α) (a i : Nat) (hi : 1 ≤ i) : ∀ (j : Nat),
    (∀ t, peqAdvanceJ (keyLess key) l a i j < t → t ≤ j →
      key (idx l a) < key (idx l t)) ∧
    (i ≤ peqAdvanceJ (keyLess key) l a i j →
      ¬ (key (idx l a) < key (idx l (peqAdvanceJ (keyLess key) l a i j)))) ∧
    (a + 1 ≤ i → a ≤ j → a ≤ peqAdvanceJ (keyLess key) l a i j) := by
  intro j
  induction j with
  | zero =>
    rw [peqAdvanceJ]
    exact ⟨fun t h1 h2 => absurd h1 (by omega), fun h => absurd h (by omega),
      fun h1 h2 => by omega⟩
  | succ j ih =>
    rw [peqAdvanceJ]
    by_cases hc : i ≤ j + 1 ∧ keyLess key (idx l a) (idx l (j + 1)) = true
    · rw [if_pos hc]
      obtain ⟨ha1, ha2, ha3⟩ := ih
      refine ⟨?_, ha2, fun h1 h2 => ha3 h1 (by omega)⟩
      intro t h1 h2
      rcases Nat.eq_or_lt_of_le h2 with rfl | h4
      · rw [← keyLess_iff]
        exact hc.2
      · exact ha1 t h1 (by omega)
    · rw [if_neg hc]
      refine ⟨fun t h1 h2 => absurd h1 (by omega), ?_, fun h1 h2 => by omega⟩
      intro h5 h6
      rw [← keyLess_iff] at h6
      exact hc ⟨h5, h6⟩

theorem partitionLoopGo_spec (a b : Nat) :
    ∀ (fuel : Nat) (l : List α) (i j : Nat),
      b ≤ fuel + i → a + 1 ≤ i → i ≤ j + 1 → j ≤ b - 1 → a ≤ j → b ≤ l.length →
      a + 1 < b →
      (∀ t, a + 1 ≤ t → t < i → key (idx l t) < key (idx l a)) →
      (∀ t, j < t → t < b → ¬ (key (idx l t) < key (idx l a))) →
      (partitionLoopGo (keyLess key) a fuel l i j).1.length = l.length ∧
      (∀ k, k < i ∨ j < k → idx (partitionLoopGo (keyLess key) a fuel l i j).1 k = idx l k) ∧
      a ≤ (partitionLoopGo (keyLess key) a fuel l i j).2 ∧
      (partitionLoopGo (keyLess key) a fuel l i j).2 ≤ j ∧
      (∀ t, a + 1 ≤ t → t ≤ (partitionLoopGo (keyLess key) a fuel l i j).2 →
        key (idx (partitionLoopGo (keyLess key) a fuel l i j).1 t) < key (idx l a)) ∧
      (∀ t, (partitionLoopGo (keyLess key) a fuel l i j).2 < t → t < b →
        ¬ (key (idx (partitionLoopGo (keyLess key) a fuel l i j).1 t) < key (idx l a))) := by
  intro fuel
  induction fuel with
  | zero =>
    intro l i j hfuel hai hij hjb haj hbl hab hL hR
    have hib : i = b := by omega
    have hjb1 : j = b - 1 := by omega
    simp only [partitionLoopGo]
    refine ⟨trivial, fun k _ => trivial, by omega, le_refl _, ?_, ?_⟩
    · intro t h1 h2
      exact hL t h1 (by omega)
    · intro t h1 h2
      exact hR t h1 h2
  | succ fuel ih =>
    intro l i j hfuel hai hij hjb haj hbl hab hL hR
    rw [partitionLoopGo]
    obtain ⟨hi1, hi2, hi3, hi4⟩ := partAdvanceI_spec key l a j (j + 1 - i) i (le_refl _)
    set i1 := partAdvanceI (keyLess key) l a j i with hdefi1
    have hi1j : i1 ≤ j + 1 := hi2 hij
    obtain ⟨hj1, hj2, hj3⟩ := partAdvanceJ_spec key l a i1 (by omega) j
    have hjle : partAdvanceJ (keyLess key) l a i1 j ≤ j := partAdvanceJ_le (keyLess key) l a i1 j
    set j1 := partAdvanceJ (keyLess key) l a i1 j with hdefj1
    have haj1 : a ≤ j1 := hj3 (by omega) haj
    -- combined left zone of l up to i1
    have hLL : ∀ t, a + 1 ≤ t → t < i1 → key (idx l t) < key (idx l a) := by
      intro t h1 h2
      rcases Nat.lt_or_ge t i with h4 | h4
      · exact hL t h1 h4
      · exact hi3 t h4 h2
    -- combined right zone of l from j1+1
    have hRR : ∀ t, j1 < t → t < b → ¬ (key (idx l t) < key (idx l a)) := by
      intro t h1 h2
      rcases Nat.lt_or_ge j t with h4 | h4
      · exact hR t h4 h2
      · exact hj1 t h1 h4
    by_cases hc : j1 < i1
    · rw [if_pos hc]
      refine ⟨rfl, fun k _ => rfl, haj1, hjle, ?_, ?_⟩
      · intro t h1 h2
        exact hLL t h1 (by omega)
      · intro t h1 h2
        exact hRR t h1 h2
    · rw [if_neg hc]
      have hi1j1 : i1 ≤ j1 := by omega
      have hi1lt : i1 < j1 := by
        rcases Nat.eq_or_lt_of_le hi1j1 with he | h4
        · exfalso
          have hx := hj2 hi1j1
          rw [← he] at hx
          exact hi4 (by omega) hx
        · exact h4
      set l1 := swapL l i1 j1 with hl1
      have hlen1 : l1.length = l.length := swapL_length _ _ _
      have hVa : idx l1 a = idx l a := idx_swapL_ne l i1 j1 a (by omega) (by omega)
      have hidxi1 : idx l1 i1 = idx l j1 := idx_swapL_fst l i1 j1 (by omega) (by omega)
      have hidxj1 : idx l1 j1 = idx l i1 := idx_swapL_snd l i1 j1 (by omega)
      have hL1 : ∀ t, a + 1 ≤ t → t < i1 + 1 → key (idx l1 t) < key (idx l1 a) := by
        intro t h1 h2
        rw [hVa]
        rcases Nat.eq_or_lt_of_le (show t ≤ i1 by omega) with rfl | h4
        · rw [hidxi1]
          exact hj2 hi1j1
        · rw [idx_swapL_ne l i1 j1 t (by omega) (by omega)]
          exact hLL t h1 h4
      have hR1 : ∀ t, j1 - 1 < t → t < b → ¬ (key (idx l1 t) < key (idx l1 a)) := by
        intro t h1 h2
        rw [hVa]
        rcases Nat.eq_or_lt_of_le (show j1 ≤ t by omega) with he | h4
        · rw [← he, hidxj1]
          exact hi4 (by omega)
        · rw [idx_swapL_ne l i1 j1 t (by omega) (by omega)]
          exact hRR t h4 h2
      obtain ⟨r1, r2, r3, r4, r5, r6⟩ := ih l1 (i1 + 1) (j1 - 1) (by omega) (by omega)
        (by omega) (by omega) (by omega) (by rw [hlen1]; exact hbl) hab hL1 hR1
      refine ⟨by rw [r1, hlen1], ?_, r3, by omega, ?_, ?_⟩
      · intro k hk
        rw [r2 k (by omega)]
        exact idx_swapL_ne l i1 j1 k (by omega) (by omega)
      · intro t h1 h2
        have h6 := r5 t h1 h2
        rwa [hVa] at h6
      · intro t h1 h2
        have h6 := r6 t h1 h2
        rwa [hVa] at h6

theorem partitionGo_spec (a b pivot : Nat) (l : List α)
    (hab : a + 1 < b) (hb : b ≤ l.length) (hpa : a ≤ pivot) (hpb : pivot < b) :
    (partitionGo (keyLess key) a b pivot l).1.length = l.length ∧
    (∀ k, k < a ∨ b ≤ k → idx (partitionGo (keyLess key) a b pivot l).1 k = idx l k) ∧
    a ≤ (partitionGo (keyLess key) a b pivot l).2.1 ∧
    (partitionGo (keyLess key) a b pivot l).2.1 < b ∧
    key (idx (partitionGo (keyLess key) a b pivot l).1
      (partitionGo (keyLess key) a b pivot l).2.1) = key (idx l pivot) ∧
    (∀ t, a ≤ t → t < (partitionGo (keyLess key) a b pivot l).2.1 →
      key (idx (partitionGo (keyLess key) a b pivot l).1 t) < key (idx l pivot)) ∧
    (∀ t, (partitionGo (keyLess key) a b pivot l).2.1 < t → t < b →
      ¬ (key (idx (partitionGo (keyLess key) a b pivot l).1 t) < key (idx l pivot))) := by
  simp only [partitionGo]
  set l0 := swapL l a pivot with hl0
  have hlen0 : l0.length = l.length := swapL_length _ _ _
  have hV : idx l0 a = idx l pivot := idx_swapL_fst l a pivot (by omega) (by omega)
  have hfr0 : ∀ k, k < a ∨ b ≤ k → idx l0 k = idx l k := by
    intro k hk
    exact idx_swapL_ne l a pivot k (by omega) (by omega)
  obtain ⟨hi1, hi2, hi3, hi4⟩ := partAdvanceI_spec key l0 a (b - 1)
    (b - 1 + 1 - (a + 1)) (a + 1) (le_refl _)
  set i1 := partAdvanceI (keyLess key) l0 a (b - 1) (a + 1) with hdefi1
  have hi1b : i1 ≤ b := by
    have h5 := hi2 (by omega)
    omega
  obtain ⟨hj1, hj2, hj3⟩ := partAdvanceJ_spec key l0 a i1 (by omega) (b - 1)
  have hjle : partAdvanceJ (keyLess key) l0 a i1 (b - 1) ≤ b - 1 :=
    partAdvanceJ_le _ _ _ _ _
  set j1 := partAdvanceJ (keyLess key) l0 a i1 (b - 1) with hdefj1
  have haj1 : a ≤ j1 := hj3 (by omega) (by omega)
  by_cases hc : j1 < i1
  · rw [if_pos hc]
    show (swapL l0 j1 a).length = l.length ∧
      (∀ k, k < a ∨ b ≤ k → idx (swapL l0 j1 a) k = idx l k) ∧
      a ≤ j1 ∧ j1 < b ∧
      key (idx (swapL l0 j1 a) j1) = key (idx l pivot) ∧
      (∀ t, a ≤ t → t < j1 → key (idx (swapL l0 j1 a) t) < key (idx l pivot)) ∧
      (∀ t, j1 < t → t < b → ¬ (key (idx (swapL l0 j1 a) t) < key (idx l pivot)))
    refine ⟨by rw [swapL_length, hlen0], ?_, haj1, by omega, ?_, ?_, ?_⟩
    · intro k hk
      rw [idx_swapL_ne l0 j1 a k (by omega) (by omega)]
      exact hfr0 k hk
    · rw [idx_swapL_fst l0 j1 a (by omega) (by omega), hV]
    · intro t h1 h2
      rw [← hV]
      rcases Nat.eq_or_lt_of_le h1 with he | h4
      · rw [← he, idx_swapL_snd l0 j1 a (by omega)]
        exact hi3 j1 (by omega) (by omega)
      · rw [idx_swapL_ne l0 j1 a t (by omega) (by omega)]
        exact hi3 t (by omega) (by omega)
    · intro t h1 h2
      rw [← hV, idx_swapL_ne l0 j1 a t (by omega) (by omega)]
      exact hj1 t h1 (by omega)
  · rw [if_neg hc]
    have hi1j1 : i1 ≤ j1 := by omega
    have hi1lt : i1 < j1 := by
      rcases Nat.eq_or_lt_of_le hi1j1 with he | h4
      · exfalso
        have hx := hj2 hi1j1
        rw [← he] at hx
        exact hi4 (by omega) hx
      · exact h4
    set l1 := swapL l0 i1 j1 with hl1
    have hlen1 : l1.length = l.length := by rw [hl1, swapL_length, hlen0]
    have hVa : idx l1 a = idx l0 a := idx_swapL_ne l0 i1 j1 a (by omega) (by omega)
    have hidxi1 : idx l1 i1 = idx l0 j1 := idx_swapL_fst l0 i1 j1 (by omega) (by omega)
    have hidxj1 : idx l1 j1 = idx l0 i1 := idx_swapL_snd l0 i1 j1 (by omega)
    have hL1 : ∀ t, a + 1 ≤ t → t < i1 + 1 → key (idx l1 t) < key (idx l1 a) := by
      intro t h1 h2
      rw [hVa]
      rcases Nat.eq_or_lt_of_le (show t ≤ i1 by omega) with he | h4
      · rw [he, hidxi1]
        exact hj2 hi1j1
      · rw [idx_swapL_ne l0 i1 j1 t (by omega) (by omega)]
        exact hi3 t h1 h4
    have hR1 : ∀ t, j1 - 1 < t → t < b → ¬ (key (idx l1 t) < key (idx l1 a)) := by
      intro t h1 h2
      rw [hVa]
      rcases Nat.eq_or_lt_of_le (show j1 ≤ t by omega) with he | h4
      · rw [← he, hidxj1]
        exact hi4 (by omega)
      · rw [idx_swapL_ne l0 i1 j1 t (by omega) (by omega)]
        exact hj1 t h4 (by omega)
    obtain ⟨r1, r2, r3, r4, r5, r6⟩ := partitionLoopGo_spec key a b b l1 (i1 + 1) (j1 - 1)
      (by omega) (by omega) (by omega) (by omega) (by omega) (by rw [hlen1]; exact hb)
      hab hL1 hR1
    rcases hpair : partitionLoopGo (keyLess key) a b l1 (i1 + 1) (j1 - 1) with ⟨l2, j2⟩
    simp only [hpair] at r1 r2 r3 r4 r5 r6
    simp only [hpair]
    show (swapL l2 j2 a).length = l.length ∧
      (∀ k, k < a ∨ b ≤ k → idx (swapL l2 j2 a) k = idx l k) ∧
      a ≤ j2 ∧ j2 < b ∧
      key (idx (swapL l2 j2 a) j2) = key (idx l pivot) ∧
      (∀ t, a ≤ t → t < j2 → key (idx (swapL l2 j2 a) t) < key (idx l pivot)) ∧
      (∀ t, j2 < t → t < b → ¬ (key (idx (swapL l2 j2 a) t) < key (idx l pivot)))
    have hVl2 : idx l2 a = idx l0 a := by
      rw [r2 a (Or.inl (by omega)), hVa]
    have hl2len : l2.length = l.length := by rw [r1, hlen1]
    refine ⟨by rw [swapL_length, hl2len], ?_, r3, by omega, ?_, ?_, ?_⟩
    · intro k hk
      rw [idx_swapL_ne l2 j2 a k (by omega) (by omega), r2 k (by omega),
        idx_swapL_ne l0 i1 j1 k (by omega) (by omega)]
      exact hfr0 k hk
    · rw [idx_swapL_fst l2 j2 a (by rw [hl2len]; omega) (by rw [hl2len]; omega), hVl2, hV]
    · intro t h1 h2
      rw [← hV]
      rcases Nat.eq_or_lt_of_le h1 with he | h4
      · rw [← he, idx_swapL_snd l2 j2 a (by rw [hl2len]; omega)]
        have h5 := r5 j2 (by omega) (le_refl _)
        rwa [hVa] at h5
      · rw [idx_swapL_ne l2 j2 a t (by omega) (by omega)]
        have h5 := r5 t (by omega) (by omega)
        rwa [hVa] at h5
    · intro t h1 h2
      rw [← hV, idx_swapL_ne l2 j2 a t (by omega) (by omega)]
      have h5 := r6 t h1 h2
      rwa [hVa] at h5

theorem partitionEqualLoop_spec (a b : Nat) :
    ∀ (fuel : Nat) (l : List α) (i j : Nat),
      b ≤ fuel + i → a + 1 ≤ i → i ≤ j + 1 → j ≤ b - 1 → a ≤ j → b ≤ l.length →
      a + 1 < b →
      (∀ t, a + 1 ≤ t → t < i → ¬ (key (idx l a) < key (idx l t))) →
      (∀ t, j < t → t < b → key (idx l a) < key (idx l t)) →
      (partitionEqualLoop (keyLess key) a fuel l i j).1.length = l.length ∧
      (∀ k, k < i ∨ j < k →
        idx (partitionEqualLoop (keyLess key) a fuel l i j).1 k = idx l k) ∧
      i ≤ (partitionEqualLoop (keyLess key) a fuel l i j).2 ∧
      (partitionEqualLoop (keyLess key) a fuel l i j).2 ≤ b ∧
      (∀ t, a + 1 ≤ t → t < (partitionEqualLoop (keyLess key) a fuel l i j).2 →
        ¬ (key (idx l a) < key (idx (partitionEqualLoop (keyLess key) a fuel l i j).1 t))) ∧
      (∀ t, (partitionEqualLoop (keyLess key) a fuel l i j).2 ≤ t → t < b →
        key (idx l a) < key (idx (partitionEqualLoop (keyLess key) a fuel l i j).1 t)) := by
  intro fuel
  induction fuel with
  | zero =>
    intro l i j hfuel hai hij hjb haj hbl hab hL hR
    have hib : i = b := by omega
    simp only [partitionEqualLoop]
    refine ⟨trivial, fun k _ => trivial, le_refl _, by omega, ?_, ?_⟩
    · intro t h1 h2
      exact hL t h1 h2
    · intro t h1 h2
      exact absurd h1 (by omega)
  | succ fuel ih =>
    intro l i j hfuel hai hij hjb haj hbl hab hL hR
    rw [partitionEqualLoop]
    obtain ⟨hi1, hi2, hi3, hi4⟩ := peqAdvanceI_spec key l a j (j + 1 - i) i (le_refl _)
    set i1 := peqAdvanceI (keyLess key) l a j i with hdefi1
    have hi1j : i1 ≤ j + 1 := hi2 hij
    obtain ⟨hj1, hj2, hj3⟩ := peqAdvanceJ_spec key l a i1 (by omega) j
    have hjle : peqAdvanceJ (keyLess key) l a i1 j ≤ j := peqAdvanceJ_le (keyLess key) l a i1 j
    set j1 := peqAdvanceJ (keyLess key) l a i1 j with hdefj1
    have haj1 : a ≤ j1 := hj3 (by omega) haj
    have hLL : ∀ t, a + 1 ≤ t → t < i1 → ¬ (key (idx l a) < key (idx l t)) := by
      intro t h1 h2
      rcases Nat.lt_or_ge t i with h4 | h4
      · exact hL t h1 h4
      · exact hi3 t h4 h2
    have hRR : ∀ t, j1 < t → t < b → key (idx l a) < key (idx l t) := by
      intro t h1 h2
      rcases Nat.lt_or_ge j t with h4 | h4
      · exact hR t h4 h2
      · exact hj1 t h1 h4
    by_cases hc : j1 < i1
    · rw [if_pos hc]
      refine ⟨rfl, fun k _ => rfl, hi1, by omega, ?_, ?_⟩
      · intro t h1 h2
        exact hLL t h1 h2
      · intro t h1 h2
        exact hRR t (by omega) h2
    · rw [if_neg hc]
      have hi1j1 : i1 ≤ j1 := by omega
      have hi1lt : i1 < j1 := by
        rcases Nat.eq_or_lt_of_le hi1j1 with he | h4
        · exfalso
          have hx := hi4 (by omega)
          have hy := hj2 hi1j1
          rw [← he] at hy
          exact hy hx
        · exact h4
      set l1 := swapL l i1 j1 with hl1
      have hlen1 : l1.length = l.length := swapL_length _ _ _
      have hVa : idx l1 a = idx l a := idx_swapL_ne l i1 j1 a (by omega) (by omega)
      have hidxi1 : idx l1 i1 = idx l j1 := idx_swapL_fst l i1 j1 (by omega) (by omega)
      have hidxj1 : idx l1 j1 = idx l i1 := idx_swapL_snd l i1 j1 (by omega)
      have hL1 : ∀ t, a + 1 ≤ t → t < i1 + 1 → ¬ (key (idx l1 a) < key (idx l1 t)) := by
        intro t h1 h2
        rw [hVa]
        rcases Nat.eq_or_lt_of_le (show t ≤ i1 by omega) with he | h4
        · rw [he, hidxi1]
          exact hj2 hi1j1
        · rw [idx_swapL_ne l i1 j1 t (by omega) (by omega)]
          exact hLL t h1 h4
      have hR1 : ∀ t, j1 - 1 < t → t < b → key (idx l1 a) < key (idx l1 t) := by
        intro t h1 h2
        rw [hVa]
        rcases Nat.eq_or_lt_of_le (show j1 ≤ t by omega) with he | h4
        · rw [← he, hidxj1]
          exact hi4 (by omega)
        · rw [idx_swapL_ne l i1 j1 t (by omega) (by omega)]
          exact hRR t h4 h2
      obtain ⟨r1, r2, r3, r4, r5, r6⟩ := ih l1 (i1 + 1) (j1 - 1) (by omega) (by omega)
        (by omega) (by omega) (by omega) (by rw [hlen1]; exact hbl) hab
        (fun t h1 h2 => hL1 t h1 h2) (fun t h1 h2 => hR1 t h1 h2)
      refine ⟨by rw [r1, hlen1], ?_, by omega, r4, ?_, ?_⟩
      · intro k hk
        rw [r2 k (by omega)]
        exact idx_swapL_ne l i1 j1 k (by omega) (by omega)
      · intro t h1 h2
        have h6 := r5 t h1 h2
        rwa [hVa] at h6
      · intro t h1 h2
        have h6 := r6 t h1 h2
        rwa [hVa] at h6

theorem partitionEqualGo_spec (a b pivot : Nat) (l : List α)
    (hab : a + 1 < b) (hb : b ≤ l.length) (hpa : a ≤ pivot) (hpb : pivot < b) :
    (partitionEqualGo (keyLess key) a b pivot l).1.length = l.length ∧
    (∀ k, k < a ∨ b ≤ k → idx (partitionEqualGo (keyLess key) a b pivot l).1 k = idx l k) ∧
    a + 1 ≤ (partitionEqualGo (keyLess key) a b pivot l).2 ∧
    (partitionEqualGo (keyLess key) a b pivot l).2 ≤ b ∧
    (∀ t, a ≤ t → t < (partitionEqualGo (keyLess key) a b pivot l).2 →
      ¬ (key (idx l pivot) < key (idx (partitionEqualGo (keyLess key) a b pivot l).1 t))) ∧
    (∀ t, (partitionEqualGo (keyLess key) a b pivot l).2 ≤ t → t < b →
      key (idx l pivot) < key (idx (partitionEqualGo (keyLess key) a b pivot l).1 t)) := by
  simp only [partitionEqualGo]
  set l0 := swapL l a pivot with hl0
  have hlen0 : l0.length = l.length := swapL_length _ _ _
  have hV : idx l0 a = idx l pivot := idx_swapL_fst l a pivot (by omega) (by omega)
  have hfr0 : ∀ k, k < a ∨ b ≤ k → idx l0 k = idx l k := by
    intro k hk
    exact idx_swapL_ne l a pivot k (by omega) (by omega)
  obtain ⟨r1, r2, r3, r4, r5, r6⟩ := partitionEqualLoop_spec key a b (b + 1) l0 (a + 1)
    (b - 1) (by omega) (le_refl _) (by omega) (by omega) (by omega)
    (by rw [hlen0]; exact hb) hab
    (fun t h1 h2 => absurd h2 (by omega)) (fun t h1 h2 => absurd h2 (by omega))
  refine ⟨by rw [r1, hlen0], ?_, r3, r4, ?_, ?_⟩
  · intro k hk
    rw [r2 k (by omega)]
    exact hfr0 k hk
  · intro t h1 h2
    rcases Nat.eq_or_lt_of_le h1 with he | h4
    · rw [← he, r2 a (Or.inl (by omega)), hV]
      exact lt_irrefl _
    · have h5 := r5 t (by omega) h2
      rwa [hV] at h5
  · intro t h1 h2
    have h5 := r6 t h1 h2
    rwa [hV] at h5

/-! #### `heapSort_func`: sift, build and pop phases -/

/-- Max-heap property at node `r` of the implicit tree over `data[first+lo : first+hi]`. -/
def HeapAt (l : List α) (first hi r : Nat) : Prop :=
  (2 * r + 1 < hi → key (idx l (first + (2 * r + 1))) ≤ key (idx l (first + r))) ∧
  (2 * r + 2 < hi → key (idx l (first + (2 * r + 2))) ≤ key (idx l (first + r)))

theorem siftDownGo_spec (first hi : Nat) :
    ∀ (d root : Nat) (l : List α), hi - root ≤ d → first + hi ≤ l.length →
      (∀ r, root < r → HeapAt key l first hi r) →
      (siftDownGo (keyLess key) hi first l root).length = l.length ∧
      (∀ p, p < first + root ∨ first + hi ≤ p →
        idx (siftDownGo (keyLess key) hi first l root) p = idx l p) ∧
      (∀ r, root ≤ r → HeapAt key (siftDownGo (keyLess key) hi first l root) first hi r) ∧
      (∀ t, root < t → t < hi →
        key (idx (siftDownGo (keyLess key) hi first l root) (first + t)) ≤
          key (idx l (first + t))) ∧
      (idx (siftDownGo (keyLess key) hi first l root) (first + root) =
          idx l (first + root) ∨
        (2 * root + 1 < hi ∧
          idx (siftDownGo (keyLess key) hi first l root) (first + root) =
            idx l (first + (2 * root + 1))) ∨
        (2 * root + 2 < hi ∧
          idx (siftDownGo (keyLess key) hi first l root) (first + root) =
            idx l (first + (2 * root + 2)))) := by
  intro d
  induction d with
  | zero =>
    intro root l hd hbl hheap
    rw [siftDownGo, dif_neg (by omega)]
    refine ⟨rfl, fun p _ => rfl, ?_, fun t h1 h2 => le_refl _, Or.inl rfl⟩
    intro r hr
    rcases Nat.eq_or_lt_of_le hr with rfl | hgt
    · exact ⟨fun h => absurd h (by omega), fun h => absurd h (by omega)⟩
    · exact hheap r hgt
  | succ d ih =>
    intro root l hd hbl hheap
    rw [siftDownGo]
    by_cases h1 : 2 * root + 1 < hi
    · rw [dif_pos h1]
      have step : ∀ (c : Nat), (c = 2 * root + 1 ∨ c = 2 * root + 2) → c < hi →
          keyLess key (idx l (first + root)) (idx l (first + c)) = true →
          (∀ o, (o = 2 * root + 1 ∨ o = 2 * root + 2) → o ≠ c → o < hi →
            key (idx l (first + o)) ≤ key (idx l (first + c))) →
          (siftDownGo (keyLess key) hi first (swapL l (first + root) (first + c)) c).length
            = l.length ∧
          (∀ p, p < first + root ∨ first + hi ≤ p →
            idx (siftDownGo (keyLess key) hi first
              (swapL l (first + root) (first + c)) c) p = idx l p) ∧
          (∀ r, root ≤ r → HeapAt key (siftDownGo (keyLess key) hi first
            (swapL l (first + root) (first + c)) c) first hi r) ∧
          (∀ t, root < t → t < hi →
            key (idx (siftDownGo (keyLess key) hi first
              (swapL l (first + root) (first + c)) c) (first + t)) ≤
              key (idx l (first + t))) ∧
          (idx (siftDownGo (keyLess key) hi first
            (swapL l (first + root) (first + c)) c) (first + root) =
              idx l (first + root) ∨
            (2 * root + 1 < hi ∧
              idx (siftDownGo (keyLess key) hi first
                (swapL l (first + root) (first + c)) c) (first + root) =
                idx l (first + (2 * root + 1))) ∨
            (2 * root + 2 < hi ∧
              idx (siftDownGo (keyLess key) hi first
                (swapL l (first + root) (first + c)) c) (first + root) =
                idx l (first + (2 * root + 2)))) := by
        intro c hcval hchi hless hother
        have hcgt : root < c := by rcases hcval with rfl | rfl <;> omega
        have hcle : c ≤ 2 * root + 2 := by rcases hcval with rfl | rfl <;> omega
        have hcl : first + c < l.length := by omega
        have hrl : first + root < l.length := by omega
        set l2 := swapL l (first + root) (first + c) with hl2
        have hlen2 : l2.length = l.length := swapL_length _ _ _
        have hroot2 : idx l2 (first + root) = idx l (first + c) :=
          idx_swapL_fst _ _ _ hrl hcl
        have hc2v : idx l2 (first + c) = idx l (first + root) := idx_swapL_snd _ _ _ hcl
        have hfr2 : ∀ p, p ≠ first + root → p ≠ first + c → idx l2 p = idx l p :=
          fun p hp1 hp2 => idx_swapL_ne _ _ _ _ hp1 hp2
        have hheap2 : ∀ r, c < r → HeapAt key l2 first hi r := by
          intro r hr
          obtain ⟨ha, hb2⟩ := hheap r (by omega)
          constructor
          · intro hg
            rw [hfr2 _ (by omega) (by omega), hfr2 _ (by omega) (by omega)]
            exact ha hg
          · intro hg
            rw [hfr2 _ (by omega) (by omega), hfr2 _ (by omega) (by omega)]
            exact hb2 hg
        obtain ⟨q1, q2, q3, q4, q5⟩ := ih c l2 (by omega) (by rw [hlen2]; exact hbl) hheap2
        have hlessk : key (idx l (first + root)) < key (idx l (first + c)) := by
          rwa [keyLess_iff] at hless
        have hcdec : key (idx (siftDownGo (keyLess key) hi first l2 c) (first + c)) ≤
            key (idx l (first + c)) := by
          rcases q5 with h5 | ⟨h5a, h5b⟩ | ⟨h5a, h5b⟩
          · rw [h5, hc2v]
            exact le_of_lt hlessk
          · rw [h5b, hfr2 _ (by omega) (by omega)]
            exact (hheap c hcgt).1 h5a
          · rw [h5b, hfr2 _ (by omega) (by omega)]
            exact (hheap c hcgt).2 h5a
        have hrootval : idx (siftDownGo (keyLess key) hi first l2 c) (first + root) =
            idx l (first + c) := by
          rw [q2 (first + root) (Or.inl (by omega)), hroot2]
        have hchildbound : ∀ o, (o = 2 * root + 1 ∨ o = 2 * root + 2) → o < hi →
            key (idx (siftDownGo (keyLess key) hi first l2 c) (first + o)) ≤
              key (idx l (first + c)) := by
          intro o ho hohi
          by_cases hoc : o = c
          · rw [hoc]
            exact hcdec
          · have h6 : o < c ∨ c < o := by omega
            rcases h6 with h6 | h6
            · rw [q2 _ (Or.inl (by omega)), hfr2 _ (by omega) (by omega)]
              exact hother o ho hoc hohi
            · have hogt : root < o := by rcases ho with rfl | rfl <;> omega
              have h7 := q4 o h6 hohi
              rw [hfr2 _ (by omega) (by omega)] at h7
              exact le_trans h7 (hother o ho hoc hohi)
        refine ⟨by rw [q1, hlen2], ?_, ?_, ?_, ?_⟩
        · intro p hp
          rw [q2 p (by omega)]
          exact hfr2 p (by omega) (by omega)
        · intro r hr
          rcases Nat.eq_or_lt_of_le hr with rfl | hgt
          · constructor
            · intro hg
              rw [hrootval]
              exact hchildbound (2 * root + 1) (Or.inl rfl) hg
            · intro hg
              rw [hrootval]
              exact hchildbound (2 * root + 2) (Or.inr rfl) hg
          · rcases Nat.lt_or_ge r c with hrc | hrc
            · obtain ⟨ha, hb2⟩ := hheap r hgt
              have hrr : idx (siftDownGo (keyLess key) hi first l2 c) (first + r) =
                  idx l (first + r) := by
                rw [q2 _ (Or.inl (by omega))]
                exact hfr2 _ (by omega) (by omega)
              constructor
              · intro hg
                have hd1 := q4 (2 * r + 1) (by omega) hg
                rw [hfr2 _ (by omega) (by omega)] at hd1
                rw [hrr]
                exact le_trans hd1 (ha hg)
              · intro hg
                have hd1 := q4 (2 * r + 2) (by omega) hg
                rw [hfr2 _ (by omega) (by omega)] at hd1
                rw [hrr]
                exact le_trans hd1 (hb2 hg)
            · exact q3 r hrc
        · intro t ht1 ht2
          rcases Nat.lt_trichotomy t c with htc | rfl | htc
          · rw [q2 _ (Or.inl (by omega)), hfr2 _ (by omega) (by omega)]
          · exact hcdec
          · have h7 := q4 t htc ht2
            rwa [hfr2 _ (by omega) (by omega)] at h7
        · rcases hcval with rfl | rfl
          · right
            left
            exact ⟨by omega, hrootval⟩
          · right
            right
            exact ⟨by omega, hrootval⟩
      by_cases h2 : 2 * root + 1 + 1 < hi ∧
          keyLess key (idx l (first + (2 * root + 1)))
            (idx l (first + (2 * root + 1) + 1)) = true
      · rw [dif_pos h2]
        by_cases h3 : keyLess key (idx l (first + root))
            (idx l (first + (2 * root + 1 + 1))) = true
        · rw [if_pos h3]
          have hval : first + (2 * root + 1) + 1 = first + (2 * root + 1 + 1) := by omega
          have h2b := h2.2
          rw [hval] at h2b
          refine step (2 * root + 1 + 1) (Or.inr (by omega)) (by omega) h3 ?_
          intro o ho hoc hohi
          have hoe : o = 2 * root + 1 := by omega
          rw [hoe]
          exact le_of_lt (by rwa [keyLess_iff] at h2b)
        · rw [if_neg h3]
          have hval : first + (2 * root + 1) + 1 = first + (2 * root + 1 + 1) := by omega
          have h2b := h2.2
          rw [hval] at h2b
          have hch2 : key (idx l (first + (2 * root + 1 + 1))) ≤
              key (idx l (first + root)) := by
            rcases Classical.em (keyLess key (idx l (first + root))
                (idx l (first + (2 * root + 1 + 1))) = true) with h6 | h6
            · exact absurd h6 h3
            · rw [keyLess_iff] at h6
              exact le_of_not_lt h6
          have hch1 : key (idx l (first + (2 * root + 1))) ≤ key (idx l (first + root)) :=
            le_trans (le_of_lt (by rwa [keyLess_iff] at h2b)) hch2
          refine ⟨rfl, fun p _ => rfl, ?_, fun t h5 h6 => le_refl _, Or.inl rfl⟩
          intro r hr
          rcases Nat.eq_or_lt_of_le hr with rfl | hgt
          · refine ⟨fun _ => hch1, fun hg => ?_⟩
            have hval2 : first + (2 * root + 2) = first + (2 * root + 1 + 1) := by omega
            rw [hval2]
            exact hch2
          · exact hheap r hgt
      · rw [dif_neg h2]
        by_cases h3 : keyLess key (idx l (first + root))
            (idx l (first + (2 * root + 1))) = true
        · rw [if_pos h3]
          refine step (2 * root + 1) (Or.inl rfl) h1 h3 ?_
          intro o ho hoc hohi
          have hoe : o = 2 * root + 2 := by omega
          subst hoe
          have h6 : ¬ keyLess key (idx l (first + (2 * root + 1)))
              (idx l (first + (2 * root + 1) + 1)) = true := by
            intro h7
            exact h2 ⟨by omega, h7⟩
          rw [keyLess_iff] at h6
          have hval : first + (2 * root + 1) + 1 = first + (2 * root + 2) := by omega
          rw [hval] at h6
          exact le_of_not_lt h6
        · rw [if_neg h3]
          have hch1 : key (idx l (first + (2 * root + 1))) ≤ key (idx l (first + root)) := by
            rcases Classical.em (keyLess key (idx l (first + root))
                (idx l (first + (2 * root + 1))) = true) with h6 | h6
            · exact absurd h6 h3
            · rw [keyLess_iff] at h6
              exact le_of_not_lt h6
          refine ⟨rfl, fun p _ => rfl, ?_, fun t h5 h6 => le_refl _, Or.inl rfl⟩
          intro r hr
          rcases Nat.eq_or_lt_of_le hr with rfl | hgt
          · refine ⟨fun _ => hch1, fun hg => ?_⟩
            have h6 : ¬ keyLess key (idx l (first + (2 * root + 1)))
                (idx l (first + (2 * root + 1) + 1)) = true := by
              intro h7
              exact h2 ⟨by omega, h7⟩
            rw [keyLess_iff] at h6
            have hval : first + (2 * root + 1) + 1 = first + (2 * root + 2) := by omega
            rw [hval] at h6
            exact le_trans (le_of_not_lt h6) hch1
          · exact hheap r hgt
    · rw [dif_neg h1]
      refine ⟨rfl, fun p _ => rfl, ?_, fun t h5 h6 => le_refl _, Or.inl rfl⟩
      intro r hr
      rcases Nat.eq_or_lt_of_le hr with rfl | hgt
      · exact ⟨fun h => absurd h (by omega), fun h => absurd h (by omega)⟩
      · exact hheap r hgt

theorem heap_root_max (l : List α) (first hi : Nat)
    (hheap : ∀ r, HeapAt key l first hi r) :
    ∀ t, t < hi → key (idx l (first + t)) ≤ key (idx l first) := by
  intro t
  induction t using Nat.strong_induction_on with
  | _ t ihs =>
    intro ht
    rcases Nat.eq_zero_or_pos t with rfl | hpos
    · rw [Nat.add_zero]
    · have hchild : t = 2 * ((t - 1) / 2) + 1 ∨ t = 2 * ((t - 1) / 2) + 2 := by omega
      have hple : key (idx l (first + t)) ≤ key (idx l (first + (t - 1) / 2)) := by
        rcases hchild with he | he
        · conv_lhs => rw [he]
          exact (hheap ((t - 1) / 2)).1 (by omega)
        · conv_lhs => rw [he]
          exact (hheap ((t - 1) / 2)).2 (by omega)
      exact le_trans hple (ihs ((t - 1) / 2) (by omega) (by omega))

theorem heapSortBuild_spec (first hi : Nat) :
    ∀ (i : Nat) (l : List α), first + hi ≤ l.length →
      (∀ r, i < r → HeapAt key l first hi r) →
      (heapSortBuild (keyLess key) hi first l i).length = l.length ∧
      (∀ p, p < first ∨ first + hi ≤ p →
        idx (heapSortBuild (keyLess key) hi first l i) p = idx l p) ∧
      (∀ r, HeapAt key (heapSortBuild (keyLess key) hi first l i) first hi r) := by
  intro i
  induction i with
  | zero =>
    intro l hbl hheap
    rw [heapSortBuild]
    obtain ⟨q1, q2, q3, q4, q5⟩ := siftDownGo_spec key first hi hi 0 l (by omega) hbl
      (fun r hr => hheap r hr)
    exact ⟨q1, fun p hp => q2 p (by omega), fun r => q3 r (Nat.zero_le r)⟩
  | succ i ihb =>
    intro l hbl hheap
    rw [heapSortBuild]
    obtain ⟨q1, q2, q3, q4, q5⟩ := siftDownGo_spec key first hi hi (i + 1) l (by omega) hbl
      (fun r hr => hheap r hr)
    obtain ⟨p1, p2, p3⟩ := ihb (siftDownGo (keyLess key) hi first l (i + 1))
      (by rw [q1]; exact hbl) (fun r hr => q3 r (by omega))
    refine ⟨by rw [p1, q1], ?_, p3⟩
    intro p hp
    rw [p2 p hp]
    exact q2 p (by omega)

theorem heapSortPop_spec (first hi0 : Nat) :
    ∀ (c : Nat) (l : List α), first + hi0 ≤ l.length → c < hi0 →
      (∀ r, HeapAt key l first (c + 1) r) →
      (∀ s t, s ≤ c → c < t → t < hi0 →
        key (idx l (first + s)) ≤ key (idx l (first + t))) →
      (∀ t, c + 1 < t → t < hi0 →
        key (idx l (first + (t - 1))) ≤ key (idx l (first + t))) →
      (heapSortPop (keyLess key) first l c).length = l.length ∧
      (∀ p, p < first ∨ first + hi0 ≤ p →
        idx (heapSortPop (keyLess key) first l c) p = idx l p) ∧
      (∀ s t, s ≤ t → t < hi0 →
        key (idx (heapSortPop (keyLess key) first l c) (first + s)) ≤
          key (idx (heapSortPop (keyLess key) first l c) (first + t))) := by
  intro c
  induction c with
  | zero =>
    intro l hbl hc hheap hbound hsorted
    rw [heapSortPop, swapL_self, siftDownGo, dif_neg (by omega)]
    refine ⟨rfl, fun p _ => rfl, ?_⟩
    intro s t hst ht
    rcases Nat.eq_or_lt_of_le hst with rfl | hlt
    · exact le_refl _
    · rcases Nat.eq_zero_or_pos s with rfl | hs
      · exact hbound 0 t (le_refl _) (by omega) ht
      · have chain : ∀ (m : Nat), s + m < hi0 →
            key (idx l (first + s)) ≤ key (idx l (first + (s + m))) := by
          intro m
          induction m with
          | zero => intro _; exact le_refl _
          | succ m ihm =>
            intro hm
            refine le_trans (ihm (by omega)) ?_
            have h7 := hsorted (s + m + 1) (by omega) (by omega)
            rwa [show s + m + 1 - 1 = s + m by omega] at h7
        have h8 := chain (t - s) (by omega)
        rwa [show s + (t - s) = t by omega] at h8
  | succ c ihp =>
    intro l hbl hc hheap hbound hsorted
    rw [heapSortPop]
    set M := idx l first with hM
    have hmax : ∀ t, t < c + 2 → key (idx l (first + t)) ≤ key M := by
      intro t ht
      rw [hM]
      exact heap_root_max key l first (c + 2) (fun r => hheap r) t ht
    set l2 := swapL l first (first + (c + 1)) with hl2
    have hc1l : first + (c + 1) < l.length := by omega
    have hfl : first < l.length := by omega
    have hlen2 : l2.length = l.length := swapL_length _ _ _
    have h2top : idx l2 (first + (c + 1)) = M := by
      rw [hl2, idx_swapL_snd _ _ _ hc1l, hM]
    have h2root : idx l2 first = idx l (first + (c + 1)) := idx_swapL_fst _ _ _ hfl hc1l
    have hfr2 : ∀ p, p ≠ first → p ≠ first + (c + 1) → idx l2 p = idx l p :=
      fun p hp1 hp2 => idx_swapL_ne _ _ _ _ hp1 hp2
    have hheap2 : ∀ r, 0 < r → HeapAt key l2 first (c + 1) r := by
      intro r hr
      obtain ⟨ha, hb2⟩ := hheap r
      constructor
      · intro hg
        rw [hfr2 _ (by omega) (by omega), hfr2 _ (by omega) (by omega)]
        exact ha (by omega)
      · intro hg
        rw [hfr2 _ (by omega) (by omega), hfr2 _ (by omega) (by omega)]
        exact hb2 (by omega)
    obtain ⟨q1, q2, q3, q4, q5⟩ := siftDownGo_spec key first (c + 1) (c + 1) 0 l2
      (by omega) (by rw [hlen2]; omega) (fun r hr => hheap2 r hr)
    set l3 := siftDownGo (keyLess key) (c + 1) first l2 0 with hl3
    have hlen3 : l3.length = l.length := by rw [hl3, q1, hlen2]
    have h3top : idx l3 (first + (c + 1)) = M := by
      rw [hl3, q2 _ (Or.inr (by omega)), h2top]
    have h3le : ∀ s, s ≤ c → key (idx l3 (first + s)) ≤ key M := by
      intro s hs
      rcases Nat.eq_zero_or_pos s with rfl | hspos
      · rcases q5 with h5 | ⟨h5a, h5b⟩ | ⟨h5a, h5b⟩
        · rw [Nat.add_zero] at h5 ⊢
          rw [h5, h2root]
          exact hmax (c + 1) (by omega)
        · rw [Nat.add_zero] at h5b ⊢
          rw [h5b, hfr2 _ (by omega) (by omega)]
          exact hmax (2 * 0 + 1) (by omega)
        · rw [Nat.add_zero] at h5b ⊢
          rw [h5b, hfr2 _ (by omega) (by omega)]
          exact hmax (2 * 0 + 2) (by omega)
      · have h7 := q4 s (by omega) (by omega)
        rw [hfr2 _ (by omega) (by omega)] at h7
        exact le_trans h7 (hmax s (by omega))
    have hteq : ∀ u, c + 1 < u → u < hi0 → idx l3 (first + u) = idx l (first + u) := by
      intro u h7 h8
      rw [hl3, q2 _ (Or.inr (by omega))]
      exact hfr2 _ (by omega) (by omega)
    have hbound3 : ∀ s t, s ≤ c → c < t → t < hi0 →
        key (idx l3 (first + s)) ≤ key (idx l3 (first + t)) := by
      intro s t hs hct hth
      rcases Nat.eq_or_lt_of_le (show c + 1 ≤ t by omega) with he | hgt2
      · rw [← he, h3top]
        exact h3le s hs
      · rw [hteq t (by omega) hth]
        have hMt := hbound 0 t (by omega) (by omega) hth
        rw [Nat.add_zero, ← hM] at hMt
        exact le_trans (h3le s hs) hMt
    have hsorted3 : ∀ t, c + 1 < t → t < hi0 →
        key (idx l3 (first + (t - 1))) ≤ key (idx l3 (first + t)) := by
      intro t ht1 ht2
      rcases Nat.eq_or_lt_of_le (show c + 2 ≤ t by omega) with he | hgt2
      · rw [hteq t (by omega) ht2, show t - 1 = c + 1 by omega, h3top]
        have hMt := hbound 0 t (by omega) (by omega) ht2
        rw [Nat.add_zero, ← hM] at hMt
        exact hMt
      · rw [hteq t (by omega) ht2, hteq (t - 1) (by omega) (by omega)]
        exact hsorted t (by omega) ht2
    obtain ⟨p1, p2, p3⟩ := ihp l3 (by rw [hlen3]; exact hbl) (by omega)
      (fun r => q3 r (Nat.zero_le r)) hbound3 hsorted3
    refine ⟨by rw [p1, hlen3], ?_, p3⟩
    intro p hp
    rw [p2 p hp, hl3, q2 p (by omega)]
    exact hfr2 p (by omega) (by omega)

theorem heapSortGo_sorted (a b : Nat) (l : List α) (hab : a < b) (hb : b ≤ l.length) :
    (heapSortGo (keyLess key) a b l).length = l.length ∧
    (∀ k, k < a ∨ b ≤ k → idx (heapSortGo (keyLess key) a b l) k = idx l k) ∧
    SortedRange key (heapSortGo (keyLess key) a b l) a b := by
  simp only [heapSortGo]
  obtain ⟨b1, b2, b3⟩ := heapSortBuild_spec key a (b - a) ((b - a - 1) / 2) l (by omega)
    (fun r hr => ⟨fun h => absurd h (by omega), fun h => absurd h (by omega)⟩)
  rw [if_neg (by omega : ¬ (b - a = 0))]
  set l1 := heapSortBuild (keyLess key) (b - a) a l ((b - a - 1) / 2) with hl1
  have hheap1 : ∀ r, HeapAt key l1 a (b - a - 1 + 1) r := by
    intro r
    rw [show b - a - 1 + 1 = b - a by omega]
    exact b3 r
  obtain ⟨p1, p2, p3⟩ := heapSortPop_spec key a (b - a) (b - a - 1) l1
    (by rw [b1]; omega) (by omega) hheap1
    (fun s t hs hct hth => absurd hct (by omega))
    (fun t ht1 ht2 => absurd ht1 (by omega))
  refine ⟨by rw [p1, b1], ?_, ?_⟩
  · intro k hk
    rw [p2 k (by omega), b2 k (by omega)]
  · intro i j h1 h2 h3
    have h4 := p3 (i - a) (j - a) (by omega) (by omega)
    rwa [show a + (i - a) = i by omega, show a + (j - a) = j by omega] at h4

/-! #### Gluing the phases: `pdqsort_func` sorts its range -/

theorem pdqsortAfterPivot_sorted
    (rec : List α → Nat → Nat → Nat → Bool → Bool → List α) (N : Nat)
    (hrec : ∀ (l : List α) (a b limit : Nat) (wb wp : Bool), b - a < N →
      b ≤ l.length →
      (0 < a → ∀ t, a ≤ t → t < b → key (idx l (a - 1)) ≤ key (idx l t)) →
      (rec l a b limit wb wp).length = l.length ∧
      (∀ k, k < a ∨ b ≤ k → idx (rec l a b limit wb wp) k = idx l k) ∧
      SortedRange key (rec l a b limit wb wp) a b)
    (hrecperm : ∀ (l : List α) (a b limit : Nat) (wb wp : Bool), b ≤ l.length →
      List.Perm (rec l a b limit wb wp) l)
    (l3 : List α) (a b limit1 pivot1 : Nat) (wb wp : Bool)
    (hab : a + 1 < b) (hN : b - a ≤ N) (hb : b ≤ l3.length)
    (hpiv : a ≤ pivot1 ∧ pivot1 < b)
    (hpred : 0 < a → ∀ t, a ≤ t → t < b → key (idx l3 (a - 1)) ≤ key (idx l3 t)) :
    (pdqsortAfterPivot (keyLess key) rec l3 a b limit1 pivot1 wb wp).length = l3.length ∧
    (∀ k, k < a ∨ b ≤ k →
      idx (pdqsortAfterPivot (keyLess key) rec l3 a b limit1 pivot1 wb wp) k = idx l3 k) ∧
    SortedRange key (pdqsortAfterPivot (keyLess key) rec l3 a b limit1 pivot1 wb wp) a b := by
  simp only [pdqsortAfterPivot]
  split
  · rename_i hguard
    obtain ⟨e1, e2, e3, e4, e5, e6⟩ :=
      partitionEqualGo_spec key a b pivot1 l3 hab hb hpiv.1 hpiv.2
    set pe := partitionEqualGo (keyLess key) a b pivot1 l3 with hpe
    have hVpred : key (idx l3 pivot1) ≤ key (idx l3 (a - 1)) := by
      have h5 := hguard.2
      rw [keyLess_iff] at h5
      exact le_of_not_lt h5
    have hperm : List.Perm pe.1 l3 :=
      partitionEqualGo_perm (keyLess key) a b pivot1 l3 (by omega) hb (by omega)
    have hge : ∀ t, a ≤ t → t < b → key (idx l3 (a - 1)) ≤ key (idx pe.1 t) :=
      range_values_transfer (fun x => key (idx l3 (a - 1)) ≤ key x) l3 pe.1 a b hperm
        (by rw [e1]) e2 (by omega) hb (fun t h1 h2 => hpred hguard.1 t h1 h2)
    have hEqV : ∀ t, a ≤ t → t < pe.2 → key (idx pe.1 t) = key (idx l3 pivot1) := by
      intro t h1 h2
      exact le_antisymm (le_of_not_lt (e5 t h1 h2))
        (le_trans hVpred (hge t h1 (by omega)))
    have hpred2 : 0 < pe.2 → ∀ t, pe.2 ≤ t → t < b →
        key (idx pe.1 (pe.2 - 1)) ≤ key (idx pe.1 t) := by
      intro h0 t h1 h2
      have hm1 : key (idx pe.1 (pe.2 - 1)) = key (idx l3 pivot1) :=
        hEqV (pe.2 - 1) (by omega) (by omega)
      rw [hm1]
      exact le_of_lt (e6 t h1 h2)
    obtain ⟨r1, r2, r3⟩ := hrec pe.1 pe.2 b limit1 wb wp (by omega)
      (by rw [e1]; exact hb) hpred2
    have hresL : ∀ t, a ≤ t → t < pe.2 →
        key (idx (rec pe.1 pe.2 b limit1 wb wp) t) = key (idx l3 pivot1) := by
      intro t h4 h5
      rw [r2 t (Or.inl h5)]
      exact hEqV t h4 h5
    have hresR : ∀ t, pe.2 ≤ t → t < b →
        key (idx l3 pivot1) ≤ key (idx (rec pe.1 pe.2 b limit1 wb wp) t) :=
      range_values_transfer (fun x => key (idx l3 pivot1) ≤ key x) pe.1
        (rec pe.1 pe.2 b limit1 wb wp) pe.2 b
        (hrecperm pe.1 pe.2 b limit1 wb wp (by rw [e1]; exact hb))
        (by rw [r1]) r2 (by omega) (by rw [e1]; exact hb)
        (fun t h4 h5 => le_of_lt (e6 t h4 h5))
    refine ⟨by rw [r1, e1], ?_, ?_⟩
    · intro k hk
      rw [r2 k (by omega), e2 k hk]
    · intro i j h1 h2 h3
      rcases Nat.lt_or_ge j pe.2 with h4 | h4
      · rw [hresL i h1 (by omega), hresL j (by omega) h4]
      · rcases Nat.lt_or_ge i pe.2 with h5 | h5
        · rw [hresL i h1 h5]
          exact hresR j h4 h3
        · exact r3 i j h5 h2 h3
  · rename_i hguard
    obtain ⟨t1, t2, t3, t4, t5, t6, t7⟩ :=
      partitionGo_spec key a b pivot1 l3 hab hb hpiv.1 hpiv.2
    set pt := partitionGo (keyLess key) a b pivot1 l3 with hpt
    have hptperm : List.Perm pt.1 l3 :=
      partitionGo_perm (keyLess key) a b pivot1 l3 (by omega) hb (by omega)
    have hge : 0 < a → ∀ t, a ≤ t → t < b →
        key (idx l3 (a - 1)) ≤ key (idx pt.1 t) := by
      intro h0
      exact range_values_transfer (fun x => key (idx l3 (a - 1)) ≤ key x) l3 pt.1 a b
        hptperm (by rw [t1]) t2 (by omega) hb (fun t h1 h2 => hpred h0 t h1 h2)
    split
    · -- left side shorter: sort [a, mid) first, then [mid+1, b)
      have hpred5 : 0 < a → ∀ t, a ≤ t → t < pt.2.1 →
          key (idx pt.1 (a - 1)) ≤ key (idx pt.1 t) := by
        intro h0 t h1 h2
        rw [t2 (a - 1) (Or.inl (by omega))]
        exact hge h0 t h1 (by omega)
      obtain ⟨f1, f2, f3⟩ := hrec pt.1 a pt.2.1 limit1 true true (by omega)
        (by rw [t1]; omega) hpred5
      set l5 := rec pt.1 a pt.2.1 limit1 true true with hl5
      have hperm5 : List.Perm l5 pt.1 :=
        hrecperm pt.1 a pt.2.1 limit1 true true (by rw [t1]; omega)
      have hlen5 : l5.length = l3.length := by rw [f1, t1]
      have hL5 : ∀ t, a ≤ t → t < pt.2.1 → key (idx l5 t) < key (idx l3 pivot1) :=
        range_values_transfer (fun x => key x < key (idx l3 pivot1)) pt.1 l5 a pt.2.1
          hperm5 (by rw [f1]) f2 (by omega) (by rw [t1]; omega)
          (fun t h1 h2 => t6 t h1 h2)
      have hmid5 : idx l5 pt.2.1 = idx pt.1 pt.2.1 := f2 pt.2.1 (Or.inr (le_refl _))
      have hR5 : ∀ t, pt.2.1 < t → t < b →
          ¬ (key (idx l5 t) < key (idx l3 pivot1)) := by
        intro t h1 h2
        rw [f2 t (Or.inr (by omega))]
        exact t7 t h1 h2
      have hpred6 : 0 < pt.2.1 + 1 → ∀ t, pt.2.1 + 1 ≤ t → t < b →
          key (idx l5 (pt.2.1 + 1 - 1)) ≤ key (idx l5 t) := by
        intro _ t h1 h2
        rw [show pt.2.1 + 1 - 1 = pt.2.1 by omega, hmid5, t5]
        exact le_of_not_lt (hR5 t (by omega) h2)
      have final : ∀ (wb2 wp2 : Bool),
          (rec l5 (pt.2.1 + 1) b limit1 wb2 wp2).length = l3.length ∧
          (∀ k, k < a ∨ b ≤ k →
            idx (rec l5 (pt.2.1 + 1) b limit1 wb2 wp2) k = idx l3 k) ∧
          SortedRange key (rec l5 (pt.2.1 + 1) b limit1 wb2 wp2) a b := by
        intro wb2 wp2
        obtain ⟨g1, g2, g3⟩ := hrec l5 (pt.2.1 + 1) b limit1 wb2 wp2 (by omega)
          (by rw [hlen5]; exact hb) hpred6
        set l6 := rec l5 (pt.2.1 + 1) b limit1 wb2 wp2 with hl6
        have hperm6 : List.Perm l6 l5 :=
          hrecperm l5 (pt.2.1 + 1) b limit1 wb2 wp2 (by rw [hlen5]; exact hb)
        have hF1 : ∀ t, a ≤ t → t < pt.2.1 →
            key (idx l6 t) < key (idx l3 pivot1) := by
          intro t h1 h2
          rw [g2 t (Or.inl (by omega))]
          exact hL5 t h1 h2
        have hF2 : key (idx l6 pt.2.1) = key (idx l3 pivot1) := by
          rw [g2 pt.2.1 (Or.inl (by omega)), hmid5, t5]
        have hF3 : ∀ t, pt.2.1 < t → t < b →
            key (idx l3 pivot1) ≤ key (idx l6 t) := by
          have htr := range_values_transfer
            (fun x => key (idx l3 pivot1) ≤ key x) l5 l6 (pt.2.1 + 1) b hperm6
            hperm6.length_eq g2 (by omega) (by rw [hlen5]; exact hb)
            (fun t h1 h2 => le_of_not_lt (hR5 t (by omega) h2))
          intro t h1 h2
          exact htr t (by omega) h2
        refine ⟨by rw [g1, hlen5], ?_, ?_⟩
        · intro k hk
          rw [g2 k (by omega), f2 k (by omega), t2 k hk]
        · intro i j h1 h2 h3
          rcases Nat.lt_or_ge j pt.2.1 with h4 | h4
          · rw [g2 i (Or.inl (by omega)), g2 j (Or.inl (by omega))]
            exact f3 i j h1 h2 h4
          · have hRHS : key (idx l3 pivot1) ≤ key (idx l6 j) := by
              rcases Nat.eq_or_lt_of_le h4 with he | h6
              · rw [← he]
                exact le_of_eq hF2.symm
              · exact hF3 j h6 h3
            rcases Nat.lt_or_ge i pt.2.1 with h5 | h5
            · exact le_trans (le_of_lt (hF1 i h1 h5)) hRHS
            · rcases Nat.eq_or_lt_of_le h5 with he | h6
              · rw [← he, hF2]
                exact hRHS
              · exact g3 i j (by omega) h2 h3
      exact final _ _
    · -- right side shorter: sort [mid+1, b) first, then [a, mid)
      have hpred5 : 0 < pt.2.1 + 1 → ∀ t, pt.2.1 + 1 ≤ t → t < b →
          key (idx pt.1 (pt.2.1 + 1 - 1)) ≤ key (idx pt.1 t) := by
        intro _ t h1 h2
        rw [show pt.2.1 + 1 - 1 = pt.2.1 by omega, t5]
        exact le_of_not_lt (t7 t (by omega) h2)
      obtain ⟨f1, f2, f3⟩ := hrec pt.1 (pt.2.1 + 1) b limit1 true true (by omega)
        (by rw [t1]; exact hb) hpred5
      set l5 := rec pt.1 (pt.2.1 + 1) b limit1 true true with hl5
      have hperm5 : List.Perm l5 pt.1 :=
        hrecperm pt.1 (pt.2.1 + 1) b limit1 true true (by rw [t1]; exact hb)
      have hlen5 : l5.length = l3.length := by rw [f1, t1]
      have hL5 : ∀ t, a ≤ t → t < pt.2.1 → key (idx l5 t) < key (idx l3 pivot1) := by
        intro t h1 h2
        rw [f2 t (Or.inl (by omega))]
        exact t6 t h1 h2
      have hmid5 : idx l5 pt.2.1 = idx pt.1 pt.2.1 := f2 pt.2.1 (Or.inl (by omega))
      have hR5 : ∀ t, pt.2.1 < t → t < b →
          key (idx l3 pivot1) ≤ key (idx l5 t) := by
        have htr := range_values_transfer (fun x => key (idx l3 pivot1) ≤ key x) pt.1 l5
          (pt.2.1 + 1) b hperm5 (by rw [f1]) f2 (by omega) (by rw [t1]; exact hb)
          (fun t h1 h2 => le_of_not_lt (t7 t (by omega) h2))
        intro t h1 h2
        exact htr t (by omega) h2
      have hpred6 : 0 < a → ∀ t, a ≤ t → t < pt.2.1 →
          key (idx l5 (a - 1)) ≤ key (idx l5 t) := by
        intro h0 t h1 h2
        rw [f2 (a - 1) (Or.inl (by omega)), f2 t (Or.inl (by omega)),
          t2 (a - 1) (Or.inl (by omega))]
        exact hge h0 t h1 (by omega)
      have final : ∀ (wb2 wp2 : Bool),
          (rec l5 a pt.2.1 limit1 wb2 wp2).length = l3.length ∧
          (∀ k, k < a ∨ b ≤ k →
            idx (rec l5 a pt.2.1 limit1 wb2 wp2) k = idx l3 k) ∧
          SortedRange key (rec l5 a pt.2.1 limit1 wb2 wp2) a b := by
        intro wb2 wp2
        obtain ⟨g1, g2, g3⟩ := hrec l5 a pt.2.1 limit1 wb2 wp2 (by omega)
          (by rw [hlen5]; omega) hpred6
        set l6 := rec l5 a pt.2.1 limit1 wb2 wp2 with hl6
        have hperm6 : List.Perm l6 l5 :=
          hrecperm l5 a pt.2.1 limit1 wb2 wp2 (by rw [hlen5]; omega)
        have hF1 : ∀ t, a ≤ t → t < pt.2.1 →
            key (idx l6 t) < key (idx l3 pivot1) :=
          range_values_transfer (fun x => key x < key (idx l3 pivot1)) l5 l6 a pt.2.1
            hperm6 hperm6.length_eq g2 (by omega) (by rw [hlen5]; omega)
            (fun t h1 h2 => hL5 t h1 h2)
        have hF2 : key (idx l6 pt.2.1) = key (idx l3 pivot1) := by
          rw [g2 pt.2.1 (Or.inr (le_refl _)), hmid5, t5]
        have hF3 : ∀ t, pt.2.1 < t → t < b →
            key (idx l3 pivot1) ≤ key (idx l6 t) := by
          intro t h1 h2
          rw [g2 t (Or.inr (by omega))]
          exact hR5 t h1 h2
        refine ⟨by rw [g1, hlen5], ?_, ?_⟩
        · intro k hk
          rw [g2 k (by omega), f2 k (by omega), t2 k hk]
        · intro i j h1 h2 h3
          rcases Nat.lt_or_ge j pt.2.1 with h4 | h4
          · exact g3 i j h1 h2 h4
          · have hRHS : key (idx l3 pivot1) ≤ key (idx l6 j) := by
              rcases Nat.eq_or_lt_of_le h4 with he | h6
              · rw [← he]
                exact le_of_eq hF2.symm
              · exact hF3 j h6 h3
            rcases Nat.lt_or_ge i pt.2.1 with h5 | h5
            · exact le_trans (le_of_lt (hF1 i h1 h5)) hRHS
            · rcases Nat.eq_or_lt_of_le h5 with he | h6
              · rw [← he, hF2]
                exact hRHS
              · -- both > mid
                rw [g2 i (Or.inr (by omega)), g2 j (Or.inr (by omega))]
                exact f3 i j (by omega) h2 h3
      exact final _ _

theorem pdqsortBody_sorted
    (rec : List α → Nat → Nat → Nat → Bool → Bool → List α) (N : Nat)
    (hrec : ∀ (l : List α) (a b limit : Nat) (wb wp : Bool), b - a < N →
      b ≤ l.length →
      (0 < a → ∀ t, a ≤ t → t < b → key (idx l (a - 1)) ≤ key (idx l t)) →
      (rec l a b limit wb wp).length = l.length ∧
      (∀ k, k < a ∨ b ≤ k → idx (rec l a b limit wb wp) k = idx l k) ∧
      SortedRange key (rec l a b limit wb wp) a b)
    (hrecperm : ∀ (l : List α) (a b limit : Nat) (wb wp : Bool), b ≤ l.length →
      List.Perm (rec l a b limit wb wp) l)
    (l : List α) (a b limit : Nat) (wb wp : Bool)
    (h13 : a + 13 ≤ b) (hN : b - a ≤ N) (hb : b ≤ l.length)
    (hpred : 0 < a → ∀ t, a ≤ t → t < b → key (idx l (a - 1)) ≤ key (idx l t)) :
    (pdqsortBody (keyLess key) rec l a b limit wb wp).length = l.length ∧
    (∀ k, k < a ∨ b ≤ k →
      idx (pdqsortBody (keyLess key) rec l a b limit wb wp) k = idx l k) ∧
    SortedRange key (pdqsortBody (keyLess key) rec l a b limit wb wp) a b := by
  simp only [pdqsortBody]
  set l1 := if wb = true then l else breakPatternsGo l a b with hl1
  have h1 : List.Perm l1 l ∧ l1.length = l.length ∧
      (∀ k, k < a ∨ b ≤ k → idx l1 k = idx l k) := by
    rw [hl1]
    split
    · exact ⟨List.Perm.refl l, rfl, fun k _ => rfl⟩
    · obtain ⟨u1, u2⟩ := breakPatternsGo_frame l a b
      exact ⟨breakPatternsGo_perm l a b hb, u1, u2⟩
  have hpred1 : 0 < a → ∀ t, a ≤ t → t < b → key (idx l1 (a - 1)) ≤ key (idx l1 t) := by
    intro h0
    have he : idx l1 (a - 1) = idx l (a - 1) := h1.2.2 (a - 1) (Or.inl (by omega))
    rw [he]
    exact range_values_transfer (fun x => key (idx l (a - 1)) ≤ key x) l l1 a b h1.1
      h1.2.1 h1.2.2 (by omega) hb (fun t h4 h5 => hpred h0 t h4 h5)
  set pv := choosePivotGo (keyLess key) l1 a b with hpv
  have hpvm : a ≤ pv.1 ∧ pv.1 < b := choosePivotGo_mem (keyLess key) l1 a b h13
  set l2 := if pv.2 = Hint.decreasing then reverseRangeGo l1 a b else l1 with hl2
  have h2 : List.Perm l2 l1 ∧ l2.length = l1.length ∧
      (∀ k, k < a ∨ b ≤ k → idx l2 k = idx l1 k) := by
    rw [hl2]
    split
    · obtain ⟨u1, u2⟩ := reverseRangeGo_frame l1 a b (by omega)
      exact ⟨reverseRangeGo_perm l1 a b (by omega) (by rw [h1.2.1]; exact hb), u1, u2⟩
    · exact ⟨List.Perm.refl l1, rfl, fun k _ => rfl⟩
  have hpred2 : 0 < a → ∀ t, a ≤ t → t < b → key (idx l2 (a - 1)) ≤ key (idx l2 t) := by
    intro h0
    have he : idx l2 (a - 1) = idx l1 (a - 1) := h2.2.2 (a - 1) (Or.inl (by omega))
    rw [he]
    have he2 : idx l1 (a - 1) = idx l (a - 1) := h1.2.2 (a - 1) (Or.inl (by omega))
    rw [he2]
    exact range_values_transfer (fun x => key (idx l (a - 1)) ≤ key x) l l2 a b
      (h2.1.trans h1.1) (by rw [h2.2.1, h1.2.1]) (fun k hk => by rw [h2.2.2 k hk, h1.2.2 k hk])
      (by omega) hb (fun t h4 h5 => hpred h0 t h4 h5)
  set pivot1 := if pv.2 = Hint.decreasing then (b - 1) - (pv.1 - a) else pv.1 with hpiv1
  have hpiv1b : a ≤ pivot1 ∧ pivot1 < b := by
    rw [hpiv1]
    split <;> omega
  set pis := if wb = true ∧ wp = true ∧
      (if pv.2 = Hint.decreasing then Hint.increasing else pv.2) = Hint.increasing then
      partialInsertionSortGo (keyLess key) a b l2
    else (l2, false) with hpis
  have h3 : pis.1.length = l2.length ∧ (∀ k, k < a ∨ b ≤ k → idx pis.1 k = idx l2 k) ∧
      (pis.2 = true → SortedRange key pis.1 a b) ∧ List.Perm pis.1 l2 := by
    rw [hpis]
    by_cases hcpis : wb = true ∧ wp = true ∧
        (if pv.2 = Hint.decreasing then Hint.increasing else pv.2) = Hint.increasing
    · rw [if_pos hcpis]
      obtain ⟨u1, u2, u3⟩ := partialInsertionSortGo_spec key a b l2 (by omega)
        (by rw [h2.2.1, h1.2.1]; exact hb) hpred2
      exact ⟨u1, u2, u3, partialInsertionSortGo_perm (keyLess key) a b l2 (by omega)
        (by rw [h2.2.1, h1.2.1]; exact hb)⟩
    · rw [if_neg hcpis]
      exact ⟨rfl, fun k _ => rfl, fun h => absurd h (by simp), List.Perm.refl l2⟩
  have hlen3 : pis.1.length = l.length := by rw [h3.1, h2.2.1, h1.2.1]
  have hfr3 : ∀ k, k < a ∨ b ≤ k → idx pis.1 k = idx l k := by
    intro k hk
    rw [h3.2.1 k hk, h2.2.2 k hk, h1.2.2 k hk]
  have hperm3 : List.Perm pis.1 l := (h3.2.2.2.trans h2.1).trans h1.1
  have hpred3 : 0 < a → ∀ t, a ≤ t → t < b →
      key (idx pis.1 (a - 1)) ≤ key (idx pis.1 t) := by
    intro h0
    have he : idx pis.1 (a - 1) = idx l (a - 1) := hfr3 (a - 1) (Or.inl (by omega))
    rw [he]
    exact range_values_transfer (fun x => key (idx l (a - 1)) ≤ key x) l pis.1 a b hperm3
      hlen3 hfr3 (by omega) hb (fun t h4 h5 => hpred h0 t h4 h5)
  by_cases hs : pis.2 = true
  · rw [if_pos hs]
    exact ⟨hlen3, hfr3, h3.2.2.1 hs⟩
  · rw [if_neg hs]
    obtain ⟨w1, w2, w3⟩ := pdqsortAfterPivot_sorted key rec N hrec hrecperm pis.1 a b
      (if wb = true then limit else limit - 1) pivot1 wb wp (by omega) hN
      (by rw [hlen3]; exact hb) hpiv1b hpred3
    refine ⟨by rw [w1, hlen3], ?_, w3⟩
    intro k hk
    rw [w2 k hk, hfr3 k hk]

theorem pdqsortGo_sorted :
    ∀ (fuel : Nat) (l : List α) (a b limit : Nat) (wb wp : Bool),
      b - a ≤ fuel → b ≤ l.length →
      (0 < a → ∀ t, a ≤ t → t < b → key (idx l (a - 1)) ≤ key (idx l t)) →
      (pdqsortGo (keyLess key) fuel l a b limit wb wp).length = l.length ∧
      (∀ k, k < a ∨ b ≤ k →
        idx (pdqsortGo (keyLess key) fuel l a b limit wb wp) k = idx l k) ∧
      SortedRange key (pdqsortGo (keyLess key) fuel l a b limit wb wp) a b := by
  intro fuel
  induction fuel with
  | zero =>
    intro l a b limit wb wp hf hb hpred
    exact ⟨rfl, fun k _ => rfl, sortedRange_of_le key l a b (by omega)⟩
  | succ fuel ih =>
    intro l a b limit wb wp hf hb hpred
    rw [pdqsortGo]
    by_cases h12 : b - a ≤ 12
    · rw [if_pos h12]
      rcases le_or_lt b a with hba | hba
      · rw [insertionSortGo_of_ge (keyLess key) a b l hba]
        exact ⟨rfl, fun k _ => rfl, sortedRange_of_le key l a b hba⟩
      · exact insertionSortGo_sorted key a b l (by omega) hb
    · rw [if_neg h12]
      by_cases hlim : limit = 0
      · rw [if_pos hlim]
        exact heapSortGo_sorted key a b l (by omega) hb
      · rw [if_neg hlim]
        exact pdqsortBody_sorted key (pdqsortGo (keyLess key) fuel) (b - a)
          (fun l' a' b' limit' wb' wp' hsz hb' hpred' =>
            ih l' a' b' limit' wb' wp' (by omega) hb' hpred')
          (fun l' a' b' limit' wb' wp' hb' =>
            pdqsortGo_perm (keyLess key) fuel l' a' b' limit' wb' wp' hb')
          l a b limit wb wp (by omega) (le_refl _) hb hpred

/-- `sort.Slice` with a key-based comparison returns a list that is
nondecreasing under the key — on every input, through every pdqsort path. -/
theorem sortSliceGo_sortedKey (l : List α) :
    SortedKey key (sortSliceGo (keyLess key) l) := by
  obtain ⟨h1, h2, h3⟩ := pdqsortGo_sorted key (l.length + 64) l 0 l.length
    (bitsLen l.length) true true (by omega) (le_refl _)
    (fun h0 => absurd h0 (lt_irrefl 0))
  refine sortedKey_of_sortedRange key _ ?_
  have he : sortSliceGo (keyLess key) l =
      pdqsortGo (keyLess key) (l.length + 64) l 0 l.length (bitsLen l.length) true true :=
    rfl
  rw [he, h1]
  exact h3

end PdqSorted

/-! ## Part 3: the SQS loader (`internal/aws` SQS client and `internal/ui/loaders.go`) -/

/-- `model.Queue`, restricted to the fields the loader logic reads (`URL`
drives compaction, `Name` drives sorting).  `default` mirrors Go's zero value
(empty strings), which is what a failed fetch leaves in its slice slot. -/
structure Queue where
  url : String
  name : String
deriving DecidableEq, Inhabited, Repr

/-- ASCII case of `strings.ToLower` (Go applies the full Unicode mapping;
on ASCII characters — all this code ever compares — the two agree). -/
def toLowerChar (c : Char) : Char :=
  if 65 ≤ c.toNat ∧ c.toNat ≤ 90 then Char.ofNat (c.toNat + 32) else c

/-- `strings.ToLower` on the modelled alphabet. -/
def goToLower (s : String) : String := String.mk (s.data.map toLowerChar)

/-- The sort key used by `ListQueues` / `fetchQueueAttributesBatch`:
`strings.ToLower(q.Name)`. -/
def qKey (q : Queue) : String := goToLower q.name

/-- Go `s < t` on strings: lexicographic comparison of the character
sequences (an executable transcription; below it is proved to agree with the
order on `String`). -/
def goCharsLt : List Char → List Char → Bool
  | [], [] => false
  | [], _ :: _ => true
  | _ :: _, [] => false
  | c :: cs, d :: ds =>
    if c < d then true
    else if d < c then false
    else goCharsLt cs ds

/-- The `sort.Slice` comparison closure:
`strings.ToLower(validQueues[i].Name) < strings.ToLower(validQueues[j].Name)`. -/
def lessQueue : Queue → Queue → Bool :=
  fun a b => goCharsLt (qKey a).data (qKey b).data

/-- Go `strings.Split(s, sep)` for a single-character separator, over the
character list of the string.  `Split` always returns at least one part. -/
def goSplit (sep : Char) : List Char → List (List Char)
  | [] => [[]]
  | c :: cs =>
    if c = sep then [] :: goSplit sep cs
    else
      match goSplit sep cs with
      | [] => [[c]]
      | p :: ps => (c :: p) :: ps

/-- `extractQueueNameFromURL` as defined in `internal/ui/loaders.go`:
split on `/`, return the last part when there is one, else the input. -/
def ui_extractQueueNameFromURL (url : String) : String :=
  let parts := goSplit '/' url.data
  if parts.length > 0 then String.mk (parts.getLastD []) else url

/-- `extractQueueNameFromURL` as defined in the AWS SQS client file
(textually the same code as the UI copy). -/
def aws_extractQueueNameFromURL (url : String) : String :=
  let parts := goSplit '/' url.data
  if parts.length > 0 then String.mk (parts.getLastD []) else url

/-- The claim's description of `extractQueueNameFromURL`: the substring after
the last `'/'`, the whole string when no `'/'` occurs. -/
def afterLastSlash (url : String) : String :=
  String.mk ((url.data.reverse.takeWhile (fun c => c ≠ '/')).reverse)

/-- Model of `Client.GetQueueAttributes`: the AWS call either fails (the
oracle `ok` answers `false`) or succeeds, in which case
`convertQueueAttributes(queueURL, attrs)` builds a queue whose `URL` field is
the requested URL and whose `Name` is `extractQueueNameFromURL(queueURL)`. -/
def getQueueAttributes (ok : String → Bool) (queueURL : String) : Option Queue :=
  if ok queueURL then
    some { url := queueURL, name := aws_extractQueueNameFromURL queueURL }
  else none

/-- `fetchQueueAttributesBatch`: the bounded fan-out stores each result at its
original index (failed fetches leave the zero-value `Queue` in their slot and
log one warning), slots with empty `URL` are compacted away, and the survivors
are sorted with `sort.Slice` by lowercased name.  The collection loop is
order-independent because results carry their index, so the embedding fills
the slice directly.  Returns the batch and the number of warnings logged. -/
def fetchQueueAttributesBatch (fetch : String → Option Queue)
    (queueURLs : List String) : List Queue × Nat :=
  let queues := queueURLs.map (fun url => (fetch url).getD default)
  let warnings := (queueURLs.filter (fun url => (fetch url).isNone)).length
  let validQueues := queues.filter (fun q => q.url ≠ "")
  (sortSliceGo lessQueue validQueues, warnings)

/-- URL collection loop of `Client.ListQueues`: drains the paginator,
aborting on the first page error. -/
def collectQueueURLs : List (Except String (List String)) → Except String (List String)
  | [] => Except.ok []
  | Except.error e :: _ => Except.error ("failed to list queues: " ++ e)
  | Except.ok urls :: rest =>
    match collectQueueURLs rest with
    | Except.error e => Except.error e
    | Except.ok acc => Except.ok (urls ++ acc)

/-- `Client.ListQueues`: collect all queue URLs (a page error aborts the whole
call), return `nil` when none exist, otherwise run the fan-out / compaction /
sort — the same code `fetchQueueAttributesBatch` contains, which the Go file
duplicates verbatim. -/
def listQueues (fetch : String → Option Queue)
    (pages : List (Except String (List String))) : Except String (List Queue × Nat) :=
  match collectQueueURLs pages with
  | Except.error e => Except.error e
  | Except.ok queueURLs =>
    if queueURLs.isEmpty then Except.ok ([], 0)
    else Except.ok (fetchQueueAttributesBatch fetch queueURLs)

/-- One recorded `onBatch` invocation: the delivered batch, the `hasMore`
flag, and the callback's return value. -/
structure Invocation (β : Type) where
  batch : β
  hasMore : Bool
  ret : Bool

/-- Result of a paged listing run: the returned error (`none` is Go's `nil`),
the callback invocations in order, the number of `NextPage` calls made, the
pages never fetched, and the callback's final state. -/
structure PagedRun (π β σ : Type) where
  err : Option String
  trace : List (Invocation β)
  fetched : Nat
  rest : List π
  final : σ

/-- `Client.ListQueuesPagedCallback`: pages of up to 25 URLs; a page-listing
error aborts the load with that error; empty pages are skipped without
invoking the callback; otherwise the page's batch is fetched
(`fetchQueueAttributesBatch`) and handed to the callback together with
`hasMore`; a `false` return breaks the loop; the function returns `nil`. -/
def listQueuesPagedCallback (fetch : String → Option Queue)
    (cb : σ → List Queue → Bool → Bool × σ) :
    List (Except String (List String)) → σ →
      PagedRun (Except String (List String)) (List Queue) σ
  | [], s => ⟨none, [], 0, [], s⟩
  | Except.error e :: rest, s =>
    ⟨some ("failed to list queues: " ++ e), [], 1, rest, s⟩
  | Except.ok urls :: rest, s =>
    if urls.isEmpty then
      let r := listQueuesPagedCallback fetch cb rest s
      { r with fetched := r.fetched + 1 }
    else
      let queues := (fetchQueueAttributesBatch fetch urls).1
      let hasMore := !rest.isEmpty
      let (ret, s') := cb s queues hasMore
      if ret then
        let r := listQueuesPagedCallback fetch cb rest s'
        { r with trace := ⟨queues, hasMore, true⟩ :: r.trace, fetched := r.fetched + 1 }
      else ⟨none, [⟨queues, hasMore, false⟩], 1, rest, s'⟩

/-- `model.Function`, restricted to the name (the loader logic reads nothing
else). -/
structure FunctionModel where
  name : String
deriving DecidableEq, Inhabited

/-- `Client.ListFunctionsPagedCallback`: like the queues version, but each
page already carries the function configurations (no per-item fetch) and
empty pages still invoke the callback. -/
def listFunctionsPagedCallback (cb : σ → List FunctionModel → Bool → Bool × σ) :
    List (Except String (List FunctionModel)) → σ →
      PagedRun (Except String (List FunctionModel)) (List FunctionModel) σ
  | [], s => ⟨none, [], 0, [], s⟩
  | Except.error e :: rest, s =>
    ⟨some ("failed to list Lambda functions: " ++ e), [], 1, rest, s⟩
  | Except.ok fns :: rest, s =>
    let hasMore := !rest.isEmpty
    let (ret, s') := cb s fns hasMore
    if ret then
      let r := listFunctionsPagedCallback cb rest s'
      { r with trace := ⟨fns, hasMore, true⟩ :: r.trace, fetched := r.fetched + 1 }
    else ⟨none, [⟨fns, hasMore, false⟩], 1, rest, s'⟩

/-- `model.Table`, restricted to the name. -/
structure TableModel where
  name : String
deriving DecidableEq, Inhabited

/-- Modelled from the spec: `ListTablesPagedCallback` — the DynamoDB client
file is not among the sources; §4.2's delivery loop fetches a page, invokes
`onBatch` with the page's items and `hasMore`, stops on a `false` return, and
aborts with the underlying error on a page-listing failure (the shape shared
by the two paged listings whose sources are present). -/
def listTablesPagedCallback (cb : σ → List TableModel → Bool → Bool × σ) :
    List (Except String (List TableModel)) → σ →
      PagedRun (Except String (List TableModel)) (List TableModel) σ
  | [], s => ⟨none, [], 0, [], s⟩
  | Except.error e :: rest, s => ⟨some e, [], 1, rest, s⟩
  | Except.ok ts :: rest, s =>
    let hasMore := !rest.isEmpty
    let (ret, s') := cb s ts hasMore
    if ret then
      let r := listTablesPagedCallback cb rest s'
      { r with trace := ⟨ts, hasMore, true⟩ :: r.trace, fetched := r.fetched + 1 }
    else ⟨none, [⟨ts, hasMore, false⟩], 1, rest, s'⟩

/-- A message on a loader's incremental result channel (`queuesLoadedMsg`,
`functionsLoadedMsg`, `tablesLoadedMsg` all share this shape). -/
structure LoadedMsg (β : Type) where
  batch : β
  err : Option String
  hasMore : Bool
  isAppend : Bool

/-- The callback closure the UI loaders pass to the paged listings
(`loadQueues`, `loadFunctions`, `loadTables` are verbatim copies of each
other): carry (`isFirst`, messages sent so far); each invocation sends a
message with `isAppend = !isFirst`, clears `isFirst`, and returns `true`. -/
def loaderCallback {β : Type} :
    (Bool × List (LoadedMsg β)) → β → Bool → Bool × (Bool × List (LoadedMsg β)) :=
  fun st batch hasMore =>
    (true, (false, st.2 ++ [⟨batch, none, hasMore, !st.1⟩]))

/-- The final message a loader goroutine sends when the paged listing
returned an error: an empty batch carrying the error (and no message at all
on a `nil` return). -/
def errTailOf {γ : Type} : Option String → List (LoadedMsg (List γ))
  | some e => [⟨[], some e, false, false⟩]
  | none => []

/-- The message stream on `loadQueues`' result channel (lazy, non-stack path):
the per-batch messages sent by the callback, then a final error message when
the paged listing failed. -/
def loadQueuesStream (fetch : String → Option Queue)
    (pages : List (Except String (List String))) : List (LoadedMsg (List Queue)) :=
  let r := listQueuesPagedCallback fetch loaderCallback pages (true, [])
  r.final.2 ++ errTailOf r.err

/-- The message stream on `loadFunctions`' result channel (lazy path). -/
def loadFunctionsStream (pages : List (Except String (List FunctionModel))) :
    List (LoadedMsg (List FunctionModel)) :=
  let r := listFunctionsPagedCallback loaderCallback pages (true, [])
  r.final.2 ++ errTailOf r.err

/-- The message stream on `loadTables`' result channel. -/
def loadTablesStream (pages : List (Except String (List TableModel))) :
    List (LoadedMsg (List TableModel)) :=
  let r := listTablesPagedCallback loaderCallback pages (true, [])
  r.final.2 ++ errTailOf r.err

/-! ## Part 4: the concurrency cap of the fan-out (`maxConcurrentSQSCalls`) -/

/-- `const maxConcurrentSQSCalls = 10` — the buffer size of the semaphore
channel `sem := make(chan struct{}, maxConcurrentSQSCalls)`. -/
def maxConcurrentSQSCalls : Nat := 10

/-- Phase of one spawned detail-fetch goroutine of the SQS fan-out: before
`sem <- struct{}{}`; holding a semaphore slot (its `GetQueueAttributes` call
is in flight); after the deferred `<-sem`. -/
inductive FetchPhase where
  | beforeAcquire
  | inFlight
  | done
deriving DecidableEq, BEq

/-- Number of goroutines currently holding a semaphore slot — equivalently,
the in-flight `GetQueueAttributes` calls. -/
def inFlightCount (ps : List FetchPhase) : Nat := ps.count FetchPhase.inFlight

/-- Interleaving semantics of the fan-out: a send on the buffered channel
`sem` succeeds only while fewer than `cap` slots are held; the deferred
receive frees the slot when the goroutine's fetch completes.  Any goroutine
may move at any time. -/
inductive FanoutStep (cap : Nat) : List FetchPhase → List FetchPhase → Prop
  | acquire (pre post : List FetchPhase) :
      inFlightCount (pre ++ FetchPhase.beforeAcquire :: post) < cap →
      FanoutStep cap (pre ++ FetchPhase.beforeAcquire :: post)
        (pre ++ FetchPhase.inFlight :: post)
  | release (pre post : List FetchPhase) :
      FanoutStep cap (pre ++ FetchPhase.inFlight :: post)
        (pre ++ FetchPhase.done :: post)

/-- `fetchQueueAttributesBatch` spawns one goroutine per URL; all start before
the semaphore. -/
def fanoutInit (n : Nat) : List FetchPhase := List.replicate n FetchPhase.beforeAcquire

/-- States reachable during the fan-out over `n` items under cap `cap`. -/
def FanoutReachable (cap n : Nat) (s : List FetchPhase) : Prop :=
  Relation.ReflTransGen (FanoutStep cap) (fanoutInit n) s

/-! ## Part 5: the tunnel commands (`internal/ui/tunnels.go`) -/

/-- A REST or HTTP API Gateway reference (`api interface{}` holds
`*model.RestAPI` or `*model.HttpAPI`). -/
inductive APIRef where
  | restAPI (id name endpointType : String)
  | httpAPI (id name : String)
deriving DecidableEq, Inhabited

/-- `model.APIStage`, restricted to the name. -/
structure APIStage where
  name : String
deriving DecidableEq, Inhabited

/-- The UI views the tunnel-start flow switches between. -/
inductive View where
  | apiStages
  | jumpHostSelect
  | other
deriving DecidableEq, Inhabited

/-- The slice of the UI model/state that `startAPIGatewayTunnel` and
`startPrivateAPIGWTunnelWithJumpHost` read and mutate (`Option` models the
Go pointer fields; `ClearPendingTunnel`/`ClearEC2Instances` of the state
package reset them to their zero values). -/
structure TunnelUIState where
  pendingTunnelAPI : Option APIRef := none
  pendingTunnelStage : Option APIStage := none
  pendingTunnelLocalPort : Int := 0
  view : View := View.apiStages
  ec2InstancesLoading : Bool := false
deriving DecidableEq, Inhabited

/-- The synchronous outcome of `startAPIGatewayTunnel`: either the jump-host
selection flow is entered (`loadEC2Instances` command), or the public proxy
path is taken directly. -/
inductive TunnelCmd where
  | loadEC2Instances
  | publicProxy (api : APIRef) (stage : APIStage) (localPort : Int)
deriving DecidableEq

/-- The private check of `startAPIGatewayTunnel`:
`isPrivate := false; if restAPI, ok := api.(*model.RestAPI); ok
{ isPrivate = restAPI.EndpointType == "PRIVATE" }` — an HTTP API never
satisfies the type assertion, so only a REST API can be private. -/
def isPrivateAPI : APIRef → Bool
  | APIRef.restAPI _ _ endpointType => endpointType == "PRIVATE"
  | APIRef.httpAPI _ _ => false

/-- `startAPIGatewayTunnel`: a private target stores the pending tunnel
request, switches to the jump-host-selection view and loads EC2 instances;
every other target goes directly to the public proxy
(`startPublicAPIGWTunnel`). -/
def startAPIGatewayTunnel (st : TunnelUIState) (api : APIRef) (stage : APIStage)
    (localPort : Int) : TunnelUIState × TunnelCmd :=
  if isPrivateAPI api then
    ({ st with
        pendingTunnelAPI := some api
        pendingTunnelStage := some stage
        pendingTunnelLocalPort := localPort
        view := View.jumpHostSelect
        ec2InstancesLoading := true }, TunnelCmd.loadEC2Instances)
  else (st, TunnelCmd.publicProxy api stage localPort)

/-- Errors surfaced by the AWS client / tunnel managers. -/
inductive AWSErr where
  | deadlineExceeded
  | wrapped (msg : String) (cause : AWSErr)
  | base (msg : String)
deriving DecidableEq

/-- `model.EC2Instance`, restricted to the fields the tunnel flow reads. -/
structure EC2Instance where
  name : String
  vpcID : String
deriving DecidableEq, Inhabited

/-- `model.VpcEndpoint`, restricted to its identity. -/
structure VpcEndpoint where
  id : String
deriving DecidableEq, Inhabited

/-- An asynchronous `tea.Cmd` returned by a tunnel function: the
`context.WithTimeout` deadline (in seconds) it creates, and the message its
closure delivers. -/
structure AsyncCmd (μ : Type) where
  timeoutSeconds : Nat
  msg : μ

/-- `context.WithTimeout` semantics: an operation still running after the
deadline observes cancellation, so the call under the context fails with
`context.DeadlineExceeded`.  `elapsed` is how long the wrapped operation
would need. -/
def ctxTimedOut (c : AsyncCmd μ) (elapsed : Nat) : Bool :=
  decide (c.timeoutSeconds < elapsed)

/-- `tunnelStartedMsg` / `apiGWTunnelStartedMsg` shape. -/
structure TunnelStartedMsg (τ : Type) where
  tunnel : Option τ
  err : Option AWSErr
deriving DecidableEq

/-- An ECS port-forwarding tunnel (opaque here). -/
structure ECSTunnel where
  id : String
deriving DecidableEq, Inhabited

/-- An API Gateway tunnel (opaque here). -/
structure APIGWTunnel where
  id : String
deriving DecidableEq, Inhabited

/-- `startTunnelWithPort`: 30-second context around
`tunnelManager.StartTunnel(ctx, service, task, container, remotePort,
localPort)`; the oracle receives the context deadline and the arguments. -/
def startTunnelWithPort
    (startTunnel : Nat → String → String → String → Int → Int → Except AWSErr ECSTunnel)
    (service task container : String) (remotePort localPort : Int) :
    AsyncCmd (TunnelStartedMsg ECSTunnel) :=
  ⟨30,
    match startTunnel 30 service task container remotePort localPort with
    | Except.ok t => ⟨some t, none⟩
    | Except.error e => ⟨none, some e⟩⟩

/-- The per-profile configuration lookups `tunnels.go` performs
(`cfg.GetJumpHost`, `cfg.GetJumpHostTag`, `cfg.Defaults.JumpHostTags`,
`cfg.Defaults.JumpHostNames`, `cfg.GetVPCEndpointID`). -/
structure VawsConfig where
  jumpHost : String → String
  jumpHostTag : String → String
  defaultJumpHostTags : List String
  defaultJumpHostNames : List String
  vpcEndpointID : String → String

/-- The hardcoded default tag set of `findJumpHostForAPIGateway`. -/
def defaultTags : List String := ["vaws:jump-host=true", "Name=bastion", "Name=jump-host"]

/-- The hardcoded default name set of `findJumpHostForAPIGateway`. -/
def defaultNames : List String := ["bastion", "jump-host", "jumphost"]

/-- `jumpHostFoundMsg`: zero values model Go's unset fields. -/
structure JumpHostFoundMsg where
  jumpHost : Option EC2Instance := none
  vpcEndpoint : Option VpcEndpoint := none
  vpcEndpointErr : Option AWSErr := none
  stage : Option APIStage := none
  api : Option APIRef := none
  localPort : Int := 0
  err : Option AWSErr := none
deriving DecidableEq

/-- `findJumpHostForAPIGateway`: a 60-second context; config lookups for the
current profile with the hardcoded defaults unless overridden; a
`FindJumpHost` failure fails the message (wrapped error); on success the
jump host gets a best-effort `FindAPIGatewayVpcEndpoint` lookup (skipped
when it has no VPC ID) whose error is carried only as informational data
(`vpcEndpointErr`), never in `err`. -/
def findJumpHostForAPIGateway
    (cfg : Option VawsConfig) (profile : String)
    (findJumpHost : String → String → String → List String → List String →
      Except AWSErr EC2Instance)
    (findVpcEndpoint : String → Except AWSErr VpcEndpoint)
    (api : APIRef) (stage : APIStage) (localPort : Int) :
    AsyncCmd JumpHostFoundMsg :=
  ⟨60,
    let jumpHostConfig := match cfg with
      | some c => c.jumpHost profile
      | none => ""
    let jumpHostTagConfig := match cfg with
      | some c => c.jumpHostTag profile
      | none => ""
    let dTags := match cfg with
      | some c => if 0 < c.defaultJumpHostTags.length then c.defaultJumpHostTags else defaultTags
      | none => defaultTags
    let dNames := match cfg with
      | some c => if 0 < c.defaultJumpHostNames.length then c.defaultJumpHostNames
          else defaultNames
      | none => defaultNames
    match findJumpHost "" jumpHostConfig jumpHostTagConfig dTags dNames with
    | Except.error e => { err := some (AWSErr.wrapped "failed to find jump host" e) }
    | Except.ok jumpHost =>
      let vpcePair :=
        if jumpHost.vpcID ≠ "" then
          match findVpcEndpoint jumpHost.vpcID with
          | Except.ok v => ((some v : Option VpcEndpoint), (none : Option AWSErr))
          | Except.error e => ((none : Option VpcEndpoint), (some e : Option AWSErr))
        else (none, none)
      { jumpHost := some jumpHost
        vpcEndpoint := vpcePair.1
        vpcEndpointErr := vpcePair.2
        stage := some stage
        api := some api
        localPort := localPort }⟩

/-- `startPrivateAPIGWTunnel`: reads the configured VPC endpoint ID for the
profile, then a 30-second context around `apiGWManager.StartPrivateTunnel`. -/
def startPrivateAPIGWTunnel
    (cfg : Option VawsConfig) (profile : String)
    (startPrivateTunnel : Nat → Option APIRef → APIStage → EC2Instance →
      Option VpcEndpoint → String → Int → Except AWSErr APIGWTunnel)
    (api : Option APIRef) (stage : APIStage) (jumpHost : EC2Instance)
    (vpcEndpoint : Option VpcEndpoint) (localPort : Int) :
    AsyncCmd (TunnelStartedMsg APIGWTunnel) :=
  let configuredVPCEndpointID := match cfg with
    | some c => c.vpcEndpointID profile
    | none => ""
  ⟨30,
    match startPrivateTunnel 30 api stage jumpHost vpcEndpoint configuredVPCEndpointID
        localPort with
    | Except.ok t => ⟨some t, none⟩
    | Except.error e => ⟨none, some e⟩⟩

/-- `startPrivateAPIGWTunnelWithJumpHost`: reads the pending tunnel request,
clears the pending state and the EC2 list, returns to the stages view, and
starts a 60-second context in which it re-resolves the `execute-api` VPC
endpoint (error discarded) and calls `StartPrivateTunnel`. -/
def startPrivateAPIGWTunnelWithJumpHost
    (cfg : Option VawsConfig) (profile : String)
    (findVpcEndpoint : String → Except AWSErr VpcEndpoint)
    (startPrivateTunnel : Nat → Option APIRef → APIStage → EC2Instance →
      Option VpcEndpoint → String → Int → Except AWSErr APIGWTunnel)
    (st : TunnelUIState) (jumpHost : EC2Instance) :
    TunnelUIState × AsyncCmd (TunnelStartedMsg APIGWTunnel) :=
  let api := st.pendingTunnelAPI
  let stage := st.pendingTunnelStage
  let localPort := st.pendingTunnelLocalPort
  let st' := { st with
    pendingTunnelAPI := none
    pendingTunnelStage := none
    pendingTunnelLocalPort := 0
    view := View.apiStages
    ec2InstancesLoading := false }
  let configuredVPCEndpointID := match cfg with
    | some c => c.vpcEndpointID profile
    | none => ""
  (st',
    ⟨60,
      let vpcEndpoint :=
        if jumpHost.vpcID ≠ "" then (findVpcEndpoint jumpHost.vpcID).toOption else none
      match startPrivateTunnel 60 api (stage.getD default) jumpHost vpcEndpoint
          configuredVPCEndpointID localPort with
      | Except.ok t => ⟨some t, none⟩
      | Except.error e => ⟨none, some e⟩⟩)

/-! ## Part 6: the `RegionSelector` component -/

/-- A region entry (`Code`, `Name`). -/
structure Region where
  code : String
  name : String
deriving DecidableEq, Inhabited

/-- A geographic region group. -/
structure RegionGroup where
  name : String
  regions : List Region
deriving DecidableEq, Inhabited

/-- The built-in `AWSRegions` table. -/
def AWSRegions : List RegionGroup :=
  [⟨"US",
    [⟨"us-east-1", "N. Virginia"⟩, ⟨"us-east-2", "Ohio"⟩,
     ⟨"us-west-1", "N. California"⟩, ⟨"us-west-2", "Oregon"⟩]⟩,
   ⟨"Europe",
    [⟨"eu-west-1", "Ireland"⟩, ⟨"eu-west-2", "London"⟩, ⟨"eu-west-3", "Paris"⟩,
     ⟨"eu-central-1", "Frankfurt"⟩, ⟨"eu-north-1", "Stockholm"⟩]⟩,
   ⟨"Asia Pacific",
    [⟨"ap-southeast-1", "Singapore"⟩, ⟨"ap-southeast-2", "Sydney"⟩,
     ⟨"ap-northeast-1", "Tokyo"⟩, ⟨"ap-northeast-2", "Seoul"⟩,
     ⟨"ap-south-1", "Mumbai"⟩]⟩,
   ⟨"Other",
    [⟨"sa-east-1", "Sao Paulo"⟩, ⟨"ca-central-1", "Canada"⟩,
     ⟨"me-south-1", "Bahrain"⟩, ⟨"af-south-1", "Cape Town"⟩]⟩]

/-- `flattenRegions`: appends every group's regions in order. -/
def flattenRegions : List Region := (AWSRegions.map RegionGroup.regions).join

/-- The `RegionSelector` state; Go `int` fields are modelled as `Int`. -/
structure RegionSelector where
  width : Int
  height : Int
  cursor : Int
  offset : Int
  currentRegion : String
  flatRegions : List Region
deriving Inhabited

/-- `NewRegionSelector`: zero values plus the flattened region list. -/
def newRegionSelector : RegionSelector := ⟨0, 0, 0, 0, "", flattenRegions⟩

/-- `SetSize`. -/
def RegionSelector.setSize (r : RegionSelector) (width height : Int) : RegionSelector :=
  { r with width := width, height := height }

/-- `visibleCount`: `max(1, r.height-6)`. -/
def RegionSelector.visibleCount (r : RegionSelector) : Int := max 1 (r.height - 6)

/-- `clampOffset`: keeps the cursor inside the visible window and the offset
inside `[0, max(0, len-visible)]`. -/
def RegionSelector.clampOffset (r : RegionSelector) : RegionSelector :=
  let visible := r.visibleCount
  let off1 :=
    if r.cursor < r.offset then r.cursor
    else if r.offset + visible ≤ r.cursor then r.cursor - visible + 1
    else r.offset
  let maxOffset := max 0 ((r.flatRegions.length : Int) - visible)
  { r with offset := max 0 (min off1 maxOffset) }

/-- `Up`: move the cursor up and re-clamp. -/
def RegionSelector.up (r : RegionSelector) : RegionSelector :=
  if 0 < r.cursor then RegionSelector.clampOffset { r with cursor := r.cursor - 1 } else r

/-- `Down`: move the cursor down and re-clamp. -/
def RegionSelector.down (r : RegionSelector) : RegionSelector :=
  if r.cursor < (r.flatRegions.length : Int) - 1 then
    RegionSelector.clampOffset { r with cursor := r.cursor + 1 }
  else r

/-- `SetCurrentRegion`: record the active region and move the cursor to the
first entry with that code (then re-clamp); no match leaves the cursor. -/
def RegionSelector.setCurrentRegion (r : RegionSelector) (region : String) : RegionSelector :=
  let r1 := { r with currentRegion := region }
  match r1.flatRegions.findIdx? (fun reg => reg.code == region) with
  | some i => RegionSelector.clampOffset { r1 with cursor := (i : Int) }
  | none => r1

/-- The operations the claim quantifies over (fixed size: no `SetSize`). -/
inductive SelOp where
  | up
  | down
  | setCurrentRegion (region : String)

/-- Apply one operation. -/
def applySelOp (r : RegionSelector) : SelOp → RegionSelector
  | SelOp.up => r.up
  | SelOp.down => r.down
  | SelOp.setCurrentRegion region => r.setCurrentRegion region

/-- Apply a sequence of operations. -/
def applySelOps (r : RegionSelector) (ops : List SelOp) : RegionSelector :=
  ops.foldl applySelOp r

/-- The claimed invariant: the offset is nonnegative and at most the cursor,
the cursor is inside the region list, and the cursor lies inside the visible
window. -/
def SelInv (r : RegionSelector) : Prop :=
  0 ≤ r.offset ∧ r.offset ≤ r.cursor ∧ r.cursor < (r.flatRegions.length : Int) ∧
    r.cursor < r.offset + r.visibleCount ∧ r.flatRegions = flattenRegions

/-! ### Derived definitions the claims quote -/

/-- The compacted pre-sort slice of `fetchQueueAttributesBatch`: the fetch
results in arrival (index) order with the zero-value slots of failed fetches
removed — exactly the `validQueues` local of the Go function. -/
def validQueuesOf (fetch : String → Option Queue) (urls : List String) : List Queue :=
  (urls.map (fun url => (fetch url).getD default)).filter (fun q => q.url ≠ "")

/-- Thirteen queue URLs whose first two names collide case-insensitively;
13 items exceed `maxInsertion = 12`, so `sort.Slice` takes the pdqsort
partition path. -/
def ex13urls : List String :=
  ["u/f", "u/F", "u/a", "u/b", "u/c", "u/d", "u/e", "u/g", "u/h", "u/i", "u/j", "u/k"
   , "u/l"]

/-- The arrival-order valid queues of `ex13urls` (every fetch succeeding). -/
def ex13arrival : List Queue :=
  [⟨"u/f", "f"⟩, ⟨"u/F", "F"⟩, ⟨"u/a", "a"⟩, ⟨"u/b", "b"⟩, ⟨"u/c", "c"⟩, ⟨"u/d", "d"⟩,
   ⟨"u/e", "e"⟩, ⟨"u/g", "g"⟩, ⟨"u/h", "h"⟩, ⟨"u/i", "i"⟩, ⟨"u/j", "j"⟩, ⟨"u/k", "k"⟩,
   ⟨"u/l", "l"⟩]

/-- The batch `sort.Slice` delivers for `ex13urls`: sorted case-insensitively,
with "F" now preceding "f" — the reverse of their arrival order. -/
def ex13sorted : List Queue :=
  [⟨"u/a", "a"⟩, ⟨"u/b", "b"⟩, ⟨"u/c", "c"⟩, ⟨"u/d", "d"⟩, ⟨"u/e", "e"⟩, ⟨"u/F", "F"⟩,
   ⟨"u/f", "f"⟩, ⟨"u/g", "g"⟩, ⟨"u/h", "h"⟩, ⟨"u/i", "i"⟩, ⟨"u/j", "j"⟩, ⟨"u/k", "k"⟩,
   ⟨"u/l", "l"⟩]

/-- The `isAppend` flags the loader closure emits across `k` invocations
starting from the given `isFirst` state. -/
def appendFlags : Bool → Nat → List Bool
  | _, 0 => []
  | isFirst, k + 1 => (!isFirst) :: appendFlags false k

/-- The first-false-then-all-true shape of the delivered `isAppend` flags. -/
def FirstReplaceThenAppend (flags : List Bool) : Prop :=
  flags = [] ∨ flags = false :: List.replicate (flags.length - 1) true

/-! ## Part 7: supporting lemmas for the claims -/

/-! ### `strings.Split` semantics (claim C9) -/

theorem goSplit_ne_nil (sep : Char) : ∀ l : List Char, goSplit sep l ≠ [] := by
  intro l
  induction l with
  | nil => simp [goSplit]
  | cons c cs ih =>
    rw [goSplit]
    split
    · simp
    · split
      · simp
      · simp

theorem goSplit_length_pos (sep : Char) (l : List Char) : 0 < (goSplit sep l).length :=
  List.length_pos.2 (goSplit_ne_nil sep l)

theorem getLastD_irrel {t : List γ} (h : t ≠ []) (d1 d2 : γ) :
    t.getLastD d1 = t.getLastD d2 := by
  cases t with
  | nil => exact absurd rfl h
  | cons x xs => simp only [List.getLastD_cons]

theorem goSplit_of_not_mem (sep : Char) :
    ∀ l : List Char, sep ∉ l → goSplit sep l = [l] := by
  intro l
  induction l with
  | nil => intro _; rfl
  | cons c cs ih =>
    intro h
    rw [goSplit]
    rw [if_neg (by
      intro hc
      exact h (by simp [hc]))]
    rw [ih (by
      intro hmem
      exact h (by simp [hmem]))]

theorem goSplit_two_le (sep : Char) :
    ∀ l : List Char, sep ∈ l → 2 ≤ (goSplit sep l).length := by
  intro l
  induction l with
  | nil => intro h; simp at h
  | cons c cs ih =>
    intro h
    rw [goSplit]
    by_cases hc : c = sep
    · rw [if_pos hc]
      have := goSplit_length_pos sep cs
      simp only [List.length_cons]
      omega
    · rw [if_neg hc]
      have hcs : sep ∈ cs := by
        rcases List.mem_cons.1 h with h1 | h1
        · exact absurd h1.symm hc
        · exact h1
      have h2 := ih hcs
      rcases hsplit : goSplit sep cs with _ | ⟨p, ps⟩
      · exact absurd hsplit (goSplit_ne_nil sep cs)
      · rw [hsplit] at h2
        simp only [List.length_cons] at h2 ⊢
        omega

theorem goSplit_snoc_sep (sep : Char) :
    ∀ l : List Char, (goSplit sep (l ++ [sep])).getLastD [] = [] := by
  intro l
  induction l with
  | nil =>
    simp [goSplit]
  | cons d ds ih =>
    rw [List.cons_append, goSplit]
    by_cases hd : d = sep
    · rw [if_pos hd, List.getLastD_cons]
      rw [getLastD_irrel (goSplit_ne_nil sep (ds ++ [sep])) [] ([] : List Char)] at ih
      rwa [getLastD_irrel (goSplit_ne_nil sep (ds ++ [sep])) ([] : List Char) []]
    · rw [if_neg hd]
      rcases hsplit : goSplit sep (ds ++ [sep]) with _ | ⟨p, ps⟩
      · exact absurd hsplit (goSplit_ne_nil sep (ds ++ [sep]))
      · have h2 := goSplit_two_le sep (ds ++ [sep]) (by simp)
        rw [hsplit] at h2
        have hps : ps ≠ [] := by
          intro hnil
          rw [hnil] at h2
          simp at h2
        rw [hsplit] at ih
        rw [List.getLastD_cons] at ih ⊢
        rw [getLastD_irrel hps p (d :: p)] at ih
        exact ih

theorem goSplit_snoc_ne (sep c : Char) (hc : c ≠ sep) :
    ∀ l : List Char,
      (goSplit sep (l ++ [c])).getLastD [] = (goSplit sep l).getLastD [] ++ [c] := by
  intro l
  induction l with
  | nil =>
    show (goSplit sep [c]).getLastD [] = (goSplit sep []).getLastD [] ++ [c]
    simp only [goSplit]
    rw [if_neg hc]
    simp [List.getLastD_cons]
  | cons d ds ih =>
    show (goSplit sep (d :: (ds ++ [c]))).getLastD [] =
      (goSplit sep (d :: ds)).getLastD [] ++ [c]
    by_cases hd : d = sep
    · conv_lhs => rw [goSplit, if_pos hd]
      conv_rhs => rw [goSplit, if_pos hd]
      rw [List.getLastD_cons, List.getLastD_cons,
        getLastD_irrel (goSplit_ne_nil sep (ds ++ [c])) ([] : List Char) [],
        getLastD_irrel (goSplit_ne_nil sep ds) ([] : List Char) []]
      exact ih
    · by_cases hmem : sep ∈ ds
      · rcases hsplit : goSplit sep (ds ++ [c]) with _ | ⟨p, ps⟩
        · exact absurd hsplit (goSplit_ne_nil sep (ds ++ [c]))
        have h2 := goSplit_two_le sep (ds ++ [c]) (by simp [hmem])
        rw [hsplit] at h2
        have hps : ps ≠ [] := by
          intro hnil
          rw [hnil] at h2
          simp at h2
        rcases hsplit2 : goSplit sep ds with _ | ⟨q, qs⟩
        · exact absurd hsplit2 (goSplit_ne_nil sep ds)
        have h2b := goSplit_two_le sep ds hmem
        rw [hsplit2] at h2b
        have hqs : qs ≠ [] := by
          intro hnil
          rw [hnil] at h2b
          simp at h2b
        rw [hsplit, hsplit2, List.getLastD_cons, List.getLastD_cons] at ih
        conv_lhs => rw [goSplit, if_neg hd]
        conv_rhs => rw [goSplit, if_neg hd]
        simp only [hsplit, hsplit2, List.getLastD_cons]
        rw [getLastD_irrel hps (d :: p) p, getLastD_irrel hqs (d :: q) q]
        exact ih
      · have hds : goSplit sep ds = [ds] := goSplit_of_not_mem sep ds hmem
        have hdsc : goSplit sep (ds ++ [c]) = [ds ++ [c]] :=
          goSplit_of_not_mem sep (ds ++ [c]) (by
            intro hin
            rcases List.mem_append.1 hin with h1 | h1
            · exact hmem h1
            · rcases List.mem_singleton.1 h1 with rfl
              exact hc rfl)
        conv_lhs => rw [goSplit, if_neg hd]
        conv_rhs => rw [goSplit, if_neg hd]
        simp only [hdsc, hds]
        simp

theorem goSplit_getLastD_eq_afterLast (sep : Char) :
    ∀ l : List Char,
      (goSplit sep l).getLastD [] = (l.reverse.takeWhile (fun c => c ≠ sep)).reverse := by
  intro l
  induction l using List.reverseRecOn with
  | nil => simp [goSplit]
  | append_singleton l c ih =>
    by_cases hc : c = sep
    · subst hc
      rw [goSplit_snoc_sep]
      rw [List.reverse_append]
      simp [List.takeWhile]
    · rw [goSplit_snoc_ne sep c hc l, ih]
      rw [List.reverse_append]
      simp only [List.reverse_singleton, List.singleton_append, List.takeWhile_cons]
      rw [if_pos (by simp [hc])]
      simp

/-! ### `RegionSelector` invariant lemmas (claim C10) -/

theorem findIdx?_bounds {p : γ → Bool} :
    ∀ (l : List γ) (s i : Nat), List.findIdx? p l s = some i → s ≤ i ∧ i < s + l.length := by
  intro l
  induction l with
  | nil =>
    intro s i h
    simp [List.findIdx?] at h
  | cons x xs ih =>
    intro s i h
    rw [List.findIdx?] at h
    by_cases hp : p x
    · rw [if_pos hp] at h
      simp only [Option.some.injEq] at h
      simp only [List.length_cons]
      omega
    · rw [if_neg hp] at h
      have := ih (s + 1) i h
      simp only [List.length_cons]
      omega

theorem findIdx?_lt_length {p : γ → Bool} {l : List γ} {i : Nat}
    (h : l.findIdx? p = some i) : i < l.length := by
  have := findIdx?_bounds l 0 i h
  omega

theorem clampOffset_inv (r : RegionSelector) (h0 : 0 ≤ r.cursor)
    (h1 : r.cursor < (r.flatRegions.length : Int)) (h2 : 0 ≤ r.offset)
    (hfr : r.flatRegions = flattenRegions) : SelInv r.clampOffset := by
  simp only [SelInv, RegionSelector.clampOffset, RegionSelector.visibleCount]
  simp only [max_def, min_def]
  constructor
  · split_ifs <;> omega
  constructor
  · split_ifs <;> omega
  constructor
  · exact h1
  constructor
  · split_ifs <;> omega
  · exact hfr

theorem selOp_inv (r : RegionSelector) (op : SelOp) (h : SelInv r) :
    SelInv (applySelOp r op) := by
  obtain ⟨h0, h1, h2, h3, hfr⟩ := h
  cases op with
  | up =>
    simp only [applySelOp, RegionSelector.up]
    split
    · rename_i hc
      refine clampOffset_inv _ ?_ ?_ ?_ ?_
      · show (0 : Int) ≤ r.cursor - 1
        omega
      · show r.cursor - 1 < (r.flatRegions.length : Int)
        omega
      · show (0 : Int) ≤ r.offset
        omega
      · show r.flatRegions = flattenRegions
        exact hfr
    · exact ⟨h0, h1, h2, h3, hfr⟩
  | down =>
    simp only [applySelOp, RegionSelector.down]
    split
    · rename_i hc
      refine clampOffset_inv _ ?_ ?_ ?_ ?_
      · show (0 : Int) ≤ r.cursor + 1
        omega
      · show r.cursor + 1 < (r.flatRegions.length : Int)
        omega
      · show (0 : Int) ≤ r.offset
        omega
      · show r.flatRegions = flattenRegions
        exact hfr
    · exact ⟨h0, h1, h2, h3, hfr⟩
  | setCurrentRegion region =>
    rcases hidx : r.flatRegions.findIdx? (fun reg => reg.code == region) with _ | i
    · simp only [applySelOp, RegionSelector.setCurrentRegion, hidx]
      exact ⟨h0, h1, h2, h3, hfr⟩
    · have hlt : i < r.flatRegions.length := findIdx?_lt_length hidx
      simp only [applySelOp, RegionSelector.setCurrentRegion, hidx]
      refine clampOffset_inv _ ?_ ?_ ?_ ?_
      · show (0 : Int) ≤ (i : Int)
        exact Int.natCast_nonneg i
      · show (i : Int) < (r.flatRegions.length : Int)
        exact_mod_cast hlt
      · show (0 : Int) ≤ r.offset
        omega
      · show r.flatRegions = flattenRegions
        exact hfr

theorem selInv_init (w h : Int) : SelInv (newRegionSelector.setSize w h) := by
  refine ⟨le_refl 0, le_refl 0, ?_, ?_, rfl⟩
  · show (0 : Int) < (flattenRegions.length : Int)
    decide
  · show (0 : Int) < 0 + max 1 (h - 6)
    have : (1 : Int) ≤ max 1 (h - 6) := le_max_left 1 (h - 6)
    omega

/-! ### Concurrency-cap invariant (claim C3) -/

theorem fanoutStep_inv {cap : Nat} {s s' : List FetchPhase}
    (hstep : FanoutStep cap s s') (hs : inFlightCount s ≤ cap) :
    inFlightCount s' ≤ cap := by
  have e1 : (FetchPhase.beforeAcquire == FetchPhase.inFlight) = false := rfl
  have e2 : (FetchPhase.inFlight == FetchPhase.inFlight) = true := rfl
  have e3 : (FetchPhase.done == FetchPhase.inFlight) = false := rfl
  cases hstep with
  | acquire pre post hlt =>
    simp [inFlightCount, List.count_append, List.count_cons, e1, e2] at hlt ⊢
    omega
  | release pre post =>
    simp [inFlightCount, List.count_append, List.count_cons, e2, e3] at hs ⊢
    omega

theorem fanoutReachable_inv (cap n : Nat) (s : List FetchPhase)
    (h : FanoutReachable cap n s) : inFlightCount s ≤ cap := by
  induction h with
  | refl =>
    have hz : ∀ m : Nat,
        List.count FetchPhase.inFlight (List.replicate m FetchPhase.beforeAcquire) = 0 := by
      intro m
      induction m with
      | zero => rfl
      | succ k ih =>
        simp [List.replicate, List.count_cons, ih,
          show (FetchPhase.beforeAcquire == FetchPhase.inFlight) = false from rfl]
    simp [inFlightCount, fanoutInit, hz]
  | tail hr hstep ih =>
    exact fanoutStep_inv hstep ih

/-! ### Paged-callback stop discipline (claim C4) -/

theorem listQueuesPaged_props (fetch : String → Option Queue) {σ : Type}
    (cb : σ → List Queue → Bool → Bool × σ) :
    ∀ (pages : List (Except String (List String))) (s : σ),
      (∀ inv ∈ (listQueuesPagedCallback fetch cb pages s).trace.dropLast, inv.ret = true) ∧
      ((∃ inv ∈ (listQueuesPagedCallback fetch cb pages s).trace, inv.ret = false) →
        (listQueuesPagedCallback fetch cb pages s).err = none) ∧
      (listQueuesPagedCallback fetch cb pages s).fetched +
        (listQueuesPagedCallback fetch cb pages s).rest.length = pages.length := by
  intro pages
  induction pages with
  | nil =>
    intro s
    refine ⟨?_, ?_, ?_⟩ <;> simp [listQueuesPagedCallback]
  | cons page rest ih =>
    intro s
    cases page with
    | error e =>
      refine ⟨?_, ?_, ?_⟩ <;> simp [listQueuesPagedCallback] <;> omega
    | ok urls =>
      by_cases hemp : urls.isEmpty
      · have h1 := ih s
        simp only [listQueuesPagedCallback, hemp, if_true]
        refine ⟨h1.1, h1.2.1, ?_⟩
        simp only [List.length_cons]
        omega
      · rcases hcb : cb s ((fetchQueueAttributesBatch fetch urls).1) (!rest.isEmpty)
          with ⟨ret, s'⟩
        cases ret with
        | true =>
          have h1 := ih s'
          simp only [listQueuesPagedCallback, hemp, if_false, Bool.false_eq_true, hcb,
            if_true]
          refine ⟨?_, ?_, ?_⟩
          · intro inv hinv
            rcases ht : (listQueuesPagedCallback fetch cb rest s').trace with _ | ⟨x, t⟩
            · rw [ht] at hinv
              simp at hinv
            · rw [ht] at hinv
              rw [List.dropLast_cons₂] at hinv
              rcases List.mem_cons.1 hinv with rfl | hmem
              · rfl
              · have := h1.1
                rw [ht] at this
                exact this inv hmem
          · intro ⟨inv, hinv, hret⟩
            rcases List.mem_cons.1 hinv with rfl | hmem
            · simp at hret
            · exact h1.2.1 ⟨inv, hmem, hret⟩
          · simp only [List.length_cons]
            omega
        | false =>
          simp only [listQueuesPagedCallback, hemp, if_false, Bool.false_eq_true, hcb]
          refine ⟨?_, ?_, ?_⟩
          · intro inv hinv
            simp at hinv
          · intro _
            trivial
          · simp
            omega

theorem listFunctionsPaged_props {σ : Type}
    (cb : σ → List FunctionModel → Bool → Bool × σ) :
    ∀ (pages : List (Except String (List FunctionModel))) (s : σ),
      (∀ inv ∈ (listFunctionsPagedCallback cb pages s).trace.dropLast, inv.ret = true) ∧
      ((∃ inv ∈ (listFunctionsPagedCallback cb pages s).trace, inv.ret = false) →
        (listFunctionsPagedCallback cb pages s).err = none) ∧
      (listFunctionsPagedCallback cb pages s).fetched +
        (listFunctionsPagedCallback cb pages s).rest.length = pages.length := by
  intro pages
  induction pages with
  | nil =>
    intro s
    refine ⟨?_, ?_, ?_⟩ <;> simp [listFunctionsPagedCallback]
  | cons page rest ih =>
    intro s
    cases page with
    | error e =>
      refine ⟨?_, ?_, ?_⟩ <;> simp [listFunctionsPagedCallback] <;> omega
    | ok fns =>
      rcases hcb : cb s fns (!rest.isEmpty) with ⟨ret, s'⟩
      cases ret with
      | true =>
        have h1 := ih s'
        simp only [listFunctionsPagedCallback, hcb, if_true]
        refine ⟨?_, ?_, ?_⟩
        · intro inv hinv
          rcases ht : (listFunctionsPagedCallback cb rest s').trace with _ | ⟨x, t⟩
          · rw [ht] at hinv
            simp at hinv
          · rw [ht] at hinv
            rw [List.dropLast_cons₂] at hinv
            rcases List.mem_cons.1 hinv with rfl | hmem
            · rfl
            · have := h1.1
              rw [ht] at this
              exact this inv hmem
        · intro ⟨inv, hinv, hret⟩
          rcases List.mem_cons.1 hinv with rfl | hmem
          · simp at hret
          · exact h1.2.1 ⟨inv, hmem, hret⟩
        · simp only [List.length_cons]
          omega
      | false =>
        simp only [listFunctionsPagedCallback, hcb]
        refine ⟨?_, ?_, ?_⟩
        · intro inv hinv
          simp at hinv
        · intro _
          trivial
        · simp
          omega

/-! ### Incremental-delivery flags (claim C5) -/

theorem appendFlags_false (k : Nat) : appendFlags false k = List.replicate k true := by
  induction k with
  | zero => rfl
  | succ n ih => simp [appendFlags, List.replicate, ih]

theorem loadQueues_run_msgs (fetch : String → Option Queue) :
    ∀ (pages : List (Except String (List String))) (b : Bool)
      (m : List (LoadedMsg (List Queue))),
      ∃ t : List (LoadedMsg (List Queue)),
        (listQueuesPagedCallback fetch loaderCallback pages (b, m)).final.2 = m ++ t ∧
        t.map (fun msg => msg.isAppend) = appendFlags b t.length ∧
        (∀ msg ∈ t, msg.err = none) := by
  intro pages
  induction pages with
  | nil =>
    intro b m
    exact ⟨[], by simp [listQueuesPagedCallback], rfl, by simp⟩
  | cons page rest ih =>
    intro b m
    cases page with
    | error e =>
      exact ⟨[], by simp [listQueuesPagedCallback], rfl, by simp⟩
    | ok urls =>
      by_cases hemp : urls.isEmpty
      · rcases ih b m with ⟨t, h1, h2, h3⟩
        refine ⟨t, ?_, h2, h3⟩
        simpa [listQueuesPagedCallback, hemp] using h1
      · rcases ih false (m ++ [⟨(fetchQueueAttributesBatch fetch urls).1, none,
          !rest.isEmpty, !b⟩]) with ⟨t, h1, h2, h3⟩
        refine ⟨⟨(fetchQueueAttributesBatch fetch urls).1, none, !rest.isEmpty, !b⟩ :: t,
          ?_, ?_, ?_⟩
        · simp only [listQueuesPagedCallback, hemp, if_false, Bool.false_eq_true,
            loaderCallback]
          rw [if_pos trivial, h1]
          simp
        · simp only [List.map_cons, List.length_cons, appendFlags]
          rw [h2]
        · intro msg hmsg
          rcases List.mem_cons.1 hmsg with rfl | hmem
          · rfl
          · exact h3 msg hmem

theorem loadFunctions_run_msgs :
    ∀ (pages : List (Except String (List FunctionModel))) (b : Bool)
      (m : List (LoadedMsg (List FunctionModel))),
      ∃ t : List (LoadedMsg (List FunctionModel)),
        (listFunctionsPagedCallback loaderCallback pages (b, m)).final.2 = m ++ t ∧
        t.map (fun msg => msg.isAppend) = appendFlags b t.length ∧
        (∀ msg ∈ t, msg.err = none) := by
  intro pages
  induction pages with
  | nil =>
    intro b m
    exact ⟨[], by simp [listFunctionsPagedCallback], rfl, by simp⟩
  | cons page rest ih =>
    intro b m
    cases page with
    | error e =>
      exact ⟨[], by simp [listFunctionsPagedCallback], rfl, by simp⟩
    | ok fns =>
      rcases ih false (m ++ [⟨fns, none, !rest.isEmpty, !b⟩]) with ⟨t, h1, h2, h3⟩
      refine ⟨⟨fns, none, !rest.isEmpty, !b⟩ :: t, ?_, ?_, ?_⟩
      · simp only [listFunctionsPagedCallback, loaderCallback]
        rw [if_pos trivial, h1]
        simp
      · simp only [List.map_cons, List.length_cons, appendFlags]
        rw [h2]
      · intro msg hmsg
        rcases List.mem_cons.1 hmsg with rfl | hmem
        · rfl
        · exact h3 msg hmem

theorem loadTables_run_msgs :
    ∀ (pages : List (Except String (List TableModel))) (b : Bool)
      (m : List (LoadedMsg (List TableModel))),
      ∃ t : List (LoadedMsg (List TableModel)),
        (listTablesPagedCallback loaderCallback pages (b, m)).final.2 = m ++ t ∧
        t.map (fun msg => msg.isAppend) = appendFlags b t.length ∧
        (∀ msg ∈ t, msg.err = none) := by
  intro pages
  induction pages with
  | nil =>
    intro b m
    exact ⟨[], by simp [listTablesPagedCallback], rfl, by simp⟩
  | cons page rest ih =>
    intro b m
    cases page with
    | error e =>
      exact ⟨[], by simp [listTablesPagedCallback], rfl, by simp⟩
    | ok ts =>
      rcases ih false (m ++ [⟨ts, none, !rest.isEmpty, !b⟩]) with ⟨t, h1, h2, h3⟩
      refine ⟨⟨ts, none, !rest.isEmpty, !b⟩ :: t, ?_, ?_, ?_⟩
      · simp only [listTablesPagedCallback, loaderCallback]
        rw [if_pos trivial, h1]
        simp
      · simp only [List.map_cons, List.length_cons, appendFlags]
        rw [h2]
      · intro msg hmsg
        rcases List.mem_cons.1 hmsg with rfl | hmem
        · rfl
        · exact h3 msg hmem

theorem stream_flags_shape {β : Type} (stream : List (LoadedMsg β))
    (t : List (LoadedMsg β)) (errTail : List (LoadedMsg β))
    (hstream : stream = t ++ errTail)
    (hflags : t.map (fun msg => msg.isAppend) = appendFlags true t.length)
    (herr : ∀ msg ∈ t, msg.err = none)
    (htail : ∀ msg ∈ errTail, msg.err.isNone = false) :
    FirstReplaceThenAppend
      ((stream.filter (fun msg => msg.err.isNone)).map (fun msg => msg.isAppend)) := by
  have hfil : stream.filter (fun msg => msg.err.isNone) = t := by
    rw [hstream, List.filter_append]
    have h1 : t.filter (fun msg => msg.err.isNone) = t :=
      List.filter_eq_self.2 (by
        intro msg hmsg
        rw [herr msg hmsg]
        rfl)
    have h2 : errTail.filter (fun msg => msg.err.isNone) = [] :=
      List.filter_eq_nil_iff.2 (by
        intro msg hmsg
        rw [htail msg hmsg]
        simp)
    rw [h1, h2, List.append_nil]
  rw [hfil, hflags]
  cases ht : t with
  | nil => left; rfl
  | cons x xs =>
    right
    simp [appendFlags, appendFlags_false, List.length_cons]

/-! ### Pages never fetched after a stop are exactly the unprocessed suffix
(claim C4) -/

theorem listQueuesPaged_rest (fetch : String → Option Queue) {σ : Type}
    (cb : σ → List Queue → Bool → Bool × σ) :
    ∀ (pages : List (Except String (List String))) (s : σ),
      (listQueuesPagedCallback fetch cb pages s).rest =
        pages.drop (listQueuesPagedCallback fetch cb pages s).fetched := by
  intro pages
  induction pages with
  | nil => intro s; rfl
  | cons page rest ih =>
    intro s
    cases page with
    | error e => rfl
    | ok urls =>
      by_cases hemp : urls.isEmpty
      · simp only [listQueuesPagedCallback, hemp, if_true]
        rw [List.drop_succ_cons]
        exact ih s
      · rcases hcb : cb s ((fetchQueueAttributesBatch fetch urls).1) (!rest.isEmpty)
          with ⟨ret, s'⟩
        cases ret with
        | true =>
          simp only [listQueuesPagedCallback, hemp, if_false, Bool.false_eq_true, hcb,
            if_true]
          rw [List.drop_succ_cons]
          exact ih s'
        | false =>
          simp only [listQueuesPagedCallback, hemp, if_false, Bool.false_eq_true, hcb]
          rfl

theorem listFunctionsPaged_rest {σ : Type}
    (cb : σ → List FunctionModel → Bool → Bool × σ) :
    ∀ (pages : List (Except String (List FunctionModel))) (s : σ),
      (listFunctionsPagedCallback cb pages s).rest =
        pages.drop (listFunctionsPagedCallback cb pages s).fetched := by
  intro pages
  induction pages with
  | nil => intro s; rfl
  | cons page rest ih =>
    intro s
    cases page with
    | error e => rfl
    | ok fns =>
      rcases hcb : cb s fns (!rest.isEmpty) with ⟨ret, s'⟩
      cases ret with
      | true =>
        simp only [listFunctionsPagedCallback, hcb, if_true]
        rw [List.drop_succ_cons]
        exact ih s'
      | false =>
        simp only [listFunctionsPagedCallback, hcb]
        rfl

/-! ### Contents of the fan-out batch (claims C1 and C2) -/

theorem goCharsLt_iff : ∀ l₁ l₂ : List Char, goCharsLt l₁ l₂ = true ↔ l₁ < l₂ := by
  intro l₁
  induction l₁ with
  | nil =>
    intro l₂
    cases l₂ with
    | nil =>
      apply iff_of_false
      · simp [goCharsLt]
      · intro h
        cases h
    | cons d ds =>
      apply iff_of_true
      · rfl
      · exact List.Lex.nil
  | cons c cs ih =>
    intro l₂
    cases l₂ with
    | nil =>
      apply iff_of_false
      · simp [goCharsLt]
      · intro h
        cases h
    | cons d ds =>
      rcases lt_trichotomy c d with hcd | hcd | hcd
      · apply iff_of_true
        · simp [goCharsLt, hcd]
        · exact List.Lex.rel hcd
      · subst hcd
        have hni : ¬ c < c := lt_irrefl c
        have hred : goCharsLt (c :: cs) (c :: ds) = goCharsLt cs ds := by
          simp [goCharsLt, hni]
        rw [hred, ih ds]
        constructor
        · intro h
          exact List.Lex.cons h
        · intro h
          cases h with
          | cons h' => exact h'
          | rel h' => exact absurd h' hni
      · have hnc : ¬ c < d := lt_asymm hcd
        apply iff_of_false
        · simp [goCharsLt, hnc, hcd]
        · intro h
          cases h with
          | cons h' => exact absurd hcd (lt_irrefl _)
          | rel h' => exact absurd h' hnc

theorem lessQueue_eq_keyLess : lessQueue = keyLess qKey := by
  funext a b
  simp only [lessQueue, keyLess]
  rcases Bool.eq_false_or_eq_true (goCharsLt (qKey a).data (qKey b).data) with hgc | hgc <;>
    rw [hgc]
  · have hl : (qKey a).toList < (qKey b).toList := (goCharsLt_iff _ _).mp hgc
    have hp : qKey a < qKey b := String.lt_iff_toList_lt.mpr hl
    simp [hp]
  · have hnp : ¬ qKey a < qKey b := by
      intro h
      have hc : goCharsLt (qKey a).data (qKey b).data = true :=
        (goCharsLt_iff _ _).mpr (String.lt_iff_toList_lt.mp h)
      rw [hgc] at hc
      exact Bool.noConfusion hc
    simp [hnp]

theorem fetchBatch_eq (fetch : String → Option Queue) (urls : List String) :
    fetchQueueAttributesBatch fetch urls =
      (sortSliceGo lessQueue (validQueuesOf fetch urls),
        (urls.filter (fun url => (fetch url).isNone)).length) := rfl

theorem validQueuesOf_getQueueAttributes (ok : String → Bool) :
    ∀ urls : List String, (∀ u ∈ urls, u ≠ "") →
      validQueuesOf (getQueueAttributes ok) urls =
        (urls.filter ok).map (fun u => Queue.mk u (aws_extractQueueNameFromURL u)) := by
  intro urls
  induction urls with
  | nil => intro _; rfl
  | cons u us ih =>
    intro hne
    have hu : u ≠ "" := hne u (List.mem_cons_self u us)
    have hrest := ih (fun v hv => hne v (List.mem_cons_of_mem u hv))
    by_cases hok : ok u
    · simp only [validQueuesOf, List.map_cons, List.filter_cons, getQueueAttributes,
        hok, if_true, Option.getD_some] at hrest ⊢
      rw [if_pos (by simpa using hu)]
      simpa [hok] using congrArg (List.cons (Queue.mk u (aws_extractQueueNameFromURL u)))
        hrest
    · simp only [validQueuesOf, List.map_cons, List.filter_cons, getQueueAttributes,
        hok, if_false, Option.getD_none] at hrest ⊢
      rw [if_neg (by simp [default])]
      simpa [hok] using hrest

theorem warnings_getQueueAttributes (ok : String → Bool) (urls : List String) :
    (urls.filter (fun url => (getQueueAttributes ok url).isNone)).length =
      (urls.filter (fun url => !(ok url))).length := by
  induction urls with
  | nil => rfl
  | cons u us ih =>
    rw [List.filter_cons, List.filter_cons]
    by_cases h : ok u
    · have h1 : ((getQueueAttributes ok u).isNone) = false := by
        simp [getQueueAttributes, h]
      have h2 : (!ok u) = false := by simp [h]
      rw [h1, h2]
      simpa using ih
    · have h1 : ((getQueueAttributes ok u).isNone) = true := by
        simp [getQueueAttributes, h]
      have h2 : (!ok u) = true := by simp [h]
      rw [h1, h2]
      simpa using ih

theorem filter_length_partition (p : γ → Bool) (l : List γ) :
    (l.filter p).length + (l.filter (fun a => !(p a))).length = l.length := by
  induction l with
  | nil => rfl
  | cons x xs ih =>
    by_cases h : p x <;> simp [List.filter_cons, h] <;> omega

theorem filter_decide_congr {γ : Type} (key2 : γ → String) (k : String)
    (i1 : ∀ z : γ, Decidable (key2 z = k)) (i2 : ∀ z : γ, Decidable (key2 z = k))
    (l : List γ) :
    l.filter (fun z => @decide (key2 z = k) (i1 z)) =
      l.filter (fun z => @decide (key2 z = k) (i2 z)) := by
  refine List.filter_congr ?_
  intro a _
  exact decide_eq_decide.mpr Iff.rfl

theorem errTailOf_err {γ : Type} (e : Option String) :
    ∀ msg ∈ (errTailOf e : List (LoadedMsg (List γ))), msg.err.isNone = false := by
  cases e with
  | none =>
    intro msg h
    simp [errTailOf] at h
  | some s =>
    intro msg h
    simp only [errTailOf, List.mem_singleton] at h
    rw [h]
    rfl

/-! ### Executable mirror of the well-founded loops (claim C1's counterexample)

The loop definitions of Part 1 use well-founded recursion, which kernel
reduction cannot evaluate; the `F`-suffixed twins below recurse structurally
on explicit fuel and are proved equal to the originals whenever the fuel
dominates the loop bound (each composite below picks a fuel for which that
bound holds unconditionally), so a concrete run of `sort.Slice` can be
settled by `decide`. -/

def insertionSortInnerF (less : α → α → Bool) (a : Nat) : List α → Nat → List α
  | l, 0 => l
  | l, j + 1 =>
    if a < j + 1 ∧ less (idx l (j + 1)) (idx l (j + 1 - 1)) then
      insertionSortInnerF less a (swapL l (j + 1) (j + 1 - 1)) j
    else l

def insertionSortOuterF (less : α → α → Bool) (a b : Nat) : Nat → Nat → List α → List α
  | 0, _, l => l
  | fuel + 1, i, l =>
    if i < b then insertionSortOuterF less a b fuel (i + 1) (insertionSortInnerF less a l i)
    else l

def insertionSortGoF (less : α → α → Bool) (a b : Nat) (l : List α) : List α :=
  insertionSortOuterF less a b b (a + 1) l

def siftDownGoF (less : α → α → Bool) (hi first : Nat) : Nat → List α → Nat → List α
  | 0, l, _ => l
  | fuel + 1, l, root =>
    if 2 * root + 1 < hi then
      if 2 * root + 1 + 1 < hi ∧
          less (idx l (first + (2 * root + 1))) (idx l (first + (2 * root + 1) + 1)) then
        if less (idx l (first + root)) (idx l (first + (2 * root + 1 + 1))) then
          siftDownGoF less hi first fuel (swapL l (first + root) (first + (2 * root + 1 + 1)))
            (2 * root + 1 + 1)
        else l
      else
        if less (idx l (first + root)) (idx l (first + (2 * root + 1))) then
          siftDownGoF less hi first fuel (swapL l (first + root) (first + (2 * root + 1)))
            (2 * root + 1)
        else l
    else l

def heapSortBuildF (less : α → α → Bool) (hi first : Nat) : List α → Nat → List α
  | l, 0 => siftDownGoF less hi first hi l 0
  | l, i + 1 => heapSortBuildF less hi first (siftDownGoF less hi first hi l (i + 1)) i

def heapSortPopF (less : α → α → Bool) (first : Nat) : List α → Nat → List α
  | l, 0 => siftDownGoF less 0 first 0 (swapL l first first) 0
  | l, i + 1 =>
    heapSortPopF less first
      (siftDownGoF less (i + 1) first (i + 1) (swapL l first (first + (i + 1))) 0) i

def heapSortGoF (less : α → α → Bool) (a b : Nat) (l : List α) : List α :=
  let first := a
  let hi := b - a
  let l1 := heapSortBuildF less hi first l ((hi - 1) / 2)
  if hi = 0 then l1 else heapSortPopF less first l1 (hi - 1)

def reverseRangeLoopF : Nat → List α → Nat → Nat → List α
  | 0, l, _, _ => l
  | fuel + 1, l, i, j =>
    if i < j then reverseRangeLoopF fuel (swapL l i j) (i + 1) (j - 1) else l

def reverseRangeGoF (l : List α) (a b : Nat) : List α := reverseRangeLoopF b l a (b - 1)

def log2F : Nat → Nat → Nat
  | 0, _ => 0
  | fuel + 1, n => if n ≥ 2 then log2F fuel (n / 2) + 1 else 0

def bitsLenF (n : Nat) : Nat := if n = 0 then 0 else log2F n n + 1

def pisAdvanceF (less : α → α → Bool) (b : Nat) (l : List α) : Nat → Nat → Nat
  | 0, i => i
  | fuel + 1, i =>
    if i < b ∧ ¬ less (idx l i) (idx l (i - 1)) then pisAdvanceF less b l fuel (i + 1)
    else i

def pisShiftRightF (less : α → α → Bool) (b : Nat) : Nat → List α → Nat → List α
  | 0, l, _ => l
  | fuel + 1, l, j =>
    if j < b then
      if ¬ less (idx l j) (idx l (j - 1)) then l
      else pisShiftRightF less b fuel (swapL l j (j - 1)) (j + 1)
    else l

def partialInsertionSortLoopF (less : α → α → Bool) (a b : Nat) (l : List α) (i : Nat) :
    Nat → List α × Bool
  | 0 => (l, false)
  | steps + 1 =>
    let i1 := pisAdvanceF less b l b i
    if i1 = b then (l, true)
    else if b - a < 50 then (l, false)
    else
      let l1 := swapL l i1 (i1 - 1)
      let l2 := if 2 ≤ i1 - a then pisShiftLeft less l1 (i1 - 1) else l1
      let l3 := if 2 ≤ b - i1 then pisShiftRightF less b b l2 (i1 + 1) else l2
      partialInsertionSortLoopF less a b l3 i1 steps

def partialInsertionSortGoF (less : α → α → Bool) (a b : Nat) (l : List α) :
    List α × Bool :=
  partialInsertionSortLoopF less a b l (a + 1) 5

def partAdvanceIF (less : α → α → Bool) (l : List α) (a j : Nat) : Nat → Nat → Nat
  | 0, i => i
  | fuel + 1, i =>
    if i ≤ j ∧ less (idx l i) (idx l a) then partAdvanceIF less l a j fuel (i + 1) else i

def partitionLoopGoF (less : α → α → Bool) (a : Nat) :
    Nat → List α → Nat → Nat → List α × Nat
  | 0, l, _, j => (l, j)
  | fuel + 1, l, i, j =>
    let i1 := partAdvanceIF less l a j (j + 1) i
    let j1 := partAdvanceJ less l a i1 j
    if j1 < i1 then (l, j1)
    else partitionLoopGoF less a fuel (swapL l i1 j1) (i1 + 1) (j1 - 1)

def partitionGoF (less : α → α → Bool) (a b pivot : Nat) (l : List α) :
    List α × Nat × Bool :=
  let l0 := swapL l a pivot
  let i0 := a + 1
  let j0 := b - 1
  let i1 := partAdvanceIF less l0 a j0 (j0 + 1) i0
  let j1 := partAdvanceJ less l0 a i1 j0
  if j1 < i1 then (swapL l0 j1 a, j1, true)
  else
    let l1 := swapL l0 i1 j1
    let (l2, j2) := partitionLoopGoF less a b l1 (i1 + 1) (j1 - 1)
    (swapL l2 j2 a, j2, false)

def peqAdvanceIF (less : α → α → Bool) (l : List α) (a j : Nat) : Nat → Nat → Nat
  | 0, i => i
  | fuel + 1, i =>
    if i ≤ j ∧ ¬ less (idx l a) (idx l i) then peqAdvanceIF less l a j fuel (i + 1) else i

def partitionEqualLoopF (less : α → α → Bool) (a : Nat) :
    Nat → List α → Nat → Nat → List α × Nat
  | 0, l, i, _ => (l, i)
  | fuel + 1, l, i, j =>
    let i1 := peqAdvanceIF less l a j (j + 1) i
    let j1 := peqAdvanceJ less l a i1 j
    if j1 < i1 then (l, i1)
    else partitionEqualLoopF less a fuel (swapL l i1 j1) (i1 + 1) (j1 - 1)

def partitionEqualGoF (less : α → α → Bool) (a b pivot : Nat) (l : List α) :
    List α × Nat :=
  let l0 := swapL l a pivot
  partitionEqualLoopF less a (b + 1) l0 (a + 1) (b - 1)

def pdqsortAfterPivotF (less : α → α → Bool)
    (rec : List α → Nat → Nat → Nat → Bool → Bool → List α)
    (l3 : List α) (a b limit1 pivot1 : Nat) (wasBalanced wasPartitioned : Bool) : List α :=
  if 0 < a ∧ ¬ less (idx l3 (a - 1)) (idx l3 pivot1) then
    let pe := partitionEqualGoF less a b pivot1 l3
    rec pe.1 pe.2 b limit1 wasBalanced wasPartitioned
  else
    let pt := partitionGoF less a b pivot1 l3
    let leftLen := pt.2.1 - a
    let rightLen := b - pt.2.1
    let balanceThreshold := (b - a) / 8
    let nowBalanced := decide (balanceThreshold ≤ min leftLen rightLen)
    if leftLen < rightLen then
      let l5 := rec pt.1 a pt.2.1 limit1 true true
      rec l5 (pt.2.1 + 1) b limit1 nowBalanced pt.2.2
    else
      let l5 := rec pt.1 (pt.2.1 + 1) b limit1 true true
      rec l5 a pt.2.1 limit1 nowBalanced pt.2.2

def pdqsortBodyF (less : α → α → Bool)
    (rec : List α → Nat → Nat → Nat → Bool → Bool → List α)
    (l : List α) (a b limit : Nat) (wasBalanced wasPartitioned : Bool) : List α :=
  let l1 := if wasBalanced then l else breakPatternsGo l a b
  let limit1 := if wasBalanced then limit else limit - 1
  let pv := choosePivotGo less l1 a b
  let l2 := if pv.2 = Hint.decreasing then reverseRangeGoF l1 a b else l1
  let pivot1 := if pv.2 = Hint.decreasing then (b - 1) - (pv.1 - a) else pv.1
  let hint1 := if pv.2 = Hint.decreasing then Hint.increasing else pv.2
  let pis :=
    if wasBalanced ∧ wasPartitioned ∧ hint1 = Hint.increasing then
      partialInsertionSortGoF less a b l2
    else (l2, false)
  if pis.2 then pis.1
  else pdqsortAfterPivotF less rec pis.1 a b limit1 pivot1 wasBalanced wasPartitioned

def pdqsortGoF (less : α → α → Bool) :
    Nat → List α → Nat → Nat → Nat → Bool → Bool → List α
  | 0, l, _, _, _, _, _ => l
  | fuel + 1, l, a, b, limit, wasBalanced, wasPartitioned =>
    if b - a ≤ 12 then insertionSortGoF less a b l
    else if limit = 0 then heapSortGoF less a b l
    else pdqsortBodyF less (pdqsortGoF less fuel) l a b limit wasBalanced wasPartitioned

def sortSliceGoF (less : α → α → Bool) (l : List α) : List α :=
  pdqsortGoF less (l.length + 64) l 0 l.length (bitsLenF l.length) true true

theorem insertionSortInnerF_eq (less : α → α → Bool) (a : Nat) :
    ∀ (j : Nat) (l : List α), insertionSortInnerF less a l j = insertionSortInner less a l j := by
  intro j
  induction j with
  | zero =>
    intro l
    rw [insertionSortInner, dif_neg (by simp)]
    rfl
  | succ j ih =>
    intro l
    rw [insertionSortInnerF, insertionSortInner]
    by_cases h : a < j + 1 ∧ less (idx l (j + 1)) (idx l (j + 1 - 1)) = true
    · rw [if_pos h, dif_pos h]
      exact ih _
    · rw [if_neg h, dif_neg h]

theorem insertionSortOuterF_eq (less : α → α → Bool) (a b : Nat) :
    ∀ (fuel i : Nat) (l : List α), b ≤ fuel + i →
      insertionSortOuterF less a b fuel i l = insertionSortOuter less a b i l := by
  intro fuel
  induction fuel with
  | zero =>
    intro i l hb
    rw [insertionSortOuter, dif_neg (by omega)]
    rfl
  | succ fuel ih =>
    intro i l hb
    rw [insertionSortOuterF, insertionSortOuter]
    by_cases h : i < b
    · rw [if_pos h, dif_pos h, insertionSortInnerF_eq]
      exact ih (i + 1) _ (by omega)
    · rw [if_neg h, dif_neg h]

theorem insertionSortGoF_eq (less : α → α → Bool) (a b : Nat) (l : List α) :
    insertionSortGoF less a b l = insertionSortGo less a b l := by
  rw [insertionSortGoF, insertionSortGo]
  exact insertionSortOuterF_eq less a b b (a + 1) l (by omega)

theorem siftDownGoF_eq (less : α → α → Bool) (hi first : Nat) :
    ∀ (fuel : Nat) (l : List α) (root : Nat), hi ≤ fuel + root →
      siftDownGoF less hi first fuel l root = siftDownGo less hi first l root := by
  intro fuel
  induction fuel with
  | zero =>
    intro l root hb
    rw [siftDownGo, dif_neg (by omega)]
    rfl
  | succ fuel ih =>
    intro l root hb
    rw [siftDownGoF, siftDownGo]
    by_cases h : 2 * root + 1 < hi
    · rw [if_pos h, dif_pos h]
      by_cases h2 : 2 * root + 1 + 1 < hi ∧
          less (idx l (first + (2 * root + 1))) (idx l (first + (2 * root + 1) + 1)) = true
      · rw [if_pos h2, dif_pos h2]
        by_cases h3 : less (idx l (first + root)) (idx l (first + (2 * root + 1 + 1))) = true
        · rw [if_pos h3, if_pos h3]
          exact ih _ _ (by omega)
        · rw [if_neg h3, if_neg h3]
      · rw [if_neg h2, dif_neg h2]
        by_cases h3 : less (idx l (first + root)) (idx l (first + (2 * root + 1))) = true
        · rw [if_pos h3, if_pos h3]
          exact ih _ _ (by omega)
        · rw [if_neg h3, if_neg h3]
    · rw [if_neg h, dif_neg h]

theorem siftDownGoF_eq_full (less : α → α → Bool) (hi first : Nat) (l : List α)
    (root : Nat) :
    siftDownGoF less hi first hi l root = siftDownGo less hi first l root :=
  siftDownGoF_eq less hi first hi l root (by omega)

theorem heapSortBuildF_eq (less : α → α → Bool) (hi first : Nat) :
    ∀ (i : Nat) (l : List α),
      heapSortBuildF less hi first l i = heapSortBuild less hi first l i := by
  intro i
  induction i with
  | zero =>
    intro l
    rw [heapSortBuildF, heapSortBuild, siftDownGoF_eq_full]
  | succ i ih =>
    intro l
    rw [heapSortBuildF, heapSortBuild, siftDownGoF_eq_full]
    exact ih _

theorem heapSortPopF_eq (less : α → α → Bool) (first : Nat) :
    ∀ (i : Nat) (l : List α), heapSortPopF less first l i = heapSortPop less first l i := by
  intro i
  induction i with
  | zero =>
    intro l
    rw [heapSortPopF, heapSortPop, siftDownGoF_eq_full]
  | succ i ih =>
    intro l
    rw [heapSortPopF, heapSortPop, siftDownGoF_eq_full]
    exact ih _

theorem heapSortGoF_eq (less : α → α → Bool) (a b : Nat) (l : List α) :
    heapSortGoF less a b l = heapSortGo less a b l := by
  rw [heapSortGoF, heapSortGo]
  rw [heapSortBuildF_eq]
  by_cases h : b - a = 0
  · rw [if_pos h, if_pos h]
  · rw [if_neg h, if_neg h, heapSortPopF_eq]

theorem reverseRangeLoopF_eq :
    ∀ (fuel : Nat) (l : List α) (i j : Nat), j ≤ fuel + i →
      reverseRangeLoopF fuel l i j = reverseRangeLoop l i j := by
  intro fuel
  induction fuel with
  | zero =>
    intro l i j hb
    rw [reverseRangeLoop, dif_neg (by omega)]
    rfl
  | succ fuel ih =>
    intro l i j hb
    rw [reverseRangeLoopF, reverseRangeLoop]
    by_cases h : i < j
    · rw [if_pos h, dif_pos h]
      exact ih _ _ _ (by omega)
    · rw [if_neg h, dif_neg h]

theorem reverseRangeGoF_eq (l : List α) (a b : Nat) :
    reverseRangeGoF l a b = reverseRangeGo l a b := by
  rw [reverseRangeGoF, reverseRangeGo]
  exact reverseRangeLoopF_eq b l a (b - 1) (by omega)

theorem log2F_eq : ∀ (fuel n : Nat), n ≤ fuel → log2F fuel n = Nat.log2 n := by
  intro fuel
  induction fuel with
  | zero =>
    intro n hn
    rw [Nat.log2]
    rw [if_neg (by omega)]
    rfl
  | succ fuel ih =>
    intro n hn
    rw [log2F]
    conv_rhs => rw [Nat.log2]
    by_cases h : n ≥ 2
    · rw [if_pos h, if_pos h, ih (n / 2) (by omega)]
    · rw [if_neg h, if_neg h]

theorem bitsLenF_eq (n : Nat) : bitsLenF n = bitsLen n := by
  rw [bitsLenF, bitsLen]
  by_cases h : n = 0
  · rw [if_pos h, if_pos h]
  · rw [if_neg h, if_neg h, log2F_eq n n (by omega)]

theorem pisAdvanceF_eq (less : α → α → Bool) (b : Nat) (l : List α) :
    ∀ (fuel i : Nat), b ≤ fuel + i → pisAdvanceF less b l fuel i = pisAdvance less b l i := by
  intro fuel
  induction fuel with
  | zero =>
    intro i hb
    rw [pisAdvance, dif_neg (by omega)]
    rfl
  | succ fuel ih =>
    intro i hb
    rw [pisAdvanceF, pisAdvance]
    by_cases h : i < b ∧ ¬ less (idx l i) (idx l (i - 1)) = true
    · rw [if_pos h, dif_pos h]
      exact ih _ (by omega)
    · rw [if_neg h, dif_neg h]

theorem pisAdvanceF_eq_full (less : α → α → Bool) (b : Nat) (l : List α) (i : Nat) :
    pisAdvanceF less b l b i = pisAdvance less b l i :=
  pisAdvanceF_eq less b l b i (by omega)

theorem pisShiftRightF_eq (less : α → α → Bool) (b : Nat) :
    ∀ (fuel : Nat) (l : List α) (j : Nat), b ≤ fuel + j →
      pisShiftRightF less b fuel l j = pisShiftRight less b l j := by
  intro fuel
  induction fuel with
  | zero =>
    intro l j hb
    rw [pisShiftRight, dif_neg (by omega)]
    rfl
  | succ fuel ih =>
    intro l j hb
    rw [pisShiftRightF, pisShiftRight]
    by_cases h : j < b
    · rw [if_pos h, dif_pos h]
      by_cases h2 : ¬ less (idx l j) (idx l (j - 1)) = true
      · rw [if_pos h2, if_pos h2]
      · rw [if_neg h2, if_neg h2]
        exact ih _ _ (by omega)
    · rw [if_neg h, dif_neg h]

theorem pisShiftRightF_eq_full (less : α → α → Bool) (b : Nat) (l : List α) (j : Nat) :
    pisShiftRightF less b b l j = pisShiftRight less b l j :=
  pisShiftRightF_eq less b b l j (by omega)

theorem partialInsertionSortLoopF_eq (less : α → α → Bool) (a b : Nat) :
    ∀ (steps : Nat) (l : List α) (i : Nat),
      partialInsertionSortLoopF less a b l i steps =
        partialInsertionSortLoop less a b l i steps := by
  intro steps
  induction steps with
  | zero =>
    intro l i
    rfl
  | succ steps ih =>
    intro l i
    simp only [partialInsertionSortLoopF, partialInsertionSortLoop,
      pisAdvanceF_eq_full, pisShiftRightF_eq_full, ih]

theorem partialInsertionSortGoF_eq (less : α → α → Bool) (a b : Nat) (l : List α) :
    partialInsertionSortGoF less a b l = partialInsertionSortGo less a b l := by
  rw [partialInsertionSortGoF, partialInsertionSortGo, partialInsertionSortLoopF_eq]

theorem partAdvanceIF_eq (less : α → α → Bool) (l : List α) (a j : Nat) :
    ∀ (fuel i : Nat), j + 1 ≤ fuel + i →
      partAdvanceIF less l a j fuel i = partAdvanceI less l a j i := by
  intro fuel
  induction fuel with
  | zero =>
    intro i hb
    rw [partAdvanceI, dif_neg (by omega)]
    rfl
  | succ fuel ih =>
    intro i hb
    rw [partAdvanceIF, partAdvanceI]
    by_cases h : i ≤ j ∧ less (idx l i) (idx l a) = true
    · rw [if_pos h, dif_pos h]
      exact ih _ (by omega)
    · rw [if_neg h, dif_neg h]

theorem partAdvanceIF_eq_full (less : α → α → Bool) (l : List α) (a j i : Nat) :
    partAdvanceIF less l a j (j + 1) i = partAdvanceI less l a j i :=
  partAdvanceIF_eq less l a j (j + 1) i (by omega)

theorem partitionLoopGoF_eq (less : α → α → Bool) (a : Nat) :
    ∀ (fuel : Nat) (l : List α) (i j : Nat),
      partitionLoopGoF less a fuel l i j = partitionLoopGo less a fuel l i j := by
  intro fuel
  induction fuel with
  | zero =>
    intro l i j
    rfl
  | succ fuel ih =>
    intro l i j
    simp only [partitionLoopGoF, partitionLoopGo, partAdvanceIF_eq_full, ih]

theorem partitionGoF_eq (less : α → α → Bool) (a b pivot : Nat) (l : List α) :
    partitionGoF less a b pivot l = partitionGo less a b pivot l := by
  simp only [partitionGoF, partitionGo, partAdvanceIF_eq_full, partitionLoopGoF_eq]

theorem peqAdvanceIF_eq (less : α → α → Bool) (l : List α) (a j : Nat) :
    ∀ (fuel i : Nat), j + 1 ≤ fuel + i →
      peqAdvanceIF less l a j fuel i = peqAdvanceI less l a j i := by
  intro fuel
  induction fuel with
  | zero =>
    intro i hb
    rw [peqAdvanceI, dif_neg (by omega)]
    rfl
  | succ fuel ih =>
    intro i hb
    rw [peqAdvanceIF, peqAdvanceI]
    by_cases h : i ≤ j ∧ ¬ less (idx l a) (idx l i) = true
    · rw [if_pos h, dif_pos h]
      exact ih _ (by omega)
    · rw [if_neg h, dif_neg h]

theorem peqAdvanceIF_eq_full (less : α → α → Bool) (l : List α) (a j i : Nat) :
    peqAdvanceIF less l a j (j + 1) i = peqAdvanceI less l a j i :=
  peqAdvanceIF_eq less l a j (j + 1) i (by omega)

theorem partitionEqualLoopF_eq (less : α → α → Bool) (a : Nat) :
    ∀ (fuel : Nat) (l : List α) (i j : Nat),
      partitionEqualLoopF less a fuel l i j = partitionEqualLoop less a fuel l i j := by
  intro fuel
  induction fuel with
  | zero =>
    intro l i j
    rfl
  | succ fuel ih =>
    intro l i j
    simp only [partitionEqualLoopF, partitionEqualLoop, peqAdvanceIF_eq_full, ih]

theorem partitionEqualGoF_eq (less : α → α → Bool) (a b pivot : Nat) (l : List α) :
    partitionEqualGoF less a b pivot l = partitionEqualGo less a b pivot l := by
  simp only [partitionEqualGoF, partitionEqualGo, partitionEqualLoopF_eq]

theorem pdqsortAfterPivotF_eq (less : α → α → Bool)
    (recF rec : List α → Nat → Nat → Nat → Bool → Bool → List α)
    (hrec : ∀ l a b limit wb wp, recF l a b limit wb wp = rec l a b limit wb wp)
    (l3 : List α) (a b limit1 pivot1 : Nat) (wb wp : Bool) :
    pdqsortAfterPivotF less recF l3 a b limit1 pivot1 wb wp =
      pdqsortAfterPivot less rec l3 a b limit1 pivot1 wb wp := by
  simp only [pdqsortAfterPivotF, pdqsortAfterPivot, partitionEqualGoF_eq, partitionGoF_eq,
    hrec]

theorem pdqsortBodyF_eq (less : α → α → Bool)
    (recF rec : List α → Nat → Nat → Nat → Bool → Bool → List α)
    (hrec : ∀ l a b limit wb wp, recF l a b limit wb wp = rec l a b limit wb wp)
    (l : List α) (a b limit : Nat) (wb wp : Bool) :
    pdqsortBodyF less recF l a b limit wb wp = pdqsortBody less rec l a b limit wb wp := by
  simp only [pdqsortBodyF, pdqsortBody, reverseRangeGoF_eq, partialInsertionSortGoF_eq]
  exact if_congr Iff.rfl rfl (pdqsortAfterPivotF_eq less recF rec hrec _ a b _ _ wb wp)

theorem pdqsortGoF_eq (less : α → α → Bool) :
    ∀ (fuel : Nat) (l : List α) (a b limit : Nat) (wb wp : Bool),
      pdqsortGoF less fuel l a b limit wb wp = pdqsortGo less fuel l a b limit wb wp := by
  intro fuel
  induction fuel with
  | zero =>
    intro l a b limit wb wp
    rfl
  | succ fuel ih =>
    intro l a b limit wb wp
    rw [pdqsortGoF, pdqsortGo]
    by_cases h1 : b - a ≤ 12
    · rw [if_pos h1, if_pos h1, insertionSortGoF_eq]
    · rw [if_neg h1, if_neg h1]
      by_cases h2 : limit = 0
      · rw [if_pos h2, if_pos h2, heapSortGoF_eq]
      · rw [if_neg h2, if_neg h2]
        exact pdqsortBodyF_eq less (pdqsortGoF less fuel) (pdqsortGo less fuel)
          (fun l' a' b' limit' wb' wp' => ih l' a' b' limit' wb' wp') l a b limit wb wp

theorem sortSliceGoF_eq (less : α → α → Bool) (l : List α) :
    sortSliceGoF less l = sortSliceGo less l := by
  rw [sortSliceGoF, sortSliceGo, bitsLenF_eq]
  exact pdqsortGoF_eq less (l.length + 64) l 0 l.length (bitsLen l.length) true true

/-! ## Part 8: the claims -/

/-- C1 (corrected): the batch `fetchQueueAttributesBatch` delivers (and
`ListQueues` returns) is always a permutation of the valid detail results in
arrival (index) order, and is always — for every batch size, through every
pdqsort path — sorted by case-insensitive (lowercased) name.  In the regime
where Go's `sort.Slice` runs its insertion sort — at most 12 valid items — it
moreover equals the stable sort by lowercased name, so ties keep arrival
order.  The stability part of the claim is false in general, because
`sort.Slice` uses an unstable pdqsort: see the counterexample with 13
items. -/
theorem C1_batch_sorted_ties_small (fetch : String → Option Queue) (urls : List String) :
    List.Perm (fetchQueueAttributesBatch fetch urls).1 (validQueuesOf fetch urls) ∧
    SortedKey qKey (fetchQueueAttributesBatch fetch urls).1 ∧
    ((validQueuesOf fetch urls).length ≤ 12 →
      (fetchQueueAttributesBatch fetch urls).1 =
        insertionSortF lessQueue (validQueuesOf fetch urls) ∧
      ∀ k : String,
        (fetchQueueAttributesBatch fetch urls).1.filter (fun q => decide (qKey q = k)) =
          (validQueuesOf fetch urls).filter (fun q => decide (qKey q = k))) := by
  refine ⟨sortSliceGo_perm lessQueue (validQueuesOf fetch urls), ?_, ?_⟩
  · show SortedKey qKey (sortSliceGo lessQueue (validQueuesOf fetch urls))
    rw [lessQueue_eq_keyLess]
    exact sortSliceGo_sortedKey qKey (validQueuesOf fetch urls)
  · intro h12
    have hb : (fetchQueueAttributesBatch fetch urls).1 =
        insertionSortF lessQueue (validQueuesOf fetch urls) := by
      show sortSliceGo lessQueue (validQueuesOf fetch urls) =
        insertionSortF lessQueue (validQueuesOf fetch urls)
      rw [lessQueue_eq_keyLess]
      exact sortSliceGo_small_stable qKey (validQueuesOf fetch urls) h12
    refine ⟨hb, ?_⟩
    intro k
    rw [hb, lessQueue_eq_keyLess]
    have h := insertionSortF_filter qKey (validQueuesOf fetch urls) k
    exact (filter_decide_congr qKey k _ _ _).trans
      (h.trans (filter_decide_congr qKey k _ _ _))

/-- C1 witness: on three valid queues (12 or fewer) the batch is sorted by
lowercased name and is the stable insertion sort of the arrival list. -/
theorem C1_batch_sorted_ties_small_witness :
    List.Perm
      (fetchQueueAttributesBatch (getQueueAttributes (fun _ => true))
        ["u/b", "u/B", "u/a"]).1
      (validQueuesOf (getQueueAttributes (fun _ => true)) ["u/b", "u/B", "u/a"]) ∧
    SortedKey qKey
      (fetchQueueAttributesBatch (getQueueAttributes (fun _ => true))
        ["u/b", "u/B", "u/a"]).1 ∧
    (fetchQueueAttributesBatch (getQueueAttributes (fun _ => true))
        ["u/b", "u/B", "u/a"]).1 =
      insertionSortF lessQueue
        (validQueuesOf (getQueueAttributes (fun _ => true)) ["u/b", "u/B", "u/a"]) := by
  have h := C1_batch_sorted_ties_small (getQueueAttributes (fun _ => true))
    ["u/b", "u/B", "u/a"]
  exact ⟨h.1, h.2.1, (h.2.2 (by decide)).1⟩

/-- C1 counterexample: with the 13 queue URLs of `ex13urls` — every fetch
succeeding — the names "f" and "F" tie case-insensitively, yet the delivered
batch reverses their arrival order: `sort.Slice` (pdqsort) is not stable. -/
theorem C1_counterexample :
    (fetchQueueAttributesBatch (getQueueAttributes (fun _ => true)) ex13urls).1.filter
        (fun q => decide (qKey q = "f")) ≠
      (validQueuesOf (getQueueAttributes (fun _ => true)) ex13urls).filter
        (fun q => decide (qKey q = "f")) := by
  have hV : validQueuesOf (getQueueAttributes (fun _ => true)) ex13urls = ex13arrival := by
    decide
  have hsort : sortSliceGo lessQueue ex13arrival = ex13sorted := by
    rw [← sortSliceGoF_eq lessQueue ex13arrival]
    decide
  have hfinal : (fetchQueueAttributesBatch (getQueueAttributes (fun _ => true))
      ex13urls).1 = ex13sorted := by
    rw [fetchBatch_eq]
    show sortSliceGo lessQueue (validQueuesOf (getQueueAttributes (fun _ => true))
      ex13urls) = ex13sorted
    rw [hV]
    exact hsort
  rw [hfinal, hV]
  decide

/-- C2: when exactly one of the `M` detail fetches of a page fails and the
other `M − 1` succeed, `ListQueues` still returns normally; the failure is
counted as exactly one logged warning; and the batch contains exactly the
`M − 1` successfully fetched items (the failed slot compacted away), as a
permutation of them. -/
theorem C2_one_failure_drops_one (ok : String → Bool) (urls : List String) (M : Nat)
    (hM : urls.length = M) (hne : ∀ u ∈ urls, u ≠ "")
    (hone : (urls.filter (fun u => !(ok u))).length = 1) :
    listQueues (getQueueAttributes ok) [Except.ok urls] =
      Except.ok (fetchQueueAttributesBatch (getQueueAttributes ok) urls) ∧
    (fetchQueueAttributesBatch (getQueueAttributes ok) urls).2 = 1 ∧
    (fetchQueueAttributesBatch (getQueueAttributes ok) urls).1.length = M - 1 ∧
    List.Perm (fetchQueueAttributesBatch (getQueueAttributes ok) urls).1
      ((urls.filter ok).map (fun u => Queue.mk u (aws_extractQueueNameFromURL u))) := by
  have hvalid := validQueuesOf_getQueueAttributes ok urls hne
  have hie : urls.isEmpty = false := by
    cases urls with
    | nil => simp at hone
    | cons x xs => rfl
  refine ⟨?_, ?_, ?_, ?_⟩
  · show (match collectQueueURLs [Except.ok urls] with
      | Except.error e => Except.error e
      | Except.ok queueURLs =>
        if queueURLs.isEmpty then Except.ok (([] : List Queue), 0)
        else Except.ok (fetchQueueAttributesBatch (getQueueAttributes ok) queueURLs)) = _
    have hc : collectQueueURLs [Except.ok urls] = Except.ok urls := by
      show (match collectQueueURLs [] with
        | Except.error e => Except.error e
        | Except.ok acc => Except.ok (urls ++ acc)) = _
      show Except.ok (urls ++ []) = _
      rw [List.append_nil]
    rw [hc]
    simp only [hie, Bool.false_eq_true, if_false]
  · rw [fetchBatch_eq, warnings_getQueueAttributes]
    exact hone
  · rw [fetchBatch_eq]
    show (sortSliceGo lessQueue (validQueuesOf (getQueueAttributes ok) urls)).length = M - 1
    rw [sortSliceGo_length, hvalid, List.length_map]
    have hpart := filter_length_partition ok urls
    omega
  · rw [fetchBatch_eq]
    show List.Perm (sortSliceGo lessQueue (validQueuesOf (getQueueAttributes ok) urls)) _
    rw [hvalid] at *
    exact sortSliceGo_perm lessQueue _

/-- C2 witness: three URLs, the middle fetch failing, yield a normal return,
one warning, and a two-item batch. -/
theorem C2_one_failure_drops_one_witness :
    listQueues (getQueueAttributes (fun u => u != "u/b"))
        [Except.ok ["u/a", "u/b", "u/c"]] =
      Except.ok (fetchQueueAttributesBatch (getQueueAttributes (fun u => u != "u/b"))
        ["u/a", "u/b", "u/c"]) ∧
    (fetchQueueAttributesBatch (getQueueAttributes (fun u => u != "u/b"))
        ["u/a", "u/b", "u/c"]).2 = 1 ∧
    (fetchQueueAttributesBatch (getQueueAttributes (fun u => u != "u/b"))
        ["u/a", "u/b", "u/c"]).1.length = 3 - 1 ∧
    List.Perm (fetchQueueAttributesBatch (getQueueAttributes (fun u => u != "u/b"))
        ["u/a", "u/b", "u/c"]).1
      ((["u/a", "u/b", "u/c"].filter (fun u => u != "u/b")).map
        (fun u => Queue.mk u (aws_extractQueueNameFromURL u))) :=
  C2_one_failure_drops_one (fun u => u != "u/b") ["u/a", "u/b", "u/c"] 3 (by decide)
    (by decide) (by decide)

/-- C3: in every state reachable by the fan-out's interleaving semantics —
for every cap and every number of items — no more than `cap` detail fetches
hold a semaphore slot at once, and the configured default cap
`maxConcurrentSQSCalls` is 10. -/
theorem C3_concurrency_cap (cap n : Nat) (s : List FetchPhase)
    (h : FanoutReachable cap n s) :
    inFlightCount s ≤ cap ∧ maxConcurrentSQSCalls = 10 :=
  ⟨fanoutReachable_inv cap n s h, rfl⟩

/-- C3 witness: after one goroutine of three acquires under the default cap,
at most 10 fetches are in flight. -/
theorem C3_concurrency_cap_witness :
    inFlightCount
        (FetchPhase.inFlight :: List.replicate 2 FetchPhase.beforeAcquire) ≤
      maxConcurrentSQSCalls ∧
    maxConcurrentSQSCalls = 10 :=
  C3_concurrency_cap maxConcurrentSQSCalls 3
    (FetchPhase.inFlight :: List.replicate 2 FetchPhase.beforeAcquire)
    (Relation.ReflTransGen.single
      (FanoutStep.acquire [] (List.replicate 2 FetchPhase.beforeAcquire) (by decide)))

/-- C4: in both paged listings, when the `onBatch` callback returns `false`,
that invocation is the last one (the callback is never invoked again), the
operation returns a `nil` error, and the remaining pages are exactly the
unfetched suffix — no further page is fetched. -/
theorem C4_false_return_stops (fetch : String → Option Queue) {σq σf : Type}
    (cbq : σq → List Queue → Bool → Bool × σq)
    (cbf : σf → List FunctionModel → Bool → Bool × σf)
    (qpages : List (Except String (List String))) (sq : σq)
    (fpages : List (Except String (List FunctionModel))) (sf : σf) :
    ((∃ inv ∈ (listQueuesPagedCallback fetch cbq qpages sq).trace, inv.ret = false) →
      (∀ inv ∈ (listQueuesPagedCallback fetch cbq qpages sq).trace.dropLast,
        inv.ret = true) ∧
      (listQueuesPagedCallback fetch cbq qpages sq).err = none ∧
      (listQueuesPagedCallback fetch cbq qpages sq).rest =
        qpages.drop (listQueuesPagedCallback fetch cbq qpages sq).fetched ∧
      (listQueuesPagedCallback fetch cbq qpages sq).fetched +
        (listQueuesPagedCallback fetch cbq qpages sq).rest.length = qpages.length) ∧
    ((∃ inv ∈ (listFunctionsPagedCallback cbf fpages sf).trace, inv.ret = false) →
      (∀ inv ∈ (listFunctionsPagedCallback cbf fpages sf).trace.dropLast,
        inv.ret = true) ∧
      (listFunctionsPagedCallback cbf fpages sf).err = none ∧
      (listFunctionsPagedCallback cbf fpages sf).rest =
        fpages.drop (listFunctionsPagedCallback cbf fpages sf).fetched ∧
      (listFunctionsPagedCallback cbf fpages sf).fetched +
        (listFunctionsPagedCallback cbf fpages sf).rest.length = fpages.length) := by
  have hq := listQueuesPaged_props fetch cbq qpages sq
  have hf := listFunctionsPaged_props cbf fpages sf
  exact ⟨fun hex => ⟨hq.1, hq.2.1 hex, listQueuesPaged_rest fetch cbq qpages sq, hq.2.2⟩,
    fun hex => ⟨hf.1, hf.2.1 hex, listFunctionsPaged_rest cbf fpages sf, hf.2.2⟩⟩

/-- C4 witness: a callback answering `false` on the first of two pages leaves
a nil error, a one-invocation trace, and the second page unfetched — in both
listings. -/
theorem C4_false_return_stops_witness :
    ((∀ inv ∈ (listQueuesPagedCallback (getQueueAttributes (fun _ => true))
          (fun (s : Unit) _ _ => (false, s))
          [Except.ok ["u/a"], Except.ok ["u/b"]] ()).trace.dropLast,
        inv.ret = true) ∧
      (listQueuesPagedCallback (getQueueAttributes (fun _ => true))
          (fun (s : Unit) _ _ => (false, s))
          [Except.ok ["u/a"], Except.ok ["u/b"]] ()).err = none ∧
      (listQueuesPagedCallback (getQueueAttributes (fun _ => true))
          (fun (s : Unit) _ _ => (false, s))
          [Except.ok ["u/a"], Except.ok ["u/b"]] ()).rest =
        [Except.ok ["u/a"], Except.ok ["u/b"]].drop
          (listQueuesPagedCallback (getQueueAttributes (fun _ => true))
            (fun (s : Unit) _ _ => (false, s))
            [Except.ok ["u/a"], Except.ok ["u/b"]] ()).fetched ∧
      (listQueuesPagedCallback (getQueueAttributes (fun _ => true))
          (fun (s : Unit) _ _ => (false, s))
          [Except.ok ["u/a"], Except.ok ["u/b"]] ()).fetched +
        (listQueuesPagedCallback (getQueueAttributes (fun _ => true))
          (fun (s : Unit) _ _ => (false, s))
          [Except.ok ["u/a"], Except.ok ["u/b"]] ()).rest.length = 2) ∧
    ((∀ inv ∈ (listFunctionsPagedCallback (fun (s : Unit) _ _ => (false, s))
          [Except.ok [(⟨"f1"⟩ : FunctionModel)],
            Except.ok [(⟨"f2"⟩ : FunctionModel)]] ()).trace.dropLast,
        inv.ret = true) ∧
      (listFunctionsPagedCallback (fun (s : Unit) _ _ => (false, s))
          [Except.ok [(⟨"f1"⟩ : FunctionModel)],
            Except.ok [(⟨"f2"⟩ : FunctionModel)]] ()).err = none ∧
      (listFunctionsPagedCallback (fun (s : Unit) _ _ => (false, s))
          [Except.ok [(⟨"f1"⟩ : FunctionModel)],
            Except.ok [(⟨"f2"⟩ : FunctionModel)]] ()).rest =
        [Except.ok [(⟨"f1"⟩ : FunctionModel)],
          Except.ok [(⟨"f2"⟩ : FunctionModel)]].drop
          (listFunctionsPagedCallback (fun (s : Unit) _ _ => (false, s))
            [Except.ok [(⟨"f1"⟩ : FunctionModel)],
              Except.ok [(⟨"f2"⟩ : FunctionModel)]] ()).fetched ∧
      (listFunctionsPagedCallback (fun (s : Unit) _ _ => (false, s))
          [Except.ok [(⟨"f1"⟩ : FunctionModel)],
            Except.ok [(⟨"f2"⟩ : FunctionModel)]] ()).fetched +
        (listFunctionsPagedCallback (fun (s : Unit) _ _ => (false, s))
          [Except.ok [(⟨"f1"⟩ : FunctionModel)],
            Except.ok [(⟨"f2"⟩ : FunctionModel)]] ()).rest.length = 2) := by
  have h := C4_false_return_stops (getQueueAttributes (fun _ => true))
    (fun (s : Unit) _ _ => (false, s)) (fun (s : Unit) _ _ => (false, s))
    [Except.ok ["u/a"], Except.ok ["u/b"]] ()
    [Except.ok [(⟨"f1"⟩ : FunctionModel)], Except.ok [(⟨"f2"⟩ : FunctionModel)]] ()
  refine ⟨h.1 ?_, h.2 ?_⟩
  · refine ⟨⟨(fetchQueueAttributesBatch (getQueueAttributes (fun _ => true)) ["u/a"]).1,
      true, false⟩, ?_, rfl⟩
    simp [listQueuesPagedCallback]
  · refine ⟨⟨[(⟨"f1"⟩ : FunctionModel)], true, false⟩, ?_, rfl⟩
    simp [listFunctionsPagedCallback]

/-- C5: in every paged load — queues, functions, and tables — the
successfully delivered batch messages carry `isAppend = false` on the first
delivery and `isAppend = true` on every subsequent one. -/
theorem C5_first_replace_then_append (fetch : String → Option Queue)
    (qpages : List (Except String (List String)))
    (fpages : List (Except String (List FunctionModel)))
    (tpages : List (Except String (List TableModel))) :
    FirstReplaceThenAppend (((loadQueuesStream fetch qpages).filter
        (fun msg => msg.err.isNone)).map (fun msg => msg.isAppend)) ∧
    FirstReplaceThenAppend (((loadFunctionsStream fpages).filter
        (fun msg => msg.err.isNone)).map (fun msg => msg.isAppend)) ∧
    FirstReplaceThenAppend (((loadTablesStream tpages).filter
        (fun msg => msg.err.isNone)).map (fun msg => msg.isAppend)) := by
  refine ⟨?_, ?_, ?_⟩
  · rcases loadQueues_run_msgs fetch qpages true [] with ⟨t, h1, h2, h3⟩
    rw [List.nil_append] at h1
    refine stream_flags_shape (loadQueuesStream fetch qpages) t
      (errTailOf (listQueuesPagedCallback fetch loaderCallback qpages (true, [])).err)
      ?_ (by rw [h2]) h3
      (errTailOf_err (listQueuesPagedCallback fetch loaderCallback qpages (true, [])).err)
    show (listQueuesPagedCallback fetch loaderCallback qpages (true, [])).final.2 ++
        errTailOf (listQueuesPagedCallback fetch loaderCallback qpages (true, [])).err =
      t ++ errTailOf (listQueuesPagedCallback fetch loaderCallback qpages (true, [])).err
    rw [h1]
  · rcases loadFunctions_run_msgs fpages true [] with ⟨t, h1, h2, h3⟩
    rw [List.nil_append] at h1
    refine stream_flags_shape (loadFunctionsStream fpages) t
      (errTailOf (listFunctionsPagedCallback loaderCallback fpages (true, [])).err)
      ?_ (by rw [h2]) h3
      (errTailOf_err (listFunctionsPagedCallback loaderCallback fpages (true, [])).err)
    show (listFunctionsPagedCallback loaderCallback fpages (true, [])).final.2 ++
        errTailOf (listFunctionsPagedCallback loaderCallback fpages (true, [])).err =
      t ++ errTailOf (listFunctionsPagedCallback loaderCallback fpages (true, [])).err
    rw [h1]
  · rcases loadTables_run_msgs tpages true [] with ⟨t, h1, h2, h3⟩
    rw [List.nil_append] at h1
    refine stream_flags_shape (loadTablesStream tpages) t
      (errTailOf (listTablesPagedCallback loaderCallback tpages (true, [])).err)
      ?_ (by rw [h2]) h3
      (errTailOf_err (listTablesPagedCallback loaderCallback tpages (true, [])).err)
    show (listTablesPagedCallback loaderCallback tpages (true, [])).final.2 ++
        errTailOf (listTablesPagedCallback loaderCallback tpages (true, [])).err =
      t ++ errTailOf (listTablesPagedCallback loaderCallback tpages (true, [])).err
    rw [h1]

/-- C6: a public target — any HTTP API, or a REST API whose endpoint type is
not "PRIVATE" — never enters the jump-host path: `startAPIGatewayTunnel`
leaves the UI state untouched (no pending tunnel request, no jump-host
selection view, no EC2 loading) and goes directly to the public proxy. -/
theorem C6_public_skips_jump_host (st : TunnelUIState) (api : APIRef)
    (stage : APIStage) (localPort : Int) (h : isPrivateAPI api = false) :
    startAPIGatewayTunnel st api stage localPort =
      (st, TunnelCmd.publicProxy api stage localPort) ∧
    (∀ id name : String, isPrivateAPI (APIRef.httpAPI id name) = false) ∧
    (∀ id name endpointType : String, endpointType ≠ "PRIVATE" →
      isPrivateAPI (APIRef.restAPI id name endpointType) = false) := by
  refine ⟨?_, fun id name => rfl, fun id name endpointType hne => ?_⟩
  · rw [startAPIGatewayTunnel, if_neg]
    rw [h]
    simp
  · show (endpointType == "PRIVATE") = false
    exact beq_eq_false_iff_ne.2 hne

/-- C6 witness: an HTTP API target goes straight to the public proxy with the
state unchanged. -/
theorem C6_public_skips_jump_host_witness :
    startAPIGatewayTunnel default (APIRef.httpAPI "h1" "api") ⟨"prod"⟩ 0 =
      (default, TunnelCmd.publicProxy (APIRef.httpAPI "h1" "api") ⟨"prod"⟩ 0) ∧
    (∀ id name : String, isPrivateAPI (APIRef.httpAPI id name) = false) ∧
    (∀ id name endpointType : String, endpointType ≠ "PRIVATE" →
      isPrivateAPI (APIRef.restAPI id name endpointType) = false) :=
  C6_public_skips_jump_host default (APIRef.httpAPI "h1" "api") ⟨"prod"⟩ 0 rfl

/-- C7 (corrected): jump-host discovery (`findJumpHostForAPIGateway`) runs
under a 60-second deadline, and `startTunnelWithPort` and
`startPrivateAPIGWTunnel` establish under a 30-second deadline — but the
establishment phase of `startPrivateAPIGWTunnelWithJumpHost` uses a
60-second context, not the claimed 30; an operation still running past its
deadline observes a timeout. -/
theorem C7_deadlines (cfg : Option VawsConfig) (profile : String)
    (findJumpHost : String → String → String → List String → List String →
      Except AWSErr EC2Instance)
    (findVpcEndpoint : String → Except AWSErr VpcEndpoint)
    (api : APIRef) (stage : APIStage) (localPort : Int)
    (startTunnel : Nat → String → String → String → Int → Int →
      Except AWSErr ECSTunnel)
    (service task container : String) (remotePort lp : Int)
    (startPrivateTunnel : Nat → Option APIRef → APIStage → EC2Instance →
      Option VpcEndpoint → String → Int → Except AWSErr APIGWTunnel)
    (apiO : Option APIRef) (stage2 : APIStage) (jh : EC2Instance)
    (vpce : Option VpcEndpoint) (lp2 : Int)
    (st : TunnelUIState) (jh2 : EC2Instance) :
    (findJumpHostForAPIGateway cfg profile findJumpHost findVpcEndpoint api stage
      localPort).timeoutSeconds = 60 ∧
    (startTunnelWithPort startTunnel service task container remotePort
      lp).timeoutSeconds = 30 ∧
    (startPrivateAPIGWTunnel cfg profile startPrivateTunnel apiO stage2 jh vpce
      lp2).timeoutSeconds = 30 ∧
    (startPrivateAPIGWTunnelWithJumpHost cfg profile findVpcEndpoint
      startPrivateTunnel st jh2).2.timeoutSeconds = 60 ∧
    (∀ (μ : Type) (c : AsyncCmd μ) (elapsed : Nat),
      c.timeoutSeconds < elapsed → ctxTimedOut c elapsed = true) :=
  ⟨rfl, rfl, rfl, rfl, fun μ c elapsed hlt => decide_eq_true hlt⟩

/-- C7 witness: the four deadlines at concrete oracles, and a 30-second
command observed after 31 seconds has timed out. -/
theorem C7_deadlines_witness :
    (findJumpHostForAPIGateway none "" (fun _ _ _ _ _ => Except.ok ⟨"jh", ""⟩)
      (fun _ => Except.error (AWSErr.base "e")) (APIRef.httpAPI "h" "a") ⟨"s"⟩
      0).timeoutSeconds = 60 ∧
    (startTunnelWithPort (fun _ _ _ _ _ _ => Except.ok ⟨"t"⟩) "svc" "task" "ctr" 80
      0).timeoutSeconds = 30 ∧
    (startPrivateAPIGWTunnel none "" (fun _ _ _ _ _ _ _ => Except.ok ⟨"g"⟩) none ⟨"s"⟩
      ⟨"jh", ""⟩ none 0).timeoutSeconds = 30 ∧
    (startPrivateAPIGWTunnelWithJumpHost none "" (fun _ => Except.error (AWSErr.base "e"))
      (fun _ _ _ _ _ _ _ => Except.ok ⟨"g"⟩) default ⟨"jh", ""⟩).2.timeoutSeconds = 60 ∧
    ctxTimedOut (⟨30, 0⟩ : AsyncCmd Nat) 31 = true := by
  have h := C7_deadlines none "" (fun _ _ _ _ _ => Except.ok ⟨"jh", ""⟩)
    (fun _ => Except.error (AWSErr.base "e")) (APIRef.httpAPI "h" "a") ⟨"s"⟩ 0
    (fun _ _ _ _ _ _ => Except.ok ⟨"t"⟩) "svc" "task" "ctr" 80 0
    (fun _ _ _ _ _ _ _ => Except.ok ⟨"g"⟩) none ⟨"s"⟩ ⟨"jh", ""⟩ none 0
    default ⟨"jh", ""⟩
  exact ⟨h.1, h.2.1, h.2.2.1, h.2.2.2.1, h.2.2.2.2 Nat ⟨30, 0⟩ 31 (by decide)⟩

/-- C7 counterexample: the establishment phase of
`startPrivateAPIGWTunnelWithJumpHost` creates a 60-second context, refuting
the claimed 30-second deadline for it. -/
theorem C7_counterexample :
    (startPrivateAPIGWTunnelWithJumpHost none ""
        (fun _ => Except.error (AWSErr.base "x"))
        (fun _ _ _ _ _ _ _ => Except.ok ⟨"t"⟩) default
        ⟨"b", "vpc"⟩).2.timeoutSeconds = 60 ∧
      (60 : Nat) ≠ 30 :=
  ⟨rfl, by decide⟩

/-- C8: once `FindJumpHost` resolves a jump host, the VPC-endpoint lookup is
best-effort: `findJumpHostForAPIGateway` returns a successful
`jumpHostFoundMsg` (jump host set, error nil) whether the jump host has no
VPC ID or `FindAPIGatewayVpcEndpoint` fails, and a lookup failure is carried
only as informational `vpcEndpointErr`. -/
theorem C8_vpce_lookup_best_effort (cfg : Option VawsConfig) (profile : String)
    (findJumpHost : String → String → String → List String → List String →
      Except AWSErr EC2Instance)
    (findVpcEndpoint : String → Except AWSErr VpcEndpoint)
    (api : APIRef) (stage : APIStage) (localPort : Int) (jh : EC2Instance)
    (hfound : ∀ a b c dTags dNames, findJumpHost a b c dTags dNames = Except.ok jh) :
    (findJumpHostForAPIGateway cfg profile findJumpHost findVpcEndpoint api stage
      localPort).msg.jumpHost = some jh ∧
    (findJumpHostForAPIGateway cfg profile findJumpHost findVpcEndpoint api stage
      localPort).msg.err = none ∧
    (jh.vpcID = "" →
      (findJumpHostForAPIGateway cfg profile findJumpHost findVpcEndpoint api stage
        localPort).msg.vpcEndpoint = none ∧
      (findJumpHostForAPIGateway cfg profile findJumpHost findVpcEndpoint api stage
        localPort).msg.vpcEndpointErr = none) ∧
    (∀ e : AWSErr, jh.vpcID ≠ "" → findVpcEndpoint jh.vpcID = Except.error e →
      (findJumpHostForAPIGateway cfg profile findJumpHost findVpcEndpoint api stage
        localPort).msg.vpcEndpoint = none ∧
      (findJumpHostForAPIGateway cfg profile findJumpHost findVpcEndpoint api stage
        localPort).msg.vpcEndpointErr = some e) := by
  simp only [findJumpHostForAPIGateway, hfound]
  refine ⟨trivial, trivial, fun hv => ?_, fun e hv hvpce => ?_⟩
  · rw [if_neg (by simp [hv])]
    exact ⟨rfl, rfl⟩
  · rw [if_pos hv, hvpce]
    exact ⟨rfl, rfl⟩

/-- C8 witness: a resolved jump host in "vpc-1" with a failing endpoint lookup
still yields a successful message carrying the endpoint error as data. -/
theorem C8_vpce_lookup_best_effort_witness :
    (findJumpHostForAPIGateway none "" (fun _ _ _ _ _ => Except.ok ⟨"bastion", "vpc-1"⟩)
      (fun _ => Except.error (AWSErr.base "x")) (APIRef.restAPI "r" "api" "PRIVATE")
      ⟨"prod"⟩ 0).msg.jumpHost = some ⟨"bastion", "vpc-1"⟩ ∧
    (findJumpHostForAPIGateway none "" (fun _ _ _ _ _ => Except.ok ⟨"bastion", "vpc-1"⟩)
      (fun _ => Except.error (AWSErr.base "x")) (APIRef.restAPI "r" "api" "PRIVATE")
      ⟨"prod"⟩ 0).msg.err = none ∧
    (findJumpHostForAPIGateway none "" (fun _ _ _ _ _ => Except.ok ⟨"bastion", "vpc-1"⟩)
      (fun _ => Except.error (AWSErr.base "x")) (APIRef.restAPI "r" "api" "PRIVATE")
      ⟨"prod"⟩ 0).msg.vpcEndpoint = none ∧
    (findJumpHostForAPIGateway none "" (fun _ _ _ _ _ => Except.ok ⟨"bastion", "vpc-1"⟩)
      (fun _ => Except.error (AWSErr.base "x")) (APIRef.restAPI "r" "api" "PRIVATE")
      ⟨"prod"⟩ 0).msg.vpcEndpointErr = some (AWSErr.base "x") := by
  have h := C8_vpce_lookup_best_effort none ""
    (fun _ _ _ _ _ => Except.ok ⟨"bastion", "vpc-1"⟩)
    (fun _ => Except.error (AWSErr.base "x")) (APIRef.restAPI "r" "api" "PRIVATE")
    ⟨"prod"⟩ 0 ⟨"bastion", "vpc-1"⟩ (fun _ _ _ _ _ => rfl)
  have h4 := h.2.2.2 (AWSErr.base "x") (by decide) rfl
  exact ⟨h.1, h.2.1, h4.1, h4.2⟩

/-- C9: the UI and AWS-client copies of `extractQueueNameFromURL` compute the
same function; on every input it returns the substring after the last `'/'`
(the whole string when none occurs); and the empty-parts fallback is
unreachable because `strings.Split` always yields at least one part. -/
theorem C9_extract_copies_agree (url : String) :
    ui_extractQueueNameFromURL url = aws_extractQueueNameFromURL url ∧
    aws_extractQueueNameFromURL url = afterLastSlash url ∧
    0 < (goSplit '/' url.data).length := by
  refine ⟨rfl, ?_, goSplit_length_pos '/' url.data⟩
  show (if (goSplit '/' url.data).length > 0 then
      String.mk ((goSplit '/' url.data).getLastD []) else url) = afterLastSlash url
  rw [if_pos (goSplit_length_pos '/' url.data)]
  exact congrArg String.mk (goSplit_getLastD_eq_afterLast '/' url.data)

/-- C10: starting from a freshly created selector of any fixed size, every
sequence of `Up`, `Down` and `SetCurrentRegion` operations keeps
`0 ≤ offset ≤ cursor < len(flatRegions)` and
`cursor < offset + visibleCount()`. -/
theorem C10_selector_invariant (w h : Int) (ops : List SelOp) :
    SelInv (applySelOps (newRegionSelector.setSize w h) ops) := by
  have hstep : ∀ (ops0 : List SelOp) (r : RegionSelector),
      SelInv r → SelInv (applySelOps r ops0) := by
    intro ops0
    induction ops0 with
    | nil => intro r hr; exact hr
    | cons op rest ih =>
      intro r hr
      show SelInv (applySelOps (applySelOp r op) rest)
      exact ih _ (selOp_inv r op hr)
  exact hstep ops _ (selInv_init w h)

end VAWS
